import Mathlib

/-!
Dreamland workspace module: configuration store, workspace registry and
workspace commands.

A shallow embedding of `src/modules/sources/workspace.cpp`:

* `std::string` is a list of characters (`Str`);
* `std::map<std::string, std::string>` is a list of entries whose keys are
  strictly ascending in the order of `std::string::compare` (`StrMap`);
* the file system is a map from paths to the content of the regular file
  stored there (`FileSystem`); a file is read and written under the path as
  it is spelled, and writing a file always succeeds;
* the calls that look at the tree, `fs::exists`, `fs::remove_all`, `chdir`
  and the test that makes `fs::create_directories` throw, go by the place a
  path leads to (`resolve`), so that two spellings of a path are one place;
* a `std::ifstream` read with `std::getline` is the list of lines of the
  content (`getlines`);
* a command works on a `World`, the files, the set of directories and the
  working directory, and reads `HOME`, `USER`, `SHELL`, `WS_NAME` and the
  clock from a `ProcEnv`;
* `system` is a parameter of the commands that call it (`System`), and the
  commands passed to it are recorded (`Outcome`);
* `fork` and `execlp` are parameters of `cmd_enter` (`Os`), whose result says
  whether the call returns or the process becomes the shell (`Entered`);
* a loop whose end is not given by its syntax runs on fuel and returns
  `none` when the fuel is used up (`substitute_loop`).
-/

namespace Dreamland

/-- A `std::string`, as the sequence of its characters. For text in UTF-8
the order of the character codes is the order of the byte sequences. -/
abbrev Str := List Char

/-- The order of `std::string::compare`: lexicographic on the character codes,
a proper prefix comes first. -/
def strLt : Str → Str → Bool
  | _, [] => false
  | [], _ :: _ => true
  | a :: xs, b :: ys =>
    if a.toNat < b.toNat then true
    else if b.toNat < a.toNat then false
    else strLt xs ys

/-- The `data[key] = val` of a `std::map`, on the ascending list of entries:
the value of an existing key is replaced, a new key is put in its place. -/
def insertEntry (k v : Str) : List (Str × Str) → List (Str × Str)
  | [] => [(k, v)]
  | (k', v') :: rest =>
    if strLt k k' then (k, v) :: (k', v') :: rest
    else if strLt k' k then (k', v') :: insertEntry k v rest
    else (k', v) :: rest

/-- The `data.find(key)` of a `std::map`, on the list of entries. -/
def lookupEntry (k : Str) : List (Str × Str) → Option Str
  | [] => none
  | (k', v') :: rest => if k' = k then some v' else lookupEntry k rest

/-- The keys of a list of entries are strictly ascending. -/
def KeysAscending (es : List (Str × Str)) : Prop :=
  es.Pairwise (fun a b => strLt a.1 b.1 = true)

instance (es : List (Str × Str)) : Decidable (KeysAscending es) := by
  unfold KeysAscending; infer_instance

/-- A `std::map<std::string, std::string>`: its entries in iteration order. -/
structure StrMap where
  entries : List (Str × Str)
  ascending : KeysAscending entries
deriving DecidableEq

/-- The function `std::isspace` in the "C" locale: true for the space and for
`\t`, `\n`, `\v`, `\f` and `\r`, the characters of codes 9 to 13. -/
def isspace (c : Char) : Bool :=
  decide (c.toNat = 32) || (decide (9 ≤ c.toNat) && decide (c.toNat ≤ 13))

/-- The call `s.find(c)` of `std::string`: the index of the first `c`, `none` for `npos`. -/
def find (c : Char) : Str → Option Nat
  | [] => none
  | x :: xs => if x = c then some 0 else (find c xs).map (· + 1)

/-- The test `k.find(pfx) == 0`: the string `k` starts with `pfx`. -/
def starts_with (pfx k : Str) : Bool := pfx.isPrefixOf k

/-- The lines `while (std::getline(f, line))` reads from a stream holding `s`:
the pieces between newlines; a final piece without newline is a line, unless
it is empty. -/
def getlines : Str → List Str
  | [] => []
  | c :: cs =>
    if c = '\n' then [] :: getlines cs
    else match getlines cs with
      | [] => [[c]]
      | l :: ls => (c :: l) :: ls

/-- The digits `std::to_string` writes for `n`, at most `fuel` of them. -/
def to_string_digits : Nat → Nat → Str
  | 0, _ => []
  | fuel + 1, n =>
    if n < 10 then [Char.ofNat (48 + n)]
    else to_string_digits fuel (n / 10) ++ [Char.ofNat (48 + n % 10)]

/-- The call `std::to_string(n)` for a `size_t`: the decimal digits of `n`. -/
def to_string (n : Nat) : Str := to_string_digits (n + 1) n

theorem char_eq_of_toNat_eq {a b : Char} (h : a.toNat = b.toNat) : a = b :=
  Char.ext (UInt32.ext h)

theorem strLt_irrefl (a : Str) : strLt a a = false := by
  induction a with
  | nil => rfl
  | cons x xs ih => simp [strLt, ih]

theorem strLt_trans {a b c : Str} (hab : strLt a b = true) (hbc : strLt b c = true) :
    strLt a c = true := by
  induction a generalizing b c with
  | nil =>
    cases b with
    | nil => simp [strLt] at hab
    | cons y ys =>
      cases c with
      | nil => simp [strLt] at hbc
      | cons z zs => simp [strLt]
  | cons x xs ih =>
    cases b with
    | nil => simp [strLt] at hab
    | cons y ys =>
      cases c with
      | nil => simp [strLt] at hbc
      | cons z zs =>
        simp only [strLt] at hab hbc ⊢
        split_ifs at hab hbc ⊢ <;> first | rfl | omega | exact ih hab hbc

theorem strLt_asymm {a b : Str} (hab : strLt a b = true) : strLt b a = false := by
  cases h : strLt b a with
  | false => rfl
  | true => have := strLt_trans hab h; rw [strLt_irrefl] at this; cases this

theorem strLt_connex {a b : Str} (hab : strLt a b = false) (hba : strLt b a = false) :
    a = b := by
  induction a generalizing b with
  | nil =>
    cases b with
    | nil => rfl
    | cons y ys => simp [strLt] at hab
  | cons x xs ih =>
    cases b with
    | nil => simp [strLt] at hba
    | cons y ys =>
      simp only [strLt] at hab hba
      by_cases h1 : x.toNat < y.toNat
      · simp [h1] at hab
      · by_cases h2 : y.toNat < x.toNat
        · simp [h2] at hba
        · simp only [h1, h2, if_false] at hab hba
          have hxy : x = y := char_eq_of_toNat_eq (by omega)
          rw [hxy, ih hab hba]

theorem strLt_ne {a b : Str} (hab : strLt a b = true) : a ≠ b := by
  intro h; subst h; rw [strLt_irrefl] at hab; cases hab

theorem mem_insertEntry {k v : Str} {es : List (Str × Str)} {e : Str × Str}
    (h : e ∈ insertEntry k v es) : e = (k, v) ∨ e ∈ es := by
  induction es with
  | nil => simp [insertEntry] at h; exact Or.inl h
  | cons hd tl ih =>
    obtain ⟨k', v'⟩ := hd
    simp only [insertEntry] at h
    split_ifs at h with h1 h2
    · rcases List.mem_cons.1 h with h | h
      · exact Or.inl h
      · exact Or.inr h
    · rcases List.mem_cons.1 h with h | h
      · exact Or.inr (h ▸ List.mem_cons_self _ _)
      · rcases ih h with h | h
        · exact Or.inl h
        · exact Or.inr (List.mem_cons_of_mem _ h)
    · have hk : k = k' := strLt_connex (by simpa using h1) (by simpa using h2)
      rcases List.mem_cons.1 h with h | h
      · exact Or.inl (by rw [h, hk])
      · exact Or.inr (List.mem_cons_of_mem _ h)

theorem insertEntry_ascending (k v : Str) {es : List (Str × Str)} (h : KeysAscending es) :
    KeysAscending (insertEntry k v es) := by
  unfold KeysAscending at h ⊢
  induction es with
  | nil => simp [insertEntry]
  | cons hd tl ih =>
    obtain ⟨k', v'⟩ := hd
    obtain ⟨h1, h2⟩ := List.pairwise_cons.1 h
    simp only [insertEntry]
    split_ifs with c1 c2
    · refine List.pairwise_cons.2 ⟨?_, h⟩
      intro e he
      rcases List.mem_cons.1 he with he | he
      · rw [he]; exact c1
      · exact strLt_trans c1 (h1 e he)
    · refine List.pairwise_cons.2 ⟨?_, ih h2⟩
      intro e he
      rcases mem_insertEntry he with he | he
      · rw [he]; exact c2
      · exact h1 e he
    · exact List.pairwise_cons.2 ⟨h1, h2⟩

/-- The file system: the content of the regular file at each path, if there
is one. A path is the text the program opens the file with. -/
abbrev FileSystem := Str → Option Str

/-- A `std::ofstream` opened on `path`, filled with `content` and closed.
The file is the one of this spelling of the path: that two spellings are two
files is said with `same_file` where it matters. -/
def FileSystem.write (fs : FileSystem) (path content : Str) : FileSystem :=
  fun p => if p = path then some content else fs p

/-- The file system without any file. -/
def FileSystem.none : FileSystem := fun _ => Option.none

namespace StrMap

/-- The empty map. -/
def empty : StrMap := ⟨[], List.Pairwise.nil⟩

/-- The assignment `m[k] = v`. -/
def set (m : StrMap) (k v : Str) : StrMap :=
  ⟨insertEntry k v m.entries, insertEntry_ascending k v m.ascending⟩

/-- The value `m.find(k)` points to, `none` for `m.end()`. -/
def find (m : StrMap) (k : Str) : Option Str := lookupEntry k m.entries

end StrMap

/-- The class `ConfigParser`: its only member is the map `data`. -/
structure ConfigParser where
  data : StrMap
deriving DecidableEq

namespace ConfigParser

/-- A parser whose `data` is empty. -/
def empty : ConfigParser := ⟨StrMap.empty⟩

/-- The function `ConfigParser::trim`: `start` skips the leading whitespace, then `end`
steps back over the trailing whitespace. -/
def trim (s : Str) : Str := (s.dropWhile isspace).rdropWhile isspace

/-- The quote removal of `load`: a value of size at least 2 that starts and
ends with `"` loses its first and last character. -/
def strip_quotes (val : Str) : Str :=
  if 2 ≤ val.length ∧ val.head? = some '"' ∧ val.getLast? = some '"' then
    (val.drop 1).take (val.length - 2)
  else val

/-- The position of the separator `load` looks for in a trimmed line: the
first `:`, and the first `=` when there is no `:`. -/
def find_separator (line : Str) : Option Nat :=
  match Dreamland.find ':' line with
  | some eq => some eq
  | Option.none => Dreamland.find '=' line

/-- The body of the loop of `ConfigParser::load` up to the assignment: the key
and the value the line is stored under, `none` when the loop goes on to the
next line without storing anything. -/
def parse_line (raw : Str) : Option (Str × Str) :=
  let line := trim raw
  if line = [] ∨ line.head? = some '#' then Option.none
  else
    match find_separator line with
    | Option.none => Option.none
    | some eq =>
      let key := trim (line.take eq)
      let val := trim (line.drop (eq + 1))
      some (key, strip_quotes val)

/-- The function `ConfigParser::set`. -/
def set (self : ConfigParser) (key val : Str) : ConfigParser := ⟨self.data.set key val⟩

/-- One turn of the loop of `ConfigParser::load`. -/
def load_line (self : ConfigParser) (raw : Str) : ConfigParser :=
  match parse_line raw with
  | Option.none => self
  | some (key, val) => self.set key val

/-- The loop of `ConfigParser::load` over the lines of a stream. -/
def load_lines (self : ConfigParser) (lines : List Str) : ConfigParser :=
  lines.foldl load_line self

/-- The function `ConfigParser::load`: `false` when the file does not exist, otherwise the
lines of the file are stored into `data`, which is not cleared first. -/
def load (self : ConfigParser) (fs : FileSystem) (path : Str) : Bool × ConfigParser :=
  match fs path with
  | Option.none => (false, self)
  | some content => (true, self.load_lines (getlines content))

/-- The text `ConfigParser::save` streams into the file: for each entry of
`data`, in iteration order, the key, `": "`, the value and a newline. -/
def save_text (self : ConfigParser) : Str :=
  self.data.entries.foldl (fun out e => out ++ e.1 ++ ": ".toList ++ e.2 ++ "\n".toList) []

/-- The function `ConfigParser::save`. -/
def save (self : ConfigParser) (fs : FileSystem) (path : Str) : FileSystem :=
  fs.write path self.save_text

/-- The function `ConfigParser::get` with its default `dflt`. -/
def get (self : ConfigParser) (key dflt : Str) : Str :=
  match self.data.find key with
  | some v => v
  | Option.none => dflt

/-- The function `ConfigParser::has`. -/
def has (self : ConfigParser) (key : Str) : Bool := (self.data.find key).isSome

/-- The function `ConfigParser::get_list`: the values of the keys that start with `pfx`, in
iteration order of `data`. -/
def get_list (self : ConfigParser) (pfx : Str) : List Str :=
  (self.data.entries.filter (fun e => starts_with pfx e.1)).map (fun e => e.2)

/-- The loop `for (i = 0; i < vals.size(); i++) config.set(pfx + to_string(i), vals[i])`
of `save_config`, from index `i` on. -/
def set_list_from (pfx : Str) : Nat → List Str → ConfigParser → ConfigParser
  | _, [], c => c
  | i, v :: vs, c => set_list_from pfx (i + 1) vs (c.set (pfx ++ to_string i) v)

/-- The loop `for (auto& [k, v] : env_vars) config.set("env." + k, v)`. -/
def set_env (c : ConfigParser) (env : StrMap) : ConfigParser :=
  env.entries.foldl (fun c e => c.set ("env.".toList ++ e.1) e.2) c

/-- The call `set(key, val)` under the guard `if (!val.empty())`. -/
def set_nonempty (c : ConfigParser) (key val : Str) : ConfigParser :=
  if val = [] then c else c.set key val

end ConfigParser

/-- The struct `Workspace`; its member `run_cmd` is the field `run_cmd_`. -/
structure Workspace where
  name : Str
  path : Str
  lang : Str
  display_name : Str
  description : Str
  isolated : Bool
  build_cmd : Str
  clean_cmd : Str
  run_cmd_ : Str
  test_cmd : Str
  env_vars : StrMap
  mounts : List Str
  init_cmds : List Str
  created : Str
  author : Str
  tags : List Str
  config : ConfigParser
deriving DecidableEq

namespace Workspace

/-- The value of `Workspace()`: empty strings, maps and lists, `isolated` false. -/
def fresh : Workspace :=
  { name := [], path := [], lang := [], display_name := [], description := [],
    isolated := false, build_cmd := [], clean_cmd := [], run_cmd_ := [], test_cmd := [],
    env_vars := StrMap.empty, mounts := [], init_cmds := [], created := [], author := [],
    tags := [], config := ConfigParser.empty }

/-- The path `path + "/.ws/config"` of the configuration file of a workspace. -/
def cfg_path (w : Workspace) : Str := w.path ++ "/.ws/config".toList

/-- The loop of `load_config` over `config.data` that fills `env_vars`. -/
def load_env (config : ConfigParser) (env : StrMap) : StrMap :=
  config.data.entries.foldl
    (fun env e => if starts_with "env.".toList e.1 then env.set (e.1.drop 4) e.2 else env) env

/-- The assignments of `load_config` once `config` is loaded. -/
def assign_fields (w : Workspace) (config : ConfigParser) : Workspace :=
  { w with
    config := config
    display_name := config.get "display_name".toList w.name
    description := config.get "description".toList []
    lang := config.get "lang".toList "generic".toList
    isolated := decide (config.get "isolated".toList [] = "true".toList)
    build_cmd := config.get "build_cmd".toList []
    clean_cmd := config.get "clean_cmd".toList []
    run_cmd_ := config.get "run_cmd".toList []
    test_cmd := config.get "test_cmd".toList []
    created := config.get "created".toList []
    author := config.get "author".toList []
    env_vars := load_env config w.env_vars
    mounts := config.get_list "mount.".toList
    init_cmds := config.get_list "init.".toList
    tags := config.get_list "tag.".toList }

/-- The function `Workspace::load_config`: its result and the workspace afterwards. -/
def load_config (w : Workspace) (fs : FileSystem) : Bool × Workspace :=
  match w.config.load fs w.cfg_path with
  | (false, _) => (false, w)
  | (true, config) => (true, w.assign_fields config)

/-- The member `config` of a workspace after the `config.set` calls of
`save_config`. -/
def save_config_store (w : Workspace) : ConfigParser :=
  let c := w.config.set "name".toList w.name
  let c := c.set "display_name".toList w.display_name
  let c := c.set "description".toList w.description
  let c := c.set "lang".toList w.lang
  let c := c.set "isolated".toList (if w.isolated then "true".toList else "false".toList)
  let c := c.set_nonempty "build_cmd".toList w.build_cmd
  let c := c.set_nonempty "clean_cmd".toList w.clean_cmd
  let c := c.set_nonempty "run_cmd".toList w.run_cmd_
  let c := c.set_nonempty "test_cmd".toList w.test_cmd
  let c := c.set_nonempty "created".toList w.created
  let c := c.set_nonempty "author".toList w.author
  let c := c.set_env w.env_vars
  let c := ConfigParser.set_list_from "mount.".toList 0 w.mounts c
  let c := ConfigParser.set_list_from "init.".toList 0 w.init_cmds c
  ConfigParser.set_list_from "tag.".toList 0 w.tags c

/-- The function `Workspace::save_config`: the workspace and the file system afterwards. -/
def save_config (w : Workspace) (fs : FileSystem) : Workspace × FileSystem :=
  let c := w.save_config_store
  ({ w with config := c }, c.save fs w.cfg_path)

end Workspace

/-- The function `home_dir`: the value of `HOME`, `/tmp` when it is not set. -/
def home_dir (home : Option Str) : Str :=
  match home with
  | some h => h
  | Option.none => "/tmp".toList

/-- The function `ws_config`: the path of the registry file. -/
def ws_config (home : Option Str) : Str :=
  home_dir home ++ "/.config/dreamland/workspaces.conf".toList

/-- One turn of the first loop of `load_workspaces`, on the workspaces pushed
so far and the workspace `cur` under construction. -/
def registry_line (st : List Workspace × Workspace) (line : Str) : List Workspace × Workspace :=
  if line = [] ∨ line.head? = some '#' then st
  else if line.head? = some '[' ∧ line.getLast? = some ']' then
    (if st.2.name = [] then st.1 else st.1 ++ [st.2],
     { Workspace.fresh with name := (line.drop 1).take (line.length - 2) })
  else
    match find '=' line with
    | Option.none => st
    | some eq =>
      if line.take eq = "path".toList then (st.1, { st.2 with path := line.drop (eq + 1) })
      else st

/-- The workspaces `load_workspaces` has read from the lines of the registry
file when its first loop is over and the last `cur` is pushed. -/
def registry_entries (lines : List Str) : List Workspace :=
  let st := lines.foldl registry_line ([], Workspace.fresh)
  if st.2.name = [] then st.1 else st.1 ++ [st.2]

/-- The function `load_workspaces`: the entries of the registry file, each after its
`load_config`; no workspace when there is no registry file. -/
def load_workspaces (home : Option Str) (fs : FileSystem) : List Workspace :=
  match fs (ws_config home) with
  | Option.none => []
  | some content =>
    (registry_entries (getlines content)).map (fun w => (w.load_config fs).2)

/-- The lines `ls`, each followed by a newline. -/
def unlines : List Str → Str
  | [] => []
  | l :: ls => l ++ '\n' :: unlines ls

/-- The line `key: value` that `ConfigParser::save` writes for an entry. -/
def entry_line (e : Str × Str) : Str := e.1 ++ ": ".toList ++ e.2

/-- A line that, after trimming whitespace, is empty, starts with `#`, or
contains neither `:` nor `=`. -/
def Ignorable (raw : Str) : Prop :=
  ConfigParser.trim raw = [] ∨ (ConfigParser.trim raw).head? = some '#' ∨
    (':' ∉ ConfigParser.trim raw ∧ '=' ∉ ConfigParser.trim raw)

instance (raw : Str) : Decidable (Ignorable raw) := by
  unfold Ignorable; infer_instance

/-- The content of a file with all its ignorable lines removed. -/
def remove_ignorable (content : Str) : Str :=
  unlines ((getlines content).filter (fun l => decide (¬ Ignorable l)))

/-- A value wrapped in a pair of double quotes: its size is at least 2 and it
starts and ends with `"`. -/
def Quoted (val : Str) : Prop :=
  2 ≤ val.length ∧ val.head? = some '"' ∧ val.getLast? = some '"'

instance (val : Str) : Decidable (Quoted val) := by
  unfold Quoted; infer_instance

/-- The character `sep` in `pre ++ sep :: post` is the separator of the line:
the first `:`, or the first `=` of a line without `:`. -/
def IsSeparator (pre : Str) (sep : Char) (post : Str) : Prop :=
  ':' ∉ pre ∧ (sep = ':' ∨ (sep = '=' ∧ '=' ∉ pre ∧ ':' ∉ post))

instance (pre : Str) (sep : Char) (post : Str) : Decidable (IsSeparator pre sep post) := by
  unfold IsSeparator; infer_instance

/-- A section header of the registry file: a line that starts with `[` and
ends with `]`. -/
def IsHeader (line : Str) : Prop := line.head? = some '[' ∧ line.getLast? = some ']'

instance (line : Str) : Decidable (IsHeader line) := by
  unfold IsHeader; infer_instance

/-- A line `path=<value>` of the registry file. -/
def IsPathLine (line : Str) : Prop := "path=".toList.isPrefixOf line = true

instance (line : Str) : Decidable (IsPathLine line) := by
  unfold IsPathLine; infer_instance

/-- The header line `[name]`. -/
def header_line (name : Str) : Str := '[' :: name ++ [']']

/-- The name and the path of each workspace of a list. -/
def names_and_paths (ws : List Workspace) : List (Str × Str) :=
  ws.map (fun w => (w.name, w.path))

/-- The workspace `load_workspaces` builds for a section of the registry
file: a name and a path, every other field as in `Workspace()`. -/
def named (name path : Str) : Workspace :=
  { Workspace.fresh with name := name, path := path }

/-- The value a sequence of assignments `data[k] = v` leaves under the key
`k`: the one of the last assignment to `k`, if there is one. -/
def lastWrite (k : Str) : List (Str × Str) → Option Str
  | [] => none
  | (k', v') :: rest =>
    match lastWrite k rest with
    | some v => some v
    | none => if k' = k then some v' else none

/-- A sequence of calls `config.set(key, val)`, first to last. -/
def apply_writes (c : ConfigParser) (writes : List (Str × Str)) : ConfigParser :=
  writes.foldl (fun c e => c.set e.1 e.2) c

/-- The assignments of the loop `for (i = 0; ...) config.set(pfx + to_string(i), vals[i])`
from index `i` on. -/
def list_writes (pfx : Str) : Nat → List Str → List (Str × Str)
  | _, [] => []
  | i, v :: vs => (pfx ++ to_string i, v) :: list_writes pfx (i + 1) vs

/-- The assignment of `if (!val.empty()) config.set(key, val)`, if any. -/
def nonempty_write (key val : Str) : List (Str × Str) :=
  if val = [] then [] else [(key, val)]

/-- The assignments `save_config` makes for the scalar fields. -/
def scalar_writes (w : Workspace) : List (Str × Str) :=
  [("name".toList, w.name), ("display_name".toList, w.display_name),
    ("description".toList, w.description), ("lang".toList, w.lang),
    ("isolated".toList, if w.isolated then "true".toList else "false".toList)] ++
  nonempty_write "build_cmd".toList w.build_cmd ++
  nonempty_write "clean_cmd".toList w.clean_cmd ++
  nonempty_write "run_cmd".toList w.run_cmd_ ++
  nonempty_write "test_cmd".toList w.test_cmd ++
  nonempty_write "created".toList w.created ++
  nonempty_write "author".toList w.author

/-- The assignments `save_config` makes for `env_vars`. -/
def env_writes (w : Workspace) : List (Str × Str) :=
  w.env_vars.entries.map (fun e => ("env.".toList ++ e.1, e.2))

/-- The assignments `save_config` makes, first to last. -/
def save_config_writes (w : Workspace) : List (Str × Str) :=
  scalar_writes w ++ env_writes w ++ list_writes "mount.".toList 0 w.mounts ++
    list_writes "init.".toList 0 w.init_cmds ++ list_writes "tag.".toList 0 w.tags

/-- A value that a line of the configuration file gives back as it is: it
contains no newline, has no leading or trailing whitespace and is not
wrapped in a pair of double quotes. -/
def Storable (v : Str) : Prop := '\n' ∉ v ∧ ConfigParser.trim v = v ∧ ¬ Quoted v

instance (v : Str) : Decidable (Storable v) := by
  unfold Storable; infer_instance

/-- A key that a line of the configuration file gives back as it is: it is
not empty, contains neither `:` nor a newline, has no leading or trailing
whitespace and does not start with `#`. -/
def NiceKey (k : Str) : Prop :=
  k ≠ [] ∧ ':' ∉ k ∧ '\n' ∉ k ∧ ConfigParser.trim k = k ∧ k.head? ≠ some '#'

instance (k : Str) : Decidable (NiceKey k) := by
  unfold NiceKey; infer_instance

/-- The entry `e` of a saved store does not disturb the key `K` on reload:
its line is one line, it is stored under `K` only if its key is `K`, and then
with its own value. -/
def Faithful (K : Str) (e : Str × Str) : Prop :=
  '\n' ∉ e.1 ∧ '\n' ∉ e.2 ∧
    ∃ k' v', ConfigParser.parse_line (entry_line e) = some (k', v') ∧
      (k' = K ↔ e.1 = K) ∧ (e.1 = K → v' = e.2)

/-- The strings `save_config` writes into the configuration file for a
workspace: its name, its scalar fields, the keys and values of `env_vars` and
the entries of its lists. -/
def text_fields (w : Workspace) : List Str :=
  [w.name, w.display_name, w.description, w.lang, w.build_cmd, w.clean_cmd, w.run_cmd_,
    w.test_cmd, w.created, w.author] ++
  w.env_vars.entries.map (fun e => e.1) ++ w.env_vars.entries.map (fun e => e.2) ++
  w.mounts ++ w.init_cmds ++ w.tags

/-- No string of the workspace contains a newline. -/
def LineSafe (w : Workspace) : Prop := ∀ s ∈ text_fields w, '\n' ∉ s

instance (w : Workspace) : Decidable (LineSafe w) := by
  unfold LineSafe; infer_instance

/-- The scalar string fields `load_config` reads back. -/
def scalar_fields (w : Workspace) : List Str :=
  [w.display_name, w.description, w.lang, w.build_cmd, w.clean_cmd, w.run_cmd_,
    w.test_cmd, w.created, w.author]

/-- The keys of the scalar fields in the configuration file. -/
def scalar_keys : List Str :=
  ["name".toList, "display_name".toList, "description".toList, "lang".toList,
    "isolated".toList, "build_cmd".toList, "clean_cmd".toList, "run_cmd".toList,
    "test_cmd".toList, "created".toList, "author".toList]

/-- The result of `save_config` on `w` followed by `load_config` on a fresh
record with the name and the path of `w`. -/
def reload (w : Workspace) (fs : FileSystem) : Bool × Workspace :=
  (named w.name w.path).load_config (w.save_config fs).2

/-- The three list fields of a workspace: `mounts`, `init_cmds` and `tags`. -/
inductive ListField where
  | mounts
  | init_cmds
  | tags
deriving DecidableEq

namespace ListField

/-- The reserved key prefix `save_config` writes the list under. -/
def pfx : ListField → Str
  | mounts => "mount.".toList
  | init_cmds => "init.".toList
  | tags => "tag.".toList

/-- The list field of a workspace. -/
def get : ListField → Workspace → List Str
  | mounts, w => w.mounts
  | init_cmds, w => w.init_cmds
  | tags, w => w.tags

/-- The workspace with the list field replaced. -/
def put : ListField → Workspace → List Str → Workspace
  | mounts, w, vs => { w with mounts := vs }
  | init_cmds, w, vs => { w with init_cmds := vs }
  | tags, w, vs => { w with tags := vs }

end ListField

/-- The result of `save_config` on `w`, then of `save_config` on the same
record once its list `f` is replaced by `vs`, then of `load_config` on a
fresh record with the name and the path of `w`. -/
def reload_after_change (w : Workspace) (fs : FileSystem) (f : ListField) (vs : List Str) :
    Bool × Workspace :=
  (named w.name w.path).load_config
    ((f.put (w.save_config fs).1 vs).save_config (w.save_config fs).2).2

/-- A workspace as `ws-create demo --lang go --build make --env CC=gcc`
leaves it, with a description, two mounts, an init command and a tag. -/
def demo_workspace : Workspace :=
  { named "demo".toList "/p".toList with
    lang := "go".toList
    display_name := "Demo project".toList
    description := "a = b: c".toList
    isolated := true
    build_cmd := "make".toList
    created := "1700000000".toList
    author := "nav".toList
    env_vars := StrMap.empty.set "CC".toList "gcc".toList
    mounts := ["/a".toList, "/b".toList]
    init_cmds := ["echo hi".toList]
    tags := ["x".toList] }

/-- A workspace whose description starts with a space, as
`ws-config demo description " x"` sets it. -/
def padded_workspace : Workspace :=
  { named "demo".toList "/p".toList with description := " x".toList }

/-- A workspace whose second mount is wrapped in double quotes, as
`load_config` reads it from the line `mount.1: ""/b""`. -/
def quoted_workspace : Workspace :=
  { named "demo".toList "/p".toList with
    mounts := ["/a".toList, "\"/b\"".toList]
    init_cmds := ["echo hi".toList]
    tags := ["x".toList] }

/-- A file system whose only file is the configuration file of the workspace
`demo` at `/p`, with a value of `isolated` that is not the string `true`. -/
def demo_config_fs : FileSystem :=
  FileSystem.none.write "/p/.ws/config".toList "isolated: True\nlang = \"rust\"\n".toList

/-- The entries `save_config` can write for the scalar fields, the ones of
the empty optional fields included. -/
def scalar_entries (w : Workspace) : List (Str × Str) :=
  [("name".toList, w.name), ("display_name".toList, w.display_name),
    ("description".toList, w.description), ("lang".toList, w.lang),
    ("isolated".toList, if w.isolated then "true".toList else "false".toList),
    ("build_cmd".toList, w.build_cmd), ("clean_cmd".toList, w.clean_cmd),
    ("run_cmd".toList, w.run_cmd_), ("test_cmd".toList, w.test_cmd),
    ("created".toList, w.created), ("author".toList, w.author)]

/-- The function `save_workspaces`, the text it streams into the registry
file: for each record, in the order of the list, `[name]`, a newline,
`path=`, the path and two newlines. -/
def registry_text (ws : List Workspace) : Str :=
  ws.foldl
    (fun out w => out ++ "[".toList ++ w.name ++ "]\n".toList ++ "path=".toList ++ w.path ++
      "\n\n".toList) []

/-- The function `save_workspaces`, on the files: the registry file is
opened for writing, which empties it, and filled with `registry_text`. -/
def save_workspaces (home : Option Str) (ws : List Workspace) (fs : FileSystem) : FileSystem :=
  fs.write (ws_config home) (registry_text ws)

/-- The function `find_ws`: the position in the vector of the record the
returned pointer points to, `none` for `nullptr`. -/
def find_ws : List Workspace → Str → Option Nat
  | [], _ => none
  | w :: rest, name => if w.name = name then some 0 else (find_ws rest name).map (· + 1)

/-- The function `ws_base`: the directory new workspaces are created in. -/
def ws_base (home : Option Str) : Str :=
  home_dir home ++ "/.local/share/dreamland/workspaces".toList

/-- The struct `LangTemplate`; its member `run_cmd` is the field `run_cmd_`. -/
structure LangTemplate where
  lang : Str
  build_cmd : Str
  clean_cmd : Str
  run_cmd_ : Str
  test_cmd : Str
  files : List Str
deriving DecidableEq

/-- The entries of the map `get_templates` returns. -/
def template_table : List (Str × LangTemplate) :=
  [("c".toList,
      { lang := "c".toList, build_cmd := "make".toList, clean_cmd := "make clean".toList,
        run_cmd_ := "./build/main".toList, test_cmd := [],
        files := ["Makefile:CC=gcc\nCFLAGS=-Wall -Wextra -O2\n\nall:\n\t$(CC) $(CFLAGS) src/*.c -o build/main\n\nclean:\n\trm -rf build/*\n".toList] }),
    ("cpp".toList,
      { lang := "cpp".toList, build_cmd := "make".toList, clean_cmd := "make clean".toList,
        run_cmd_ := "./build/main".toList, test_cmd := [],
        files := ["Makefile:CXX=g++\nCXXFLAGS=-Wall -Wextra -std=c++17 -O2\n\nall:\n\t$(CXX) $(CXXFLAGS) src/*.cpp -o build/main\n\nclean:\n\trm -rf build/*\n".toList] }),
    ("rust".toList,
      { lang := "rust".toList, build_cmd := "cargo build --release".toList,
        clean_cmd := "cargo clean".toList, run_cmd_ := "cargo run".toList,
        test_cmd := "cargo test".toList,
        files := ["Cargo.toml:[package]\nname = \"PROJECT\"\nversion = \"0.1.0\"\nedition = \"2021\"\n\n[dependencies]\n".toList,
          "src/main.rs:fn main() \x7b\n    println!(\"Hello from Dreamland!\");\n\x7d\n".toList] }),
    ("python".toList,
      { lang := "python".toList, build_cmd := "pip install -e .".toList,
        clean_cmd := "rm -rf build/ dist/ *.egg-info".toList,
        run_cmd_ := "python src/main.py".toList, test_cmd := "pytest tests/".toList,
        files := ["requirements.txt:".toList,
          "src/main.py:#!/usr/bin/env python3\n\nif __name__ == '__main__':\n    print('Hello from Dreamland!')\n".toList] }),
    ("go".toList,
      { lang := "go".toList, build_cmd := "go build -o build/main ./src".toList,
        clean_cmd := "rm -rf build/".toList, run_cmd_ := "./build/main".toList,
        test_cmd := "go test ./...".toList,
        files := ["go.mod:module PROJECT\n\ngo 1.21\n".toList,
          "src/main.go:package main\n\nimport \"fmt\"\n\nfunc main() \x7b\n\tfmt.Println(\"Hello from Dreamland!\")\n\x7d\n".toList] }),
    ("node".toList,
      { lang := "node".toList, build_cmd := "npm run build".toList,
        clean_cmd := "rm -rf dist/ node_modules/".toList, run_cmd_ := "npm start".toList,
        test_cmd := "npm test".toList,
        files := ["package.json:\x7b\n  \"name\": \"PROJECT\",\n  \"version\": \"1.0.0\",\n  \"scripts\": \x7b\n    \"start\": \"node src/index.js\",\n    \"build\": \"echo 'Build complete'\"\n  \x7d\n\x7d\n".toList,
          "src/index.js:console.log('Hello from Dreamland!');\n".toList] })]

/-- The function `get_templates`, looked up at a language tag: the template
`templates[lang]`, `none` when `templates.count(lang)` is 0. -/
def get_templates (lang : Str) : Option LangTemplate :=
  match template_table.find? (fun e => decide (e.1 = lang)) with
  | some e => some e.2
  | Option.none => Option.none

/-- The position of the first occurrence of `tok` in `s`. -/
def find_sub (tok : Str) : Str → Option Nat
  | [] => if tok = [] then some 0 else Option.none
  | c :: cs =>
    if tok.isPrefixOf (c :: cs) then some 0 else (find_sub tok cs).map (· + 1)

/-- The call `s.find(tok, pos)` of `std::string`: the position of the first
occurrence of `tok` in `s` at or after `pos`, `none` for `npos`. -/
def find_from (tok s : Str) (pos : Nat) : Option Nat :=
  if pos ≤ s.length then (find_sub tok (s.drop pos)).map (· + pos) else Option.none

/-- The placeholder token of the seed files. -/
def placeholder : Str := "PROJECT".toList

/-- The loop `while ((pos = content.find("PROJECT", pos)) != npos)` of
`cmd_create`, for at most `fuel` turns: each turn replaces the 7 characters
at `pos` by `name` and moves `pos` behind the inserted name. The result is
`none` when the loop is not over after `fuel` turns. -/
def substitute_loop (name : Str) : Nat → Str → Nat → Option Str
  | 0, _, _ => Option.none
  | fuel + 1, content, pos =>
    match find_from placeholder content pos with
    | Option.none => some content
    | some p =>
      substitute_loop name fuel (content.take p ++ name ++ content.drop (p + 7))
        (p + name.length)

/-- The placeholder loop of `cmd_create` on the content of a seed file, from
`pos = 0`, with one turn more than the content has characters. -/
def substitute (content name : Str) : Option Str :=
  substitute_loop name (content.length + 1) content 0

/-- The text `s` with the occurrences of `tok` replaced by `name`, read from
left to right: `skip` characters of an occurrence are still to be passed
over. -/
def replace_from (tok name : Str) : Nat → Str → Str
  | _, [] => []
  | skip + 1, _ :: cs => replace_from tok name skip cs
  | 0, c :: cs =>
    if tok.isPrefixOf (c :: cs) then name ++ replace_from tok name (tok.length - 1) cs
    else c :: replace_from tok name 0 cs

/-- The text `s` with every occurrence of `tok` replaced by `name`. -/
def replace_all (tok name s : Str) : Str := replace_from tok name 0 s

/-- The names of a path: the texts between its `/`. -/
def split_path : Str → List Str
  | [] => [[]]
  | c :: cs =>
    if c = '/' then [] :: split_path cs
    else
      match split_path cs with
      | [] => [[c]]
      | n :: ns => (c :: n) :: ns

/-- One name of a path, on the names walked from the root so far: an empty
name and `.` stay in place, `..` goes one up and stays at the root, any
other name goes one down. -/
def resolve_step (walked : List Str) (name : Str) : List Str :=
  if name = [] ∨ name = ".".toList then walked
  else if name = "..".toList then walked.dropLast
  else walked ++ [name]

/-- Where the path `p` leads in a file system without links, for a process
whose working directory is `cwd`: the names from the root down. A path that
starts with `/` is walked from the root, any other path from `cwd`. -/
def resolve (cwd p : Str) : List Str :=
  (split_path p).foldl resolve_step
    (if p.head? = some '/' then [] else (split_path cwd).foldl resolve_step [])

/-- The absolute path of the place the names lead to from the root. -/
def spell (names : List Str) : Str :=
  if names = [] then "/".toList else names.foldr (fun n rest => '/' :: n ++ rest) []

/-- The paths `p` and `q` lead to the same place. -/
def same_file (cwd p q : Str) : Bool := decide (resolve cwd p = resolve cwd q)

/-- The places the path `p` goes through, from its start to the place it
leads to. -/
def walk (cwd p : Str) : List (List Str) :=
  (split_path p).scanl resolve_step
    (if p.head? = some '/' then [] else (split_path cwd).foldl resolve_step [])

/-- The path `q` goes through the tree of `p`: it leads to the place of `p`
or below it, or gets there on its way; an empty path leads nowhere. Such a
path leads nowhere once the tree of `p` is removed. -/
def in_tree (cwd p q : Str) : Bool :=
  decide (p ≠ []) && decide (q ≠ []) &&
    (walk cwd q).any (fun names => (resolve cwd p).isPrefixOf names)

/-- The size of a string in bytes, in UTF-8. -/
def utf8_size (s : Str) : Nat := (s.map Char.utf8Size).sum

/-- A path the system calls refuse with `ENAMETOOLONG`: it has `PATH_MAX`,
4096, or more bytes, or one of its names has more than `NAME_MAX`, 255,
bytes. -/
def too_long (p : Str) : Bool :=
  decide (4096 ≤ utf8_size p) || (split_path p).any (fun n => decide (255 < utf8_size n))

/-- The paths above a path: its texts before a `/`, the empty one apart. -/
def above (p : Str) : List Str :=
  (List.range p.length).filterMap
    (fun i => if 0 < i ∧ p.get? i = some '/' then some (p.take i) else Option.none)

/-- The files and the directories on disk, and the working directory of the
process. A file or a directory is listed under the path the process uses
for it or under the absolute path of its place. -/
structure World where
  files : FileSystem
  dirs : Str → Bool
  cwd : Str

namespace World

/-- The absolute path of the place the path `p` leads to. -/
def located (w : World) (p : Str) : Str := spell (resolve w.cwd p)

/-- The call `fs::exists(p)`: a file or a directory is at `p`. -/
def path_exists (w : World) (p : Str) : Bool :=
  decide (p ≠ []) &&
    ((w.files p).isSome || w.dirs p || (w.files (w.located p)).isSome || w.dirs (w.located p))

/-- A directory is at `p`: what makes `chdir(p)` succeed. -/
def is_directory (w : World) (p : Str) : Bool :=
  decide (p ≠ []) && (w.dirs p || w.dirs (w.located p))

/-- The call `fs::create_directories(p)` throws: the path is empty or too
long, or a regular file is at `p`, at a path above it or at a place above
its place. -/
def mkdir_fails (w : World) (p : Str) : Bool :=
  decide (p = []) || too_long p || (w.files p).isSome ||
    (above p).any (fun q => (w.files q).isSome) ||
    (resolve w.cwd p).inits.any (fun names => (w.files (spell names)).isSome)

end World

/-- The call `fs::create_directories(p)` on the set of directories, when it
does not throw: `p` and the directories above it exist afterwards. -/
def create_directories (dirs : Str → Bool) (p : Str) : Str → Bool :=
  fun q => dirs q || decide (q = p) || (decide (q ≠ []) && starts_with (q ++ "/".toList) p)

/-- The call `fs::path(p).parent_path()`: the text before the last `/`. -/
def parent_path (p : Str) : Str :=
  ((p.reverse.dropWhile (fun c => decide (c ≠ '/'))).drop 1).reverse

namespace World

/-- The call `fs::remove_all(p)`: the files and directories of the tree of
`p` are gone, under whichever path they are listed. -/
def remove_all (w : World) (p : Str) : World :=
  { w with
    files := fun q => if in_tree w.cwd p q = true then Option.none else w.files q
    dirs := fun q => !in_tree w.cwd p q && w.dirs q }

end World

/-- What a command reads from the process environment: the variables `HOME`,
`USER`, `SHELL` and `WS_NAME`, each `none` when `getenv` returns a null
pointer, and the value of `time(nullptr)`. -/
structure ProcEnv where
  home : Option Str
  user : Option Str
  shell : Option Str
  ws_name : Option Str
  time : Nat

/-- The locals of `cmd_create` that its option loop sets; `desc` and
`run_cmd_` stand for `desc` and `run_cmd`. -/
structure CreateOptions where
  path : Str
  lang : Str
  isolated : Bool
  desc : Str
  author : Str
  build_cmd : Str
  run_cmd_ : Str
  env_vars : StrMap
deriving DecidableEq

/-- The locals of `cmd_create` before its option loop. -/
def default_options (home : Option Str) (name : Str) : CreateOptions :=
  { path := ws_base home ++ "/".toList ++ name, lang := "generic".toList, isolated := false,
    desc := [], author := [], build_cmd := [], run_cmd_ := [], env_vars := StrMap.empty }

/-- The branch `--env` of the option loop: `KEY=VALUE` is split at its first
`=`; an argument without `=` is dropped. -/
def parse_env_option (o : CreateOptions) (env : Str) : CreateOptions :=
  match find '=' env with
  | Option.none => o
  | some eq => { o with env_vars := o.env_vars.set (env.take eq) (env.drop (eq + 1)) }

/-- The option loop `for (int i = 2; i < argc; i++)` of `cmd_create` over the
arguments `argv[2]`, `argv[3]`, ...: an option with a value takes the next
argument when there is one (`i + 1 < argc`) and is passed over otherwise. -/
def parse_create_options : CreateOptions → List Str → CreateOptions
  | o, [] => o
  | o, [arg] => if arg = "--isolated".toList then { o with isolated := true } else o
  | o, arg :: val :: rest =>
    if arg = "--path".toList then parse_create_options { o with path := val } rest
    else if arg = "--lang".toList then parse_create_options { o with lang := val } rest
    else if arg = "--isolated".toList then
      parse_create_options { o with isolated := true } (val :: rest)
    else if arg = "--description".toList then
      parse_create_options { o with desc := val } rest
    else if arg = "--author".toList then parse_create_options { o with author := val } rest
    else if arg = "--build".toList then
      parse_create_options { o with build_cmd := val } rest
    else if arg = "--run".toList then parse_create_options { o with run_cmd_ := val } rest
    else if arg = "--env".toList then parse_create_options (parse_env_option o val) rest
    else parse_create_options o (val :: rest)

/-- The name and the content of a seed file `fname:content` of a template,
the content after the placeholder loop; `none` when the loop is not over. A
text without `:` gives `npos`, and `npos + 1` is 0: name and content are the
whole text. -/
def seed_file (name f : Str) : Option (Str × Str) :=
  match find ':' f with
  | some colon =>
    match substitute (f.drop (colon + 1)) name with
    | some content => some (f.take colon, content)
    | Option.none => Option.none
  | Option.none =>
    match substitute f name with
    | some content => some (f, content)
    | Option.none => Option.none

/-- The loop `for (auto& f : tpl.files)` of `cmd_create`: each seed file is
written to `path + "/" + fname`. -/
def write_seed_files (path name : Str) : List Str → FileSystem → Option FileSystem
  | [], fs => some fs
  | f :: rest, fs =>
    match seed_file name f with
    | Option.none => Option.none
    | some (fname, content) =>
      write_seed_files path name rest (fs.write (path ++ "/".toList ++ fname) content)

/-- The value of the local `build_cmd` (or `run_cmd`) of `cmd_create` after
`if (build_cmd.empty()) build_cmd = tpl.build_cmd`. -/
def command_or_default (given dflt : Str) : Str := if given = [] then dflt else given

/-- The object `w` that `cmd_create` fills in before `w.save_config()`;
`none` when `author` is empty and `getenv("USER")` is a null pointer, which
the assignment to `w.author` turns into a `std::string`. -/
def create_record (env : ProcEnv) (name : Str) (o : CreateOptions) : Option Workspace :=
  let build_cmd :=
    match get_templates o.lang with
    | some tpl => command_or_default o.build_cmd tpl.build_cmd
    | Option.none => o.build_cmd
  let run_command :=
    match get_templates o.lang with
    | some tpl => command_or_default o.run_cmd_ tpl.run_cmd_
    | Option.none => o.run_cmd_
  match (if o.author = [] then env.user else some o.author) with
  | Option.none => Option.none
  | some author =>
    let w : Workspace :=
      { Workspace.fresh with
        name := name
        path := o.path
        lang := o.lang
        display_name := name
        description := o.desc
        author := author
        isolated := o.isolated
        build_cmd := build_cmd
        run_cmd_ := run_command
        env_vars := o.env_vars
        created := to_string env.time }
    match get_templates o.lang with
    | some tpl =>
      some { w with
        build_cmd := command_or_default w.build_cmd tpl.build_cmd
        clean_cmd := tpl.clean_cmd
        run_cmd_ := command_or_default w.run_cmd_ tpl.run_cmd_
        test_cmd := tpl.test_cmd }
    | Option.none => some w

/-- The five calls `fs::create_directories` of `cmd_create`. -/
def create_workspace_dirs (dirs : Str → Bool) (path : Str) : Str → Bool :=
  create_directories
    (create_directories
      (create_directories
        (create_directories (create_directories dirs path) (path ++ "/src".toList))
        (path ++ "/build".toList))
      (path ++ "/tests".toList))
    (path ++ "/.ws".toList)

/-- The paths of the five calls `fs::create_directories` of `cmd_create`,
in order. -/
def workspace_dirs (path : Str) : List Str :=
  [path, path ++ "/src".toList, path ++ "/build".toList, path ++ "/tests".toList,
    path ++ "/.ws".toList]

/-- One of the calls `fs::create_directories` behind `w.save_config()` and
`save_workspaces(ws)` throws: the one of `save_config`, the one of
`ConfigParser::save`, or, once the configuration file is written, the one of
`save_workspaces`. -/
def save_dirs_fail (env : ProcEnv) (world : World) (w : Workspace) : Bool :=
  world.mkdir_fails (w.path ++ "/.ws".toList) || world.mkdir_fails (parent_path w.cfg_path) ||
    World.mkdir_fails { world with files := (w.save_config world.files).2 }
      (parent_path (ws_config env.home))

/-- The function `cmd_create` once the name is known not to be registered:
directories, seed files, the record, its configuration file and the
registry; `none` when a call `fs::create_directories` throws, the placeholder
loop is not over or `USER` is not set. -/
def create_workspace (env : ProcEnv) (name : Str) (o : CreateOptions) (ws : List Workspace)
    (world : World) : Option World :=
  if (workspace_dirs o.path).any world.mkdir_fails = true then Option.none
  else
    match (match get_templates o.lang with
        | some tpl => write_seed_files o.path name tpl.files world.files
        | Option.none => some world.files) with
    | Option.none => Option.none
    | some files =>
      match create_record env name o with
      | Option.none => Option.none
      | some w =>
        if save_dirs_fail env { world with files := files } w = true then Option.none
        else
          some
            { world with
              files := save_workspaces env.home (ws ++ [(w.save_config files).1])
                (w.save_config files).2
              dirs := create_directories
                (create_directories (create_workspace_dirs world.dirs o.path)
                  (o.path ++ "/.ws".toList))
                (parent_path (ws_config env.home)) }

/-- The function `cmd_create` on the arguments after `argv[0]`: its exit
status and the world afterwards, `none` when it does not return. -/
def cmd_create (env : ProcEnv) (args : List Str) (world : World) : Option (Nat × World) :=
  match args with
  | [] => some (1, world)
  | name :: opts =>
    match find_ws (load_workspaces env.home world.files) name with
    | some _ => some (1, world)
    | Option.none =>
      match create_workspace env name (parse_create_options (default_options env.home name) opts)
          (load_workspaces env.home world.files) world with
      | some world' => some (0, world')
      | Option.none => Option.none

/-- The function `cmd_delete` on the arguments after `argv[0]`, with the line
`answer` on standard input: its exit status and the world afterwards. -/
def cmd_delete (env : ProcEnv) (answer : Str) (args : List Str) (world : World) :
    Nat × World :=
  match args with
  | [] => (1, world)
  | name :: rest =>
    match find_ws (load_workspaces env.home world.files) name with
    | Option.none => (1, world)
    | some i =>
      if rest.head? ≠ some "--force".toList ∧ answer ≠ "y".toList ∧ answer ≠ "Y".toList then
        (0, world)
      else
        match (load_workspaces env.home world.files).get? i with
        | Option.none => (1, world)
        | some w =>
          let removed := if world.path_exists w.path then world.remove_all w.path else world
          (0,
            { world with
              files := save_workspaces env.home
                ((load_workspaces env.home world.files).filter (fun x => decide (x.name ≠ name)))
                removed.files
              dirs := create_directories removed.dirs (parent_path (ws_config env.home)) })

/-- What is known of `system(cmd)`: an exit status and a world afterwards,
for the command, the directory it runs in (`none` for the directory the
process was started in) and the world before. -/
abbrev System := Str → Option Str → World → Nat × World

/-- The result of a command that may call `system`: its exit status, the
world afterwards and the commands it has passed to `system`, in order. -/
structure Outcome where
  status : Nat
  world : World
  commands : List Str

/-- The name a command works on: `argv[1]` when there is one, else the value
of `WS_NAME`, else the empty string. -/
def target_name (env : ProcEnv) (args : List Str) : Str :=
  match args with
  | name :: _ => name
  | [] =>
    match env.ws_name with
    | some name => name
    | Option.none => []

/-- A relative path as the process finds it after `chdir(p)`: below `p` when
the call has succeeded, as it stands when it has failed. -/
def relative_to (cd : Option Str) (name : Str) : Str :=
  match cd with
  | some p => p ++ "/".toList ++ name
  | Option.none => name

/-- The call `return system(cmd)` in the directory `cd`. -/
def run_system (sys : System) (cmd : Str) (cd : Option Str) (world : World) : Outcome :=
  { status := (sys cmd cd world).1, world := (sys cmd cd world).2, commands := [cmd] }

/-- The call `s.c_str()` read as a C string: the characters before the first
null character. -/
def c_str (s : Str) : Str := s.takeWhile (fun c => decide (c ≠ Char.ofNat 0))

/-- The function `cmd_build` on the arguments after `argv[0]`. The call
`chdir(w->path)` succeeds when the path is a directory; its result is not
looked at, and the build descriptors are looked up by relative paths, from
the directory of the workspace when the call has succeeded and from the
working directory the process was started in when it has failed. -/
def cmd_build (env : ProcEnv) (sys : System) (args : List Str) (world : World) : Outcome :=
  if target_name env args = [] then { status := 1, world := world, commands := [] }
  else
    match find_ws (load_workspaces env.home world.files) (target_name env args) with
    | Option.none => { status := 1, world := world, commands := [] }
    | some i =>
      match (load_workspaces env.home world.files).get? i with
      | Option.none => { status := 1, world := world, commands := [] }
      | some w =>
        let cd : Option Str :=
          if world.is_directory (c_str w.path) then some (c_str w.path) else Option.none
        if w.build_cmd ≠ [] then run_system sys (c_str w.build_cmd) cd world
        else if world.path_exists (relative_to cd "Makefile".toList) then
          run_system sys "make".toList cd world
        else if world.path_exists (relative_to cd "CMakeLists.txt".toList) then
          run_system sys "cd build && cmake .. && make".toList cd
            { world with dirs := create_directories world.dirs (relative_to cd "build".toList) }
        else if world.path_exists (relative_to cd "Cargo.toml".toList) then
          run_system sys "cargo build".toList cd world
        else if world.path_exists (relative_to cd "package.json".toList) then
          run_system sys "npm run build".toList cd world
        else if world.path_exists (relative_to cd "setup.py".toList) then
          run_system sys "pip install -e .".toList cd world
        else { status := 1, world := world, commands := [] }

/-- The call `setenv(name, value, 1)` on an environment: a name that is empty
or contains `=` is refused and the environment stays as it is. -/
def setenv (vars : Str → Option Str) (name value : Str) : Str → Option Str :=
  if c_str name = [] ∨ '=' ∈ c_str name then vars
  else fun k => if k = c_str name then some (c_str value) else vars k

/-- What `cmd_enter` prepares before it hands over to the shell: the
directory passed to `chdir`, the environment after the calls of `setenv`, the
prompt, and the commands passed to `system`, in order. -/
structure ExecContext where
  cwd : Str
  vars : Str → Option Str
  prompt : Str
  init_cmds : List Str

/-- The prompt `"(" + w->display_name + ") \\W $ "` of `cmd_enter`. -/
def prompt_of (w : Workspace) : Str := "(".toList ++ w.display_name ++ ") \\W $ ".toList

/-- The loop `for (auto& [k, v] : w->env_vars) setenv(k, v, 1)`. -/
def setenv_all (vars : Str → Option Str) (env_vars : StrMap) : Str → Option Str :=
  env_vars.entries.foldl (fun vars e => setenv vars e.1 e.2) vars

/-- The child of `cmd_enter` for an isolated workspace, from `chdir` to the
loop over `init_cmds`, started with the environment `vars`. -/
def isolated_context (w : Workspace) (vars : Str → Option Str) : ExecContext :=
  { cwd := c_str w.path
    vars :=
      setenv
        (setenv_all
          (setenv
            (setenv
              (setenv (setenv vars "WS_NAME".toList w.name) "WS_PATH".toList w.path)
              "WS_LANG".toList w.lang)
            "WS_ISOLATED".toList "1".toList)
          w.env_vars)
        "PS1".toList (prompt_of w)
    prompt := c_str (prompt_of w)
    init_cmds := w.init_cmds.map c_str }

/-- The branch of `cmd_enter` for a workspace that is not isolated, from
`chdir` to the loop over `init_cmds`, started with the environment `vars`. -/
def plain_context (w : Workspace) (vars : Str → Option Str) : ExecContext :=
  { cwd := c_str w.path
    vars :=
      setenv
        (setenv_all
          (setenv (setenv (setenv vars "WS_NAME".toList w.name) "WS_PATH".toList w.path)
            "WS_LANG".toList w.lang)
          w.env_vars)
        "PS1".toList (prompt_of w)
    prompt := c_str (prompt_of w)
    init_cmds := w.init_cmds.map c_str }

/-- The lines of the registry file for a list of records: for each record a
header `[name]`, a line `path=<path>` and an empty line. -/
def registry_lines : List Workspace → List Str
  | [] => []
  | w :: rest => header_line w.name :: ("path=".toList ++ w.path) :: [] :: registry_lines rest

/-- A record that the registry file gives back: its name is not empty and
neither its name nor its path contains a newline. -/
def Registrable (w : Workspace) : Prop := w.name ≠ [] ∧ '\n' ∉ w.name ∧ '\n' ∉ w.path

instance (w : Workspace) : Decidable (Registrable w) := by
  unfold Registrable; infer_instance

/-- The name of a seed file `fname:content` of a template. -/
def seed_name (f : Str) : Str :=
  match find ':' f with
  | some colon => f.take colon
  | Option.none => f

/-- The content of a seed file `fname:content` of a template. -/
def seed_content (f : Str) : Str :=
  match find ':' f with
  | some colon => f.drop (colon + 1)
  | Option.none => f

/-- The files after the seed files of a template are written below `path`,
each with the placeholder replaced by `name`. -/
def seeded (path name : Str) (files : List Str) (fs : FileSystem) : FileSystem :=
  files.foldl
    (fun fs f =>
      fs.write (path ++ "/".toList ++ seed_name f)
        (replace_all placeholder name (seed_content f))) fs

/-- The files after the loop over the seed files of `cmd_create`, for the
language `lang`. -/
def seeded_for (lang path name : Str) (fs : FileSystem) : FileSystem :=
  match get_templates lang with
  | some tpl => seeded path name tpl.files fs
  | Option.none => fs

/-- The files `cmd_create` leaves for the record `w` it has filled in: the
seed files, the configuration file of `w` and the registry with `w` behind
the records `ws` loaded before. -/
def created_files (env : ProcEnv) (name : Str) (o : CreateOptions) (ws : List Workspace)
    (fs : FileSystem) (w : Workspace) : FileSystem :=
  ((seeded_for o.lang o.path name fs).write w.cfg_path w.save_config_store.save_text).write
    (ws_config env.home) (registry_text (ws ++ [{ w with config := w.save_config_store }]))

/-- An option of `ws-create` as it is given on the command line. -/
inductive CreateOption where
  | path (v : Str)
  | lang (v : Str)
  | isolated
  | description (v : Str)
  | author (v : Str)
  | build (v : Str)
  | run (v : Str)
  | env (v : Str)

namespace CreateOption

/-- The arguments an option is written as. -/
def args : CreateOption → List Str
  | path v => ["--path".toList, v]
  | lang v => ["--lang".toList, v]
  | isolated => ["--isolated".toList]
  | description v => ["--description".toList, v]
  | author v => ["--author".toList, v]
  | build v => ["--build".toList, v]
  | run v => ["--run".toList, v]
  | env v => ["--env".toList, v]

/-- What an option means for the locals of `cmd_create`. -/
def apply (o : CreateOptions) : CreateOption → CreateOptions
  | path v => { o with path := v }
  | lang v => { o with lang := v }
  | isolated => { o with isolated := true }
  | description v => { o with desc := v }
  | author v => { o with author := v }
  | build v => { o with build_cmd := v }
  | run v => { o with run_cmd_ := v }
  | env v => parse_env_option o v

end CreateOption

/-- The arguments a list of options is written as. -/
def render_options : List CreateOption → List Str
  | [] => []
  | opt :: rest => opt.args ++ render_options rest

/-- The `--build` argument of a list of options, when one is given: the last
one. -/
def given_build : List CreateOption → Option Str
  | [] => Option.none
  | opt :: rest =>
    match given_build rest with
    | some v => some v
    | Option.none =>
      match opt with
      | CreateOption.build v => some v
      | _ => Option.none

/-- The `--run` argument of a list of options, when one is given: the last
one. -/
def given_run : List CreateOption → Option Str
  | [] => Option.none
  | opt :: rest =>
    match given_run rest with
    | some v => some v
    | Option.none =>
      match opt with
      | CreateOption.run v => some v
      | _ => Option.none

/-- A process environment with `HOME=/h` and `USER=nav`, at the time
1700000000. -/
def demo_env : ProcEnv :=
  { home := some "/h".toList, user := some "nav".toList, shell := Option.none,
    ws_name := Option.none, time := 1700000000 }

/-- A world without any file or directory. -/
def empty_world : World :=
  { files := FileSystem.none, dirs := fun _ => false, cwd := "/".toList }

/-- The world after `ws-create demo --lang go` in the empty world. -/
def go_world : World :=
  match cmd_create demo_env ["demo".toList, "--lang".toList, "go".toList] empty_world with
  | some r => r.2
  | Option.none => empty_world

/-- A world whose registry holds the workspace `b` at `/p`, with a
configuration file that sets `lang` to `rust`. -/
def registry_world : World :=
  { files := (FileSystem.none.write (ws_config (some "/h".toList)) "[b]\npath=/p\n\n".toList).write
      "/p/.ws/config".toList "lang: rust\n".toList
    dirs := fun q => decide (q = "/p".toList)
    cwd := "/".toList }

/-- The build descriptors `cmd_build` looks for, in the order it looks for
them. -/
def build_descriptors : List Str :=
  ["Makefile".toList, "CMakeLists.txt".toList, "Cargo.toml".toList, "package.json".toList,
    "setup.py".toList]

/-- The record `load_workspaces` returns for the workspace `b` of
`registry_world`. -/
def registry_record : Workspace :=
  ((load_workspaces demo_env.home registry_world.files).get? 0).getD Workspace.fresh

/-- A world whose registry holds `b` at `/w/b` and `c` at `/w/b/c`, below
the root of `b`, where `c` has a configuration file that sets `lang` to
`go`. -/
def nested_world : World :=
  { files := (FileSystem.none.write (ws_config (some "/h".toList))
        "[b]\npath=/w/b\n\n[c]\npath=/w/b/c\n\n".toList).write
      "/w/b/c/.ws/config".toList "lang: go\n".toList
    dirs := fun q => decide (q ∈ ["/w".toList, "/w/b".toList, "/w/b/c".toList,
      "/w/b/c/.ws".toList])
    cwd := "/".toList }

/-- The get form of `cmd_config`: the value it prints for the key, `none`
when it reports an unknown key or an environment variable that is not set. -/
def config_get (w : Workspace) (key : Str) : Option Str :=
  if key = "display_name".toList then some w.display_name
  else if key = "description".toList then some w.description
  else if key = "build_cmd".toList then some w.build_cmd
  else if key = "run_cmd".toList then some w.run_cmd_
  else if key = "test_cmd".toList then some w.test_cmd
  else if key = "clean_cmd".toList then some w.clean_cmd
  else if key = "isolated".toList then
    some (if w.isolated then "true".toList else "false".toList)
  else if starts_with "env.".toList key then w.env_vars.find (key.drop 4)
  else Option.none

/-- The assignment of the set form of `cmd_config`: the record afterwards,
`none` when it reports an unknown key. -/
def config_set (w : Workspace) (key value : Str) : Option Workspace :=
  if key = "display_name".toList then some { w with display_name := value }
  else if key = "description".toList then some { w with description := value }
  else if key = "build_cmd".toList then some { w with build_cmd := value }
  else if key = "run_cmd".toList then some { w with run_cmd_ := value }
  else if key = "test_cmd".toList then some { w with test_cmd := value }
  else if key = "clean_cmd".toList then some { w with clean_cmd := value }
  else if key = "isolated".toList then
    some { w with isolated := decide (value = "true".toList ∨ value = "1".toList) }
  else if starts_with "env.".toList key then
    some { w with env_vars := w.env_vars.set (key.drop 4) value }
  else Option.none

/-- The function `cmd_config` on the arguments after `argv[0]`: its exit
status and the world afterwards. With two arguments it prints a value; with
three or more it assigns `argv[3]`, calls `save_config` on the record and
`save_workspaces` on the vector that holds it. -/
def cmd_config (env : ProcEnv) (args : List Str) (world : World) : Nat × World :=
  match args with
  | [] => (1, world)
  | [_] => (1, world)
  | name :: key :: rest =>
    match find_ws (load_workspaces env.home world.files) name with
    | Option.none => (1, world)
    | some i =>
      match (load_workspaces env.home world.files).get? i with
      | Option.none => (1, world)
      | some w =>
        match rest with
        | [] =>
          match config_get w key with
          | some _ => (0, world)
          | Option.none => (1, world)
        | value :: _ =>
          match config_set w key value with
          | Option.none => (1, world)
          | some w' =>
            (0,
              { world with
                files := save_workspaces env.home
                  ((load_workspaces env.home world.files).set i (w'.save_config world.files).1)
                  (w'.save_config world.files).2
                dirs := create_directories
                  (create_directories
                    (create_directories world.dirs (w'.path ++ "/.ws".toList))
                    (parent_path w'.cfg_path))
                  (parent_path (ws_config env.home)) })

/-- The keys `cmd_config` knows apart from the keys `env.<name>`. -/
def config_keys : List Str :=
  ["display_name".toList, "description".toList, "build_cmd".toList, "run_cmd".toList,
    "test_cmd".toList, "clean_cmd".toList, "isolated".toList]

namespace ProcEnv

/-- The environment of the process as far as the commands read it: the four
variables of `ProcEnv`. -/
def vars (env : ProcEnv) : Str → Option Str :=
  fun k =>
    if k = "HOME".toList then env.home
    else if k = "USER".toList then env.user
    else if k = "SHELL".toList then env.shell
    else if k = "WS_NAME".toList then env.ws_name
    else Option.none

end ProcEnv

/-- What the operating system does with the calls of `cmd_enter` that start
a process. `fork_fails`: `fork()` returns -1. `exec shell ctx`: the call
`execlp(shell, shell, nullptr)` made in the context `ctx` returns, which
means it has failed (`none`), or replaces the process image, and the shell
later ends with the exit status `s` (`some s`). The results of `unshare` and
`mount` change what is printed and mounted, not what `cmd_enter` returns. -/
structure Os where
  fork_fails : Bool
  exec : Str → ExecContext → Option Nat

/-- How a call of `cmd_enter` ends: it returns a status, or the process has
become the shell and ends with the exit status of the shell. -/
inductive Entered where
  | returned (status : Nat)
  | replaced (status : Nat)
deriving DecidableEq

/-- The shell of `cmd_enter`: the value `getenv("SHELL")` has after the calls
of `setenv`, `/bin/sh` when it is a null pointer. -/
def resolved_shell (ctx : ExecContext) : Str :=
  match ctx.vars "SHELL".toList with
  | some shell => shell
  | Option.none => "/bin/sh".toList

/-- The function `cmd_enter` on the arguments after `argv[0]`. For an
isolated workspace the result is what the parent returns: 1 when `fork`
fails, else `WEXITSTATUS` of the child, which is the exit status of the
shell or the 127 of `_exit(127)` behind a failed `execlp`. For a workspace
that is not isolated the process becomes the shell, or goes on to `return 0`
behind a failed `execlp`. -/
def cmd_enter (env : ProcEnv) (os : Os) (args : List Str) (world : World) : Entered :=
  match args with
  | [] => Entered.returned 1
  | name :: _ =>
    match find_ws (load_workspaces env.home world.files) name with
    | Option.none => Entered.returned 1
    | some i =>
      match (load_workspaces env.home world.files).get? i with
      | Option.none => Entered.returned 1
      | some w =>
        if world.path_exists w.path = false then Entered.returned 1
        else if w.isolated then
          if os.fork_fails then Entered.returned 1
          else
            match os.exec (resolved_shell (isolated_context w env.vars))
                (isolated_context w env.vars) with
            | some s => Entered.returned (s % 256)
            | Option.none => Entered.returned 127
        else
          match os.exec (resolved_shell (plain_context w env.vars))
              (plain_context w env.vars) with
          | some s => Entered.replaced s
          | Option.none => Entered.returned 0

/-- A world whose registry holds the workspace `b` at `/p`, a directory, with
a configuration file that sets `isolated` to `true`. -/
def isolated_world : World :=
  { files := (FileSystem.none.write (ws_config (some "/h".toList)) "[b]\npath=/p\n\n".toList).write
      "/p/.ws/config".toList "isolated: true\n".toList
    dirs := fun q => decide (q = "/p".toList)
    cwd := "/".toList }

/-- The record `load_workspaces` returns for the workspace `b` of
`isolated_world`. -/
def isolated_record : Workspace :=
  ((load_workspaces demo_env.home isolated_world.files).get? 0).getD Workspace.fresh

/-- An operating system in which every `execlp` fails; `fork` fails when
`fork_fails` is true. -/
def no_shell (fork_fails : Bool) : Os := { fork_fails := fork_fails, exec := fun _ _ => Option.none }

/-- A key that a line of the configuration file gives back as it is, the
empty key included: it contains neither `:` nor a newline, has no leading or
trailing whitespace and does not start with `#`. -/
def SafeKey (k : Str) : Prop :=
  ':' ∉ k ∧ '\n' ∉ k ∧ ConfigParser.trim k = k ∧ k.head? ≠ some '#'

instance (k : Str) : Decidable (SafeKey k) := by
  unfold SafeKey; infer_instance

/-- A workspace whose only tag starts with a space. -/
def padded_tag_workspace : Workspace :=
  { named "demo".toList "/p".toList with tags := [" x".toList] }

/-- A workspace with twelve mounts, `m0` to `m11`. -/
def twelve_mounts_workspace : Workspace :=
  { named "demo".toList "/p".toList with
    mounts := ["m0".toList, "m1".toList, "m2".toList, "m3".toList, "m4".toList, "m5".toList,
      "m6".toList, "m7".toList, "m8".toList, "m9".toList, "m10".toList, "m11".toList] }

/-- The call `m.erase(k)` of a `std::map`: the entry of the key `k`, if any,
is removed. -/
def StrMap.erase (m : StrMap) (k : Str) : StrMap :=
  ⟨m.entries.filter (fun e => decide (e.1 ≠ k)), List.Pairwise.filter _ m.ascending⟩

/-- The scalar fields `save_config` writes only when they are not empty. -/
inductive OptField where
  | build_cmd
  | clean_cmd
  | run_cmd_
  | test_cmd
  | created
  | author
deriving DecidableEq

namespace OptField

/-- The key of the field in the configuration file. -/
def key : OptField → Str
  | build_cmd => "build_cmd".toList
  | clean_cmd => "clean_cmd".toList
  | run_cmd_ => "run_cmd".toList
  | test_cmd => "test_cmd".toList
  | created => "created".toList
  | author => "author".toList

/-- The field of a workspace. -/
def get : OptField → Workspace → Str
  | build_cmd, w => w.build_cmd
  | clean_cmd, w => w.clean_cmd
  | run_cmd_, w => w.run_cmd_
  | test_cmd, w => w.test_cmd
  | created, w => w.created
  | author, w => w.author

/-- The workspace with the field set to the empty string. -/
def clear : OptField → Workspace → Workspace
  | build_cmd, w => { w with build_cmd := [] }
  | clean_cmd, w => { w with clean_cmd := [] }
  | run_cmd_, w => { w with run_cmd_ := [] }
  | test_cmd, w => { w with test_cmd := [] }
  | created, w => { w with created := [] }
  | author, w => { w with author := [] }

end OptField

/-- Every entry of the store has a safe key and a value without newline, as
in every store read from a file. -/
def StoreSafe (c : ConfigParser) : Prop :=
  ∀ e ∈ c.data.entries, SafeKey e.1 ∧ '\n' ∉ e.2

/-- A record as `load_config` leaves it: no string contains a newline, the
keys `env.<name>` of its environment are safe keys, and its store is safe. -/
def Clean (w : Workspace) : Prop :=
  LineSafe w ∧ (∀ e ∈ w.env_vars.entries, SafeKey ("env.".toList ++ e.1)) ∧ StoreSafe w.config

/-- The fields the set form of `cmd_config` can clear. -/
def config_fields : List OptField :=
  [OptField.build_cmd, OptField.clean_cmd, OptField.run_cmd_, OptField.test_cmd]

/-- A world whose registry holds the workspace `b` at `/p`, with a
configuration file that sets `build_cmd` to `make` and the environment
variable `CC` to `gcc`. -/
def build_world : World :=
  { files := (FileSystem.none.write (ws_config (some "/h".toList)) "[b]\npath=/p\n\n".toList).write
      "/p/.ws/config".toList "build_cmd: make\nenv.CC: gcc\n".toList
    dirs := fun q => decide (q = "/p".toList)
    cwd := "/".toList }

/-- The record `load_workspaces` returns for the workspace `b` of
`build_world`. -/
def build_record : Workspace :=
  ((load_workspaces demo_env.home build_world.files).get? 0).getD Workspace.fresh

/-- A world whose registry holds the workspace `b` at `/p`, with a
configuration file whose line for `build_cmd` has two pairs of double quotes
around `make`. -/
def quoted_build_world : World :=
  { files := (FileSystem.none.write (ws_config (some "/h".toList)) "[b]\npath=/p\n\n".toList).write
      "/p/.ws/config".toList "build_cmd: \"\"make\"\"\n".toList
    dirs := fun q => decide (q = "/p".toList)
    cwd := "/".toList }

/-- A world whose registry holds the workspace `b` at `/p`, where nothing
is at `/p`, and whose working directory `/work` holds a `Makefile`. -/
def stray_makefile_world : World :=
  { files := (FileSystem.none.write (ws_config (some "/h".toList)) "[b]\npath=/p\n\n".toList).write
      "/work/Makefile".toList "all:\n".toList
    dirs := fun q => decide (q = "/work".toList)
    cwd := "/work".toList }

/-- A `system` that succeeds and leaves an object file in the working
directory of the world. -/
def make_runs : System :=
  fun _ _ world =>
    (0, { world with files := world.files.write (world.cwd ++ "/main.o".toList) [] })

/-- Every character of the string is whitespace. -/
def AllSpace (s : Str) : Prop := ∀ x ∈ s, isspace x = true

/-- The string neither starts nor ends with whitespace. -/
def Tight (s : Str) : Prop :=
  (∀ x, s.head? = some x → isspace x = false) ∧ (∀ x, s.getLast? = some x → isspace x = false)

/-- The text `t` is the string `raw` without its leading and trailing
whitespace: `raw` is `t` between two runs of whitespace, and `t` neither
starts nor ends with whitespace. -/
def Trimmed (raw t : Str) : Prop :=
  ∃ a b, AllSpace a ∧ AllSpace b ∧ Tight t ∧ raw = a ++ t ++ b

/-- A line that, without its leading and trailing whitespace, is empty,
starts with `#`, or contains neither `:` nor `=`. -/
def IgnoredLine (raw : Str) : Prop :=
  ∃ line, Trimmed raw line ∧
    (line = [] ∨ line.head? = some '#' ∨ (':' ∉ line ∧ '=' ∉ line))

/-- The value `v` is the text `val` without its first and last character
when `val` is wrapped in a pair of double quotes, and `val` itself when it
is not. -/
def Unquoted (val v : Str) : Prop :=
  (Quoted val ∧ val = '"' :: v ++ ['"']) ∨ (¬ Quoted val ∧ v = val)

/-- The store `c'` is the store `c` after the assignment `data[key] = val`:
`key` has the value `val` and no other, every other key has the entries it
has in `c`. -/
def StoredAs (c c' : ConfigParser) (key val : Str) : Prop :=
  (∀ v, (key, v) ∈ c'.data.entries ↔ v = val) ∧
  (∀ k v, k ≠ key → ((k, v) ∈ c'.data.entries ↔ (k, v) ∈ c.data.entries))

theorem dropWhile_allSpace_append {a : Str} (ha : AllSpace a) (s : Str) :
    (a ++ s).dropWhile isspace = s.dropWhile isspace := by
  induction a with
  | nil => rfl
  | cons x xs ih =>
    have hx : isspace x = true := ha x (List.mem_cons_self _ _)
    have hxs : AllSpace xs := fun y hy => ha y (List.mem_cons_of_mem _ hy)
    simp [List.dropWhile_cons, hx, ih hxs]

theorem rdropWhile_append_allSpace {b : Str} (hb : AllSpace b) (s : Str) :
    (s ++ b).rdropWhile isspace = s.rdropWhile isspace := by
  induction b using List.reverseRecOn with
  | nil => simp
  | append_singleton ys y ih =>
    have hy : isspace y = true := hb y (by simp)
    have hys : AllSpace ys := fun z hz => hb z (by simp [hz])
    rw [← List.append_assoc, List.rdropWhile_concat_pos _ _ _ hy, ih hys]

theorem dropWhile_eq_self_of_head {s : Str} (h : ∀ x, s.head? = some x → isspace x = false) :
    s.dropWhile isspace = s := by
  cases s with
  | nil => rfl
  | cons x xs => simp [List.dropWhile_cons, h x rfl]

theorem rdropWhile_eq_self_of_last {s : Str}
    (h : ∀ x, s.getLast? = some x → isspace x = false) : s.rdropWhile isspace = s := by
  rw [List.rdropWhile_eq_self_iff]
  intro hl
  have := h _ (List.getLast?_eq_getLast s hl)
  simp [this]

theorem allSpace_nil : AllSpace [] := fun _ h => by cases h

theorem allSpace_append {a b : Str} (ha : AllSpace a) (hb : AllSpace b) : AllSpace (a ++ b) := by
  intro x hx
  rcases List.mem_append.1 hx with h | h
  · exact ha x h
  · exact hb x h

theorem dropWhile_decomp (s : Str) :
    ∃ a, AllSpace a ∧ s = a ++ s.dropWhile isspace :=
  ⟨s.takeWhile isspace, fun _ hx => List.mem_takeWhile_imp hx,
    (List.takeWhile_append_dropWhile isspace s).symm⟩

theorem rdropWhile_decomp (s : Str) :
    ∃ b, AllSpace b ∧ s = s.rdropWhile isspace ++ b := by
  induction s using List.reverseRecOn with
  | nil => exact ⟨[], allSpace_nil, rfl⟩
  | append_singleton ys y ih =>
    obtain ⟨t, ht, hys⟩ := ih
    by_cases hy : isspace y = true
    · refine ⟨t ++ [y], allSpace_append ht (fun z hz => ?_), ?_⟩
      · rw [List.mem_singleton.1 hz]; exact hy
      · rw [List.rdropWhile_concat_pos _ _ _ hy, ← List.append_assoc, ← hys]
    · exact ⟨[], allSpace_nil, by rw [List.rdropWhile_concat_neg _ _ _ hy, List.append_nil]⟩

theorem tight_nil : Tight [] := by
  unfold Tight; simp

/-- What `trim` returns for a tight string between two runs of whitespace. -/
theorem trim_unique {a c b : Str} (ha : AllSpace a) (hb : AllSpace b) (hc : Tight c) :
    ConfigParser.trim (a ++ c ++ b) = c := by
  unfold ConfigParser.trim
  rw [List.append_assoc, dropWhile_allSpace_append ha]
  cases c with
  | nil =>
    have : List.dropWhile isspace ([] ++ b) = [] := by
      rw [List.nil_append, List.dropWhile_eq_nil_iff]; exact hb
    rw [this]; rfl
  | cons x xs =>
    have hx : isspace x = false := hc.1 x rfl
    have : List.dropWhile isspace (x :: xs ++ b) = x :: xs ++ b := by
      simp [List.dropWhile_cons, hx]
    rw [this, rdropWhile_append_allSpace hb, rdropWhile_eq_self_of_last hc.2]

theorem trim_tight (s : Str) : Tight (ConfigParser.trim s) := by
  unfold ConfigParser.trim
  constructor
  · intro x hx
    have h1 := List.head?_dropWhile_not isspace s
    cases hd : List.dropWhile isspace s with
    | nil => rw [hd] at hx; simp at hx
    | cons y ys =>
      rw [hd] at hx h1
      simp only [List.head?_cons] at h1
      by_cases hne : List.rdropWhile isspace (y :: ys) = []
      · rw [hne] at hx; cases hx
      · obtain ⟨t, -, ht⟩ := rdropWhile_decomp (y :: ys)
        cases hr : List.rdropWhile isspace (y :: ys) with
        | nil => exact absurd hr hne
        | cons z zs =>
          rw [hr] at hx ht
          simp only [List.cons_append, List.cons.injEq] at ht
          simp only [List.head?_cons, Option.some.injEq] at hx
          rw [← hx, ← ht.1]; exact h1
  · intro x hx
    by_cases hne : List.rdropWhile isspace (List.dropWhile isspace s) = []
    · rw [hne] at hx; cases hx
    · have h2 := List.rdropWhile_last_not isspace (List.dropWhile isspace s) hne
      rw [List.getLast?_eq_getLast _ hne] at hx
      simp only [Option.some.injEq] at hx
      rw [← hx]; simpa using h2

theorem head_dropWhile_isspace (s : Str) :
    ∀ x, (s.dropWhile isspace).head? = some x → isspace x = false := by
  intro x hx
  have h := List.head?_dropWhile_not isspace s
  rw [hx] at h
  exact h

theorem last_rdropWhile_isspace (s : Str) :
    ∀ x, (s.rdropWhile isspace).getLast? = some x → isspace x = false := by
  intro x hx
  by_cases hne : s.rdropWhile isspace = []
  · rw [hne] at hx; cases hx
  · have h := List.rdropWhile_last_not isspace s hne
    rw [List.getLast?_eq_getLast _ hne] at hx
    simp only [Option.some.injEq] at hx
    rw [← hx]; simpa using h

theorem trim_spec (s : Str) :
    ∃ a b, AllSpace a ∧ AllSpace b ∧ s = a ++ ConfigParser.trim s ++ b := by
  obtain ⟨a, ha, h1⟩ := dropWhile_decomp s
  obtain ⟨b, hb, h2⟩ := rdropWhile_decomp (s.dropWhile isspace)
  refine ⟨a, b, ha, hb, ?_⟩
  unfold ConfigParser.trim
  rw [List.append_assoc, ← h2, ← h1]

theorem trim_allSpace_append {a : Str} (ha : AllSpace a) (s : Str) :
    ConfigParser.trim (a ++ s) = ConfigParser.trim s := by
  unfold ConfigParser.trim
  rw [dropWhile_allSpace_append ha]

theorem trim_append_allSpace {b : Str} (hb : AllSpace b) (s : Str) :
    ConfigParser.trim (s ++ b) = ConfigParser.trim s := by
  obtain ⟨a, b0, ha, hb0, hs⟩ := trim_spec s
  have h : s ++ b = a ++ ConfigParser.trim s ++ (b0 ++ b) := by
    conv_lhs => rw [hs]
    simp [List.append_assoc]
  rw [h]
  exact trim_unique ha (allSpace_append hb0 hb) (trim_tight s)

theorem trim_dropWhile (s : Str) :
    ConfigParser.trim (s.dropWhile isspace) = ConfigParser.trim s := by
  unfold ConfigParser.trim
  rw [List.dropWhile_idempotent]

theorem trim_rdropWhile (s : Str) :
    ConfigParser.trim (s.rdropWhile isspace) = ConfigParser.trim s := by
  obtain ⟨b, hb, hs⟩ := rdropWhile_decomp s
  conv_rhs => rw [hs]
  rw [trim_append_allSpace hb]

theorem trim_eq_self_iff (s : Str) : ConfigParser.trim s = s ↔ Tight s := by
  constructor
  · intro h; rw [← h]; exact trim_tight s
  · intro h
    have := trim_unique allSpace_nil allSpace_nil h
    simpa using this

theorem trim_trim (s : Str) : ConfigParser.trim (ConfigParser.trim s) = ConfigParser.trim s :=
  (trim_eq_self_iff _).2 (trim_tight s)

theorem find_eq_none_iff (c : Char) (s : Str) : find c s = none ↔ c ∉ s := by
  induction s with
  | nil => simp [find]
  | cons x xs ih =>
    simp only [find, List.mem_cons, not_or]
    by_cases hx : x = c
    · simp [hx]
    · simp [hx, ih, Ne.symm hx]

theorem find_append_of_not_mem {c : Char} {p : Str} (hp : c ∉ p) (q : Str) :
    find c (p ++ c :: q) = some p.length := by
  induction p with
  | nil => simp [find]
  | cons x xs ih =>
    simp only [List.mem_cons, not_or] at hp
    simp [find, Ne.symm hp.1, ih hp.2]

theorem find_some_decomp {c : Char} {s : Str} {i : Nat} (h : find c s = some i) :
    s = s.take i ++ c :: s.drop (i + 1) ∧ c ∉ s.take i := by
  induction s generalizing i with
  | nil => simp [find] at h
  | cons x xs ih =>
    simp only [find] at h
    by_cases hx : x = c
    · simp only [hx, if_true, Option.some.injEq] at h
      subst h; simp [hx]
    · simp only [hx, if_false, Option.map_eq_some'] at h
      obtain ⟨j, hj, rfl⟩ := h
      obtain ⟨h1, h2⟩ := ih hj
      refine ⟨?_, ?_⟩
      · simp only [List.take_succ_cons, List.drop_succ_cons, List.cons_append, List.cons.injEq,
          true_and]
        exact h1
      · simp only [List.take_succ_cons, List.mem_cons, not_or]
        exact ⟨Ne.symm hx, h2⟩

theorem find_separator_append {pre post : Str} {sep : Char} (h : IsSeparator pre sep post) :
    ConfigParser.find_separator (pre ++ sep :: post) = some pre.length := by
  obtain ⟨h1, h2⟩ := h
  unfold ConfigParser.find_separator
  rcases h2 with rfl | ⟨rfl, h3, h4⟩
  · rw [find_append_of_not_mem h1]
  · have hnone : find ':' (pre ++ '=' :: post) = none := by
      rw [find_eq_none_iff]
      simp only [List.mem_append, List.mem_cons, not_or]
      exact ⟨h1, by decide, h4⟩
    rw [hnone, find_append_of_not_mem h3]

theorem find_separator_some {s : Str} {i : Nat} (h : ConfigParser.find_separator s = some i) :
    ∃ sep, s = s.take i ++ sep :: s.drop (i + 1) ∧ IsSeparator (s.take i) sep (s.drop (i + 1)) := by
  unfold ConfigParser.find_separator at h
  cases hc : find ':' s with
  | some j =>
    rw [hc] at h
    simp only [Option.some.injEq] at h
    subst h
    obtain ⟨h1, h2⟩ := find_some_decomp hc
    exact ⟨':', h1, h2, Or.inl rfl⟩
  | none =>
    rw [hc] at h
    simp only at h
    obtain ⟨h1, h2⟩ := find_some_decomp h
    have hno : ':' ∉ s := (find_eq_none_iff _ _).1 hc
    refine ⟨'=', h1, fun hm => hno (List.mem_of_mem_take hm), Or.inr ⟨rfl, h2, ?_⟩⟩
    exact fun hm => hno (List.mem_of_mem_drop hm)

theorem find_separator_none (s : Str) :
    ConfigParser.find_separator s = none ↔ ':' ∉ s ∧ '=' ∉ s := by
  unfold ConfigParser.find_separator
  cases hc : find ':' s with
  | some j =>
    have : ¬ ':' ∉ s := by rw [← find_eq_none_iff, hc]; simp
    simp [this]
  | none =>
    simp only
    rw [find_eq_none_iff]
    have : ':' ∉ s := (find_eq_none_iff _ _).1 hc
    simp [this]

theorem isspace_separator {pre post : Str} {sep : Char} (h : IsSeparator pre sep post) :
    isspace sep = false := by
  rcases h.2 with rfl | ⟨rfl, -, -⟩ <;> decide

theorem tight_around {p q : Str} {sep : Char}
    (hp : ∀ x, p.head? = some x → isspace x = false)
    (hq : ∀ x, q.getLast? = some x → isspace x = false)
    (hsep : isspace sep = false) : Tight (p ++ sep :: q) := by
  constructor
  · intro x hx
    cases p with
    | nil => simp at hx; rw [← hx]; exact hsep
    | cons y ys => simp at hx; rw [← hx]; exact hp y rfl
  · intro x hx
    rw [List.getLast?_append_of_ne_nil _ (List.cons_ne_nil _ _)] at hx
    cases q using List.reverseRecOn with
    | nil => simp at hx; rw [← hx]; exact hsep
    | append_singleton ys y _ =>
      rw [← List.cons_append, List.getLast?_concat] at hx
      exact hq x (by rw [List.getLast?_concat]; exact hx)

/-- The trimmed line of `load` for a line with the separator `sep`. -/
theorem trim_line {pre post : Str} {sep : Char} (h : isspace sep = false) :
    ConfigParser.trim (pre ++ sep :: post) =
      pre.dropWhile isspace ++ sep :: post.rdropWhile isspace := by
  obtain ⟨a, ha, h1⟩ := dropWhile_decomp pre
  obtain ⟨b, hb, h2⟩ := rdropWhile_decomp post
  have hraw : pre ++ sep :: post =
      a ++ (pre.dropWhile isspace ++ sep :: post.rdropWhile isspace) ++ b := by
    conv_lhs => rw [h1, h2]
    simp [List.append_assoc]
  rw [hraw]
  exact trim_unique ha hb
    (tight_around (head_dropWhile_isspace pre) (last_rdropWhile_isspace post) h)

/-- The key and value `load` stores for a line written as text, separator,
text. -/
theorem parse_line_split {pre post : Str} {sep : Char} (h : IsSeparator pre sep post)
    (hc : (ConfigParser.trim (pre ++ sep :: post)).head? ≠ some '#') :
    ConfigParser.parse_line (pre ++ sep :: post) =
      some (ConfigParser.trim pre, ConfigParser.strip_quotes (ConfigParser.trim post)) := by
  have hsp := isspace_separator h
  have hline : ConfigParser.trim (pre ++ sep :: post) =
      pre.dropWhile isspace ++ sep :: post.rdropWhile isspace := trim_line hsp
  have hsep : IsSeparator (pre.dropWhile isspace) sep (post.rdropWhile isspace) := by
    obtain ⟨a, -, h1⟩ := dropWhile_decomp pre
    obtain ⟨b, -, h2⟩ := rdropWhile_decomp post
    refine ⟨fun hm => h.1 ?_, ?_⟩
    · rw [h1]; exact List.mem_append_right _ hm
    · rcases h.2 with h3 | ⟨h3, h4, h5⟩
      · exact Or.inl h3
      · refine Or.inr ⟨h3, fun hm => h4 ?_, fun hm => h5 ?_⟩
        · rw [h1]; exact List.mem_append_right _ hm
        · rw [h2]; exact List.mem_append_left _ hm
  unfold ConfigParser.parse_line
  simp only
  rw [if_neg]
  · rw [hline, find_separator_append hsep]
    simp only [List.take_left, List.drop_left' (rfl : (pre.dropWhile isspace ++ [sep]).length = _)]
    have hd : List.drop ((List.dropWhile isspace pre).length + 1)
        (List.dropWhile isspace pre ++ sep :: List.rdropWhile isspace post) =
        List.rdropWhile isspace post := by
      have := List.drop_left (List.dropWhile isspace pre ++ [sep]) (List.rdropWhile isspace post)
      simp
    rw [hd, trim_dropWhile, trim_rdropWhile]
  · rw [not_or]
    refine ⟨?_, hc⟩
    rw [hline]; simp

theorem getlines_cons_line {l : Str} (hl : '\n' ∉ l) (rest : Str) :
    getlines (l ++ '\n' :: rest) = l :: getlines rest := by
  induction l with
  | nil => simp [getlines]
  | cons c cs ih =>
    simp only [List.mem_cons, not_or] at hl
    have hc : c ≠ '\n' := Ne.symm hl.1
    have h := ih hl.2
    simp only [List.cons_append, getlines, hc, if_false, List.append_eq]
    rw [h]

theorem getlines_unlines {ls : List Str} (h : ∀ l ∈ ls, '\n' ∉ l) :
    getlines (unlines ls) = ls := by
  induction ls with
  | nil => rfl
  | cons l ls ih =>
    simp only [unlines]
    rw [getlines_cons_line (h l (List.mem_cons_self _ _)),
      ih (fun x hx => h x (List.mem_cons_of_mem _ hx))]

theorem getlines_no_newline (s : Str) : ∀ l ∈ getlines s, '\n' ∉ l := by
  induction s with
  | nil => simp [getlines]
  | cons c cs ih =>
    intro l hl
    simp only [getlines] at hl
    by_cases hc : c = '\n'
    · simp only [hc, if_true, List.mem_cons] at hl
      rcases hl with rfl | hl
      · simp
      · exact ih l hl
    · simp only [hc, if_false] at hl
      cases hg : getlines cs with
      | nil =>
        rw [hg] at hl
        simp only [List.mem_singleton] at hl
        subst hl
        simp [Ne.symm hc]
      | cons l0 ls0 =>
        rw [hg] at hl ih
        simp only [List.mem_cons] at hl
        rcases hl with rfl | hl
        · have := ih l0 (List.mem_cons_self _ _)
          simp [Ne.symm hc, this]
        · exact ih l (List.mem_cons_of_mem _ hl)

theorem allSpace_not_mem {a : Str} (ha : AllSpace a) {c : Char} (hc : isspace c = false) :
    c ∉ a := by
  intro hm
  have := ha c hm
  rw [hc] at this
  cases this

theorem parse_line_eq_none_iff (raw : Str) :
    ConfigParser.parse_line raw = none ↔ Ignorable raw := by
  unfold ConfigParser.parse_line Ignorable
  simp only
  by_cases h1 : ConfigParser.trim raw = [] ∨ (ConfigParser.trim raw).head? = some '#'
  · rw [if_pos h1]
    simp only [true_iff]
    rcases h1 with h | h
    · exact Or.inl h
    · exact Or.inr (Or.inl h)
  · rw [if_neg h1]
    rw [not_or] at h1
    cases hs : ConfigParser.find_separator (ConfigParser.trim raw) with
    | none =>
      simp only [true_iff]
      exact Or.inr (Or.inr ((find_separator_none _).1 hs))
    | some i =>
      constructor
      · intro h; cases h
      · intro h
        rcases h with h | h | h
        · exact absurd h h1.1
        · exact absurd h h1.2
        · rw [(find_separator_none _).2 h] at hs
          cases hs

/-- A line `load` stores something for splits at its separator into the text
of the key and the text of the value. -/
theorem parse_line_some {raw k v : Str} (h : ConfigParser.parse_line raw = some (k, v)) :
    ∃ pre sep post, raw = pre ++ sep :: post ∧ IsSeparator pre sep post ∧
      k = ConfigParser.trim pre ∧ v = ConfigParser.strip_quotes (ConfigParser.trim post) := by
  unfold ConfigParser.parse_line at h
  simp only at h
  split_ifs at h with h1
  cases hs : ConfigParser.find_separator (ConfigParser.trim raw) with
  | none => rw [hs] at h; cases h
  | some i =>
    rw [hs] at h
    simp only [Option.some.injEq, Prod.mk.injEq] at h
    obtain ⟨sep, hline, hsep⟩ := find_separator_some hs
    obtain ⟨a, b, ha, hb, hraw⟩ := trim_spec raw
    have hsp := isspace_separator hsep
    refine ⟨a ++ (ConfigParser.trim raw).take i, sep, (ConfigParser.trim raw).drop (i + 1) ++ b,
      ?_, ⟨?_, ?_⟩, ?_, ?_⟩
    · conv_lhs => rw [hraw, hline]
      simp [List.append_assoc]
    · intro hm
      rcases List.mem_append.1 hm with hm | hm
      · exact allSpace_not_mem ha (by decide) hm
      · exact hsep.1 hm
    · rcases hsep.2 with h3 | ⟨h3, h4, h5⟩
      · exact Or.inl h3
      · refine Or.inr ⟨h3, fun hm => ?_, fun hm => ?_⟩
        · rcases List.mem_append.1 hm with hm | hm
          · exact allSpace_not_mem ha (by decide) hm
          · exact h4 hm
        · rcases List.mem_append.1 hm with hm | hm
          · exact h5 hm
          · exact allSpace_not_mem hb (by decide) hm
    · rw [trim_allSpace_append ha]; exact h.1.symm
    · rw [trim_append_allSpace hb]; exact h.2.symm

theorem save_text_foldl (es : List (Str × Str)) (acc : Str) :
    es.foldl (fun out e => out ++ e.1 ++ ": ".toList ++ e.2 ++ "\n".toList) acc =
      acc ++ unlines (es.map entry_line) := by
  induction es generalizing acc with
  | nil => simp [unlines]
  | cons e es ih =>
    simp only [List.foldl_cons, List.map_cons, unlines, ih, entry_line]
    have : "\n".toList = ['\n'] := rfl
    simp [this, List.append_assoc]

theorem save_text_eq (c : ConfigParser) :
    c.save_text = unlines (c.data.entries.map entry_line) := by
  unfold ConfigParser.save_text
  rw [save_text_foldl]; rfl

theorem load_write (c : ConfigParser) (fs : FileSystem) (path content : Str) :
    c.load (fs.write path content) path = (true, c.load_lines (getlines content)) := by
  simp [ConfigParser.load, FileSystem.write]

theorem load_line_of_ignorable {raw : Str} (h : Ignorable raw) (c : ConfigParser) :
    c.load_line raw = c := by
  unfold ConfigParser.load_line
  rw [(parse_line_eq_none_iff raw).2 h]

theorem load_lines_filter (c : ConfigParser) (ls : List Str) :
    c.load_lines (ls.filter (fun l => decide (¬ Ignorable l))) = c.load_lines ls := by
  unfold ConfigParser.load_lines
  induction ls generalizing c with
  | nil => rfl
  | cons l ls ih =>
    by_cases h : Ignorable l
    · simp only [List.filter_cons, h, not_true_eq_false, decide_False, Bool.false_eq_true,
        if_false, List.foldl_cons, load_line_of_ignorable h]
      exact ih c
    · simp only [List.filter_cons, h, not_false_eq_true, decide_True, if_true, List.foldl_cons]
      exact ih _

theorem strip_quotes_quoted {val : Str} (h : Quoted val) :
    ∃ mid, val = '"' :: mid ++ ['"'] ∧ ConfigParser.strip_quotes val = mid := by
  obtain ⟨h1, h2, h3⟩ := h
  cases val with
  | nil => simp at h1
  | cons x t =>
    simp only [List.head?_cons, Option.some.injEq] at h2
    subst h2
    rcases List.eq_nil_or_concat t with ht | ⟨mid, y, ht⟩
    · subst ht; simp at h1
    · rw [List.concat_eq_append] at ht
      subst ht
      have hy : y = '"' := by
        rw [← List.cons_append, List.getLast?_concat] at h3
        exact Option.some.inj h3
      subst hy
      refine ⟨mid, rfl, ?_⟩
      unfold ConfigParser.strip_quotes
      rw [if_pos ⟨h1, rfl, h3⟩]
      simp

theorem strip_quotes_not_quoted {val : Str} (h : ¬ Quoted val) :
    ConfigParser.strip_quotes val = val := by
  unfold ConfigParser.strip_quotes
  exact if_neg h

theorem load_config_name_path (w : Workspace) (fs : FileSystem) :
    (w.load_config fs).2.name = w.name ∧ (w.load_config fs).2.path = w.path := by
  unfold Workspace.load_config
  cases h : w.config.load fs w.cfg_path with
  | mk ok c =>
    cases ok with
    | false => exact ⟨rfl, rfl⟩
    | true => exact ⟨rfl, rfl⟩

theorem names_and_paths_load_config (fs : FileSystem) (ws : List Workspace) :
    names_and_paths (ws.map (fun w => (w.load_config fs).2)) = names_and_paths ws := by
  unfold names_and_paths
  rw [List.map_map]
  apply List.map_congr_left
  intro w _
  simp [load_config_name_path w fs]

/-- The workspaces pushed before a run of lines stay in front of the ones the
run pushes. -/
theorem registry_fold_pushed (lines : List Str) (ws : List Workspace) (cur : Workspace) :
    lines.foldl registry_line (ws, cur) =
      (ws ++ (lines.foldl registry_line ([], cur)).1,
        (lines.foldl registry_line ([], cur)).2) := by
  induction lines generalizing ws cur with
  | nil => simp
  | cons l ls ih =>
    simp only [List.foldl_cons]
    have hstep : registry_line (ws, cur) l =
        (ws ++ (registry_line ([], cur) l).1, (registry_line ([], cur) l).2) := by
      unfold registry_line
      by_cases h1 : l = [] ∨ l.head? = some '#'
      · simp [h1]
      · simp only [h1, if_false]
        by_cases h2 : l.head? = some '[' ∧ l.getLast? = some ']'
        · simp only [h2, and_self, if_true]
          by_cases h3 : cur.name = []
          · simp [h3]
          · simp [h3]
        · simp only [h2, if_false]
          cases find '=' l with
          | none => simp
          | some eq =>
            simp only
            split_ifs <;> simp
    rw [hstep, ih, ih (registry_line ([], cur) l).1]
    simp [List.append_assoc]

theorem registry_line_header (st : List Workspace × Workspace) (name : Str) :
    registry_line st (header_line name) =
      (if st.2.name = [] then st.1 else st.1 ++ [st.2], named name []) := by
  unfold registry_line header_line
  have h1 : ¬ ('[' :: name ++ [']'] = [] ∨ ('[' :: name ++ [']']).head? = some '#') := by
    simp
  have h2 : ('[' :: name ++ [']']).head? = some '[' ∧
      ('[' :: name ++ [']']).getLast? = some ']' := by
    exact ⟨rfl, List.getLast?_concat _⟩
  rw [if_neg h1, if_pos h2]
  simp [named, Workspace.fresh]

theorem registry_line_other {l : Str} (h1 : ¬ IsHeader l) (h2 : ¬ IsPathLine l)
    (st : List Workspace × Workspace) : registry_line st l = st := by
  unfold registry_line
  by_cases hc : l = [] ∨ l.head? = some '#'
  · rw [if_pos hc]
  · have h1' : ¬ (l.head? = some '[' ∧ l.getLast? = some ']') := h1
    rw [if_neg hc, if_neg h1']
    cases hf : find '=' l with
    | none => rfl
    | some eq =>
      simp only
      rw [if_neg]
      intro ht
      apply h2
      obtain ⟨hd, -⟩ := find_some_decomp hf
      unfold IsPathLine
      rw [hd, ht]
      simp

theorem registry_line_path (ws : List Workspace) (cur : Workspace) (v : Str) :
    registry_line (ws, cur) ("path=".toList ++ v) = (ws, { cur with path := v }) := by
  have hf : find '=' ("path=".toList ++ v) = some 4 :=
    find_append_of_not_mem (c := '=') (p := "path".toList) (by decide) v
  unfold registry_line
  have h1 : ¬ ("path=".toList ++ v = [] ∨ ("path=".toList ++ v).head? = some '#') := by
    simp
  have h2 : ¬ (("path=".toList ++ v).head? = some '[' ∧
      ("path=".toList ++ v).getLast? = some ']') := by
    simp
  rw [if_neg h1, if_neg h2, hf]
  simp

theorem registry_fold_other {body : List Str} (h : ∀ l ∈ body, ¬ IsHeader l ∧ ¬ IsPathLine l)
    (st : List Workspace × Workspace) : body.foldl registry_line st = st := by
  induction body with
  | nil => rfl
  | cons l ls ih =>
    have hl := h l (List.mem_cons_self _ _)
    rw [List.foldl_cons, registry_line_other hl.1 hl.2,
      ih (fun x hx => h x (List.mem_cons_of_mem _ hx))]

/-- The entries of a registry file around a section that is made of a header,
an optional line `path=`, and lines that are neither headers nor `path=`. -/
theorem registry_entries_section (before body after : List Str) (name : Str)
    (pathLine : List Str) (path : Str)
    (hp : pathLine = [] ∧ path = [] ∨ pathLine = ["path=".toList ++ path])
    (hname : name ≠ [])
    (hbody : ∀ l ∈ body, ¬ IsHeader l ∧ ¬ IsPathLine l)
    (hafter : ∀ l, after.head? = some l → IsHeader l) :
    registry_entries (before ++ header_line name :: (pathLine ++ body) ++ after) =
      registry_entries before ++ named name path :: registry_entries after := by
  unfold registry_entries
  simp only [List.foldl_append, List.foldl_cons]
  generalize hst : before.foldl registry_line ([], Workspace.fresh) = st
  rw [registry_line_header]
  have hmid : (pathLine ++ body).foldl registry_line
      (if st.2.name = [] then st.1 else st.1 ++ [st.2], named name []) =
      (if st.2.name = [] then st.1 else st.1 ++ [st.2], named name path) := by
    rcases hp with ⟨h1, h2⟩ | h1
    · rw [h1, h2, List.nil_append, registry_fold_other hbody]
    · rw [h1, List.singleton_append, List.foldl_cons, registry_line_path,
        registry_fold_other hbody]
      rfl
  rw [List.foldl_append] at hmid
  rw [hmid]
  cases after with
  | nil => simp [named, hname, Workspace.fresh]
  | cons h t =>
    have hh : h.head? = some '[' ∧ h.getLast? = some ']' := hafter h rfl
    have hne : ¬ (h = [] ∨ h.head? = some '#') := by
      rw [hh.1]
      intro hc
      rcases hc with hc | hc
      · rw [hc] at hh; simp at hh
      · simp at hc
    have hn : (named name path).name ≠ [] := hname
    have e1 : registry_line
        (if st.2.name = [] then st.1 else st.1 ++ [st.2], named name path) h =
        ((if st.2.name = [] then st.1 else st.1 ++ [st.2]) ++ [named name path],
          { Workspace.fresh with name := (h.drop 1).take (h.length - 2) }) := by
      unfold registry_line
      rw [if_neg hne, if_pos hh]
      simp [hn]
    have e2 : registry_line ([], Workspace.fresh) h =
        ([], { Workspace.fresh with name := (h.drop 1).take (h.length - 2) }) := by
      unfold registry_line
      rw [if_neg hne, if_pos hh]
      simp [Workspace.fresh]
    simp only [List.foldl_cons]
    rw [e1, e2, registry_fold_pushed]
    simp only [List.append_assoc, List.singleton_append]
    split_ifs <;> simp

/-- C10: in a registry file, a section made of a header `[name]` with a
non-empty name and of lines that are neither a header nor a line `path=` is
loaded by `load_workspaces` as a record with that name and an empty path,
between the records of the sections before it and after it; and these
records are the ones read when the section has a line `path=`. -/
theorem load_workspaces_section_without_path (home : Option Str) (fs : FileSystem)
    (content : Str) (before body after : List Str) (name : Str)
    (hfile : fs (ws_config home) = some content)
    (hlines : getlines content = before ++ header_line name :: body ++ after)
    (hname : name ≠ [])
    (hbody : ∀ l ∈ body, ¬ IsHeader l ∧ ¬ IsPathLine l)
    (hafter : ∀ l ∈ after.head?, IsHeader l) :
    load_workspaces home fs =
      (registry_entries before ++ named name [] :: registry_entries after).map
        (fun w => (w.load_config fs).2) ∧
    names_and_paths (load_workspaces home fs) =
      names_and_paths (registry_entries before) ++
        (name, []) :: names_and_paths (registry_entries after) ∧
    ∀ path : Str,
      registry_entries
          (before ++ header_line name :: ("path=".toList ++ path) :: body ++ after) =
        registry_entries before ++ named name path :: registry_entries after := by
  have hafter' : ∀ l, after.head? = some l → IsHeader l := fun l hl => hafter l hl
  have h0 := registry_entries_section before body after name [] [] (Or.inl ⟨rfl, rfl⟩)
    hname hbody hafter'
  rw [List.nil_append] at h0
  have hload : load_workspaces home fs =
      (registry_entries before ++ named name [] :: registry_entries after).map
        (fun w => (w.load_config fs).2) := by
    unfold load_workspaces
    rw [hfile]
    simp only
    rw [hlines, h0]
  refine ⟨hload, ?_, ?_⟩
  · rw [hload, names_and_paths_load_config]
    simp [names_and_paths, named]
  · intro path
    have h1 := registry_entries_section before body after name ["path=".toList ++ path] path
      (Or.inr rfl) hname hbody hafter'
    rw [List.singleton_append] at h1
    exact h1

theorem load_workspaces_section_without_path_witness :
    names_and_paths
        (load_workspaces none
          (FileSystem.none.write (ws_config none)
            "[a]\npath=/x\n\n[b]\n# c\nk=v\n[c]\npath=/y\n".toList)) =
      names_and_paths (registry_entries ["[a]".toList, "path=/x".toList, []]) ++
        ("b".toList, []) ::
          names_and_paths (registry_entries ["[c]".toList, "path=/y".toList]) :=
  (load_workspaces_section_without_path none
    (FileSystem.none.write (ws_config none)
      "[a]\npath=/x\n\n[b]\n# c\nk=v\n[c]\npath=/y\n".toList)
    "[a]\npath=/x\n\n[b]\n# c\nk=v\n[c]\npath=/y\n".toList
    ["[a]".toList, "path=/x".toList, []] ["# c".toList, "k=v".toList]
    ["[c]".toList, "path=/y".toList] "b".toList
    (by decide) (by decide) (by decide) (by decide) (by decide)).2.1

theorem load_config_missing_file (w : Workspace) (fs : FileSystem)
    (h : fs w.cfg_path = none) : w.load_config fs = (false, w) := by
  simp [Workspace.load_config, ConfigParser.load, h]

theorem registry_line_named (st : List Workspace × Workspace) (l : Str)
    (h1 : ∀ w ∈ st.1, w = named w.name w.path) (h2 : st.2 = named st.2.name st.2.path) :
    (∀ w ∈ (registry_line st l).1, w = named w.name w.path) ∧
      (registry_line st l).2 = named (registry_line st l).2.name (registry_line st l).2.path := by
  unfold registry_line
  split_ifs with c1 c2 c3
  · exact ⟨h1, h2⟩
  · exact ⟨h1, rfl⟩
  · refine ⟨?_, rfl⟩
    intro w hw
    rcases List.mem_append.1 hw with hw | hw
    · exact h1 w hw
    · rw [List.mem_singleton.1 hw]; exact h2
  · cases find '=' l with
    | none => exact ⟨h1, h2⟩
    | some eq =>
      simp only
      split_ifs
      · refine ⟨h1, ?_⟩
        simp only
        conv_lhs => rw [h2]
        rfl
      · exact ⟨h1, h2⟩

theorem registry_fold_named (lines : List Str) (st : List Workspace × Workspace)
    (h1 : ∀ w ∈ st.1, w = named w.name w.path) (h2 : st.2 = named st.2.name st.2.path) :
    (∀ w ∈ (lines.foldl registry_line st).1, w = named w.name w.path) ∧
      (lines.foldl registry_line st).2 =
        named (lines.foldl registry_line st).2.name (lines.foldl registry_line st).2.path := by
  induction lines generalizing st with
  | nil => exact ⟨h1, h2⟩
  | cons l ls ih =>
    obtain ⟨a, b⟩ := registry_line_named st l h1 h2
    exact ih _ a b

theorem registry_entries_named (lines : List Str) :
    ∀ w ∈ registry_entries lines, w = named w.name w.path := by
  obtain ⟨a, b⟩ := registry_fold_named lines ([], Workspace.fresh) (fun _ h => by cases h) rfl
  unfold registry_entries
  simp only
  split_ifs
  · exact a
  · intro w hw
    rcases List.mem_append.1 hw with hw | hw
    · exact a w hw
    · rw [List.mem_singleton.1 hw]; exact b

/-- A record `load_workspaces` returns for an entry whose configuration file
does not exist has only its name and its path: `lang` and `display_name`
are empty. -/
theorem load_workspaces_without_config (home : Option Str) (fs : FileSystem) (w : Workspace)
    (hw : w ∈ load_workspaces home fs) (hfile : fs w.cfg_path = none) :
    w = named w.name w.path ∧ w.lang = [] ∧ w.display_name = [] := by
  have hnamed : w = named w.name w.path := by
    unfold load_workspaces at hw
    cases hc : fs (ws_config home) with
    | none => rw [hc] at hw; cases hw
    | some content =>
      rw [hc] at hw
      simp only [List.mem_map] at hw
      obtain ⟨e, he, rfl⟩ := hw
      have hp : (e.load_config fs).2.cfg_path = e.cfg_path := by
        unfold Workspace.cfg_path
        rw [(load_config_name_path e fs).2]
      rw [hp] at hfile
      rw [load_config_missing_file e fs hfile]
      exact registry_entries_named _ e he
  refine ⟨hnamed, ?_, ?_⟩
  · rw [hnamed]; rfl
  · rw [hnamed]; rfl

/-- C9, what the code does: for a registry entry whose configuration file
does not exist, `load_config` returns before it assigns any field, and the
record `load_workspaces` returns keeps the empty `lang` and `display_name`
of `Workspace()`. -/
theorem load_workspaces_missing_config :
    (load_workspaces none
        (FileSystem.none.write (ws_config none) "[demo]\npath=/p\n\n".toList)).map
      (fun w => (w.name, w.path, w.lang, w.display_name, w.isolated)) =
      [("demo".toList, "/p".toList, [], [], false)] ∧
    (load_workspaces none
        ((FileSystem.none.write (ws_config none) "[demo]\npath=/p\n\n".toList).write
          "/p/.ws/config".toList [])).map
      (fun w => (w.name, w.path, w.lang, w.display_name, w.isolated)) =
      [("demo".toList, "/p".toList, "generic".toList, "demo".toList, false)] := by
  constructor <;> decide

theorem lookup_insertEntry (k v k' : Str) (es : List (Str × Str)) :
    lookupEntry k' (insertEntry k v es) = if k' = k then some v else lookupEntry k' es := by
  induction es with
  | nil =>
    simp only [insertEntry, lookupEntry]
    by_cases h : k' = k
    · simp [h]
    · simp [h, Ne.symm h]
  | cons hd tl ih =>
    obtain ⟨k0, v0⟩ := hd
    simp only [insertEntry]
    by_cases c1 : strLt k k0 = true
    · simp only [c1, if_true, lookupEntry]
      by_cases h : k' = k
      · simp [h]
      · simp [h, Ne.symm h]
    · simp only [c1, Bool.false_eq_true, if_false]
      by_cases c2 : strLt k0 k = true
      · simp only [c2, if_true, lookupEntry, ih]
        by_cases h : k' = k
        · have : k0 ≠ k := strLt_ne c2
          simp [h, this]
        · simp [h]
      · have hk : k = k0 := strLt_connex (by simpa using c1) (by simpa using c2)
        simp only [c2, Bool.false_eq_true, if_false, lookupEntry]
        subst hk
        by_cases h : k' = k
        · simp [h]
        · simp [h, Ne.symm h]

theorem lookup_none_of_lt {k : Str} {es : List (Str × Str)}
    (h : ∀ e ∈ es, strLt k e.1 = true) : lookupEntry k es = none := by
  induction es with
  | nil => rfl
  | cons hd tl ih =>
    obtain ⟨k0, v0⟩ := hd
    have h0 : k0 ≠ k := Ne.symm (strLt_ne (h (k0, v0) (List.mem_cons_self _ _)))
    simp only [lookupEntry, h0, if_false]
    exact ih (fun e he => h e (List.mem_cons_of_mem _ he))

theorem mem_iff_lookup {es : List (Str × Str)} (h : KeysAscending es) (k v : Str) :
    (k, v) ∈ es ↔ lookupEntry k es = some v := by
  induction es with
  | nil => simp [lookupEntry]
  | cons hd tl ih =>
    obtain ⟨k0, v0⟩ := hd
    obtain ⟨h1, h2⟩ := List.pairwise_cons.1 h
    simp only [List.mem_cons, Prod.mk.injEq, lookupEntry]
    by_cases hk : k0 = k
    · subst hk
      simp only [true_and, if_true, Option.some.injEq]
      constructor
      · rintro (h3 | h3)
        · exact h3.symm
        · exact absurd rfl (strLt_ne (h1 (k0, v) h3))
      · intro h3; exact Or.inl h3.symm
    · simp only [hk, if_false]
      rw [← ih h2]
      constructor
      · rintro (h3 | h3)
        · exact absurd h3.1.symm hk
        · exact h3
      · intro h3; exact Or.inr h3

theorem entries_ext {es1 es2 : List (Str × Str)} (h1 : KeysAscending es1)
    (h2 : KeysAscending es2) (h : ∀ k, lookupEntry k es1 = lookupEntry k es2) : es1 = es2 := by
  induction es1 generalizing es2 with
  | nil =>
    cases es2 with
    | nil => rfl
    | cons hd tl =>
      have := h hd.1
      simp [lookupEntry] at this
  | cons hd1 tl1 ih =>
    cases es2 with
    | nil =>
      have := h hd1.1
      simp [lookupEntry] at this
    | cons hd2 tl2 =>
      obtain ⟨k1, v1⟩ := hd1
      obtain ⟨k2, v2⟩ := hd2
      obtain ⟨a1, a2⟩ := List.pairwise_cons.1 h1
      obtain ⟨b1, b2⟩ := List.pairwise_cons.1 h2
      have m1 : (k1, v1) ∈ (k2, v2) :: tl2 := by
        rw [mem_iff_lookup h2, ← h k1]; simp [lookupEntry]
      have m2 : (k2, v2) ∈ (k1, v1) :: tl1 := by
        rw [mem_iff_lookup h1, h k2]; simp [lookupEntry]
      have hhead : (k1, v1) = (k2, v2) := by
        rcases List.mem_cons.1 m1 with e | e
        · exact e
        · rcases List.mem_cons.1 m2 with e' | e'
          · exact e'.symm
          · have l1 : strLt k2 k1 = true := b1 _ e
            have l2 : strLt k1 k2 = true := a1 _ e'
            rw [strLt_asymm l1] at l2
            cases l2
      have hk : k1 = k2 := congrArg Prod.fst hhead
      subst hk
      rw [hhead]
      congr 1
      apply ih a2 b2
      intro k
      by_cases hk : k1 = k
      · subst hk
        rw [lookup_none_of_lt a1, lookup_none_of_lt b1]
      · have := h k
        simpa [lookupEntry, hk] using this

theorem strMap_ext_find {m1 m2 : StrMap} (h : ∀ k, m1.find k = m2.find k) : m1 = m2 := by
  obtain ⟨e1, a1⟩ := m1
  obtain ⟨e2, a2⟩ := m2
  have : e1 = e2 := entries_ext a1 a2 h
  subst this
  rfl

theorem configParser_ext_find {c1 c2 : ConfigParser}
    (h : ∀ k, c1.data.find k = c2.data.find k) : c1 = c2 := by
  obtain ⟨m1⟩ := c1
  obtain ⟨m2⟩ := c2
  have : m1 = m2 := strMap_ext_find h
  subst this
  rfl

theorem find_set (c : ConfigParser) (k v k' : Str) :
    (c.set k v).data.find k' = if k' = k then some v else c.data.find k' :=
  lookup_insertEntry k v k' c.data.entries

theorem find_apply_writes (writes : List (Str × Str)) (c : ConfigParser) (k : Str) :
    (apply_writes c writes).data.find k =
      match lastWrite k writes with
      | some v => some v
      | none => c.data.find k := by
  induction writes generalizing c with
  | nil => rfl
  | cons hd tl ih =>
    obtain ⟨k0, v0⟩ := hd
    have : apply_writes c ((k0, v0) :: tl) = apply_writes (c.set k0 v0) tl := rfl
    rw [this, ih, find_set]
    simp only [lastWrite]
    cases lastWrite k tl with
    | some v => rfl
    | none =>
      by_cases hk : k = k0
      · simp [hk]
      · simp [hk, Ne.symm hk]

theorem apply_writes_append (c : ConfigParser) (w1 w2 : List (Str × Str)) :
    apply_writes c (w1 ++ w2) = apply_writes (apply_writes c w1) w2 := by
  unfold apply_writes
  rw [List.foldl_append]

theorem lastWrite_append (k : Str) (w1 w2 : List (Str × Str)) :
    lastWrite k (w1 ++ w2) =
      match lastWrite k w2 with
      | some v => some v
      | none => lastWrite k w1 := by
  induction w1 with
  | nil =>
    simp only [List.nil_append, lastWrite]
    cases lastWrite k w2 <;> rfl
  | cons hd tl ih =>
    obtain ⟨k0, v0⟩ := hd
    simp only [List.cons_append, lastWrite, List.append_eq]
    rw [ih]
    cases lastWrite k w2 with
    | some v => rfl
    | none => rfl

theorem lastWrite_none_of_keys {k : Str} {writes : List (Str × Str)}
    (h : ∀ e ∈ writes, e.1 ≠ k) : lastWrite k writes = none := by
  induction writes with
  | nil => rfl
  | cons hd tl ih =>
    obtain ⟨k0, v0⟩ := hd
    have h0 : k0 ≠ k := h (k0, v0) (List.mem_cons_self _ _)
    simp only [lastWrite, ih (fun e he => h e (List.mem_cons_of_mem _ he)), h0, if_false]

theorem lastWrite_mem {k v : Str} {writes : List (Str × Str)}
    (h : lastWrite k writes = some v) : (k, v) ∈ writes := by
  induction writes with
  | nil => simp [lastWrite] at h
  | cons hd tl ih =>
    obtain ⟨k0, v0⟩ := hd
    simp only [lastWrite] at h
    cases hl : lastWrite k tl with
    | some v' =>
      rw [hl] at h
      simp only [Option.some.injEq] at h
      subst h
      exact List.mem_cons_of_mem _ (ih hl)
    | none =>
      rw [hl] at h
      simp only at h
      by_cases hk : k0 = k
      · simp only [hk, if_true, Option.some.injEq] at h
        rw [hk, h]
        exact List.mem_cons_self _ _
      · simp [hk] at h

theorem set_list_from_eq (pfx : Str) (i : Nat) (vs : List Str) (c : ConfigParser) :
    ConfigParser.set_list_from pfx i vs c = apply_writes c (list_writes pfx i vs) := by
  induction vs generalizing i c with
  | nil => rfl
  | cons v vs ih =>
    simp only [ConfigParser.set_list_from, list_writes, ih]
    rfl

theorem set_env_eq (c : ConfigParser) (env : StrMap) :
    c.set_env env = apply_writes c (env.entries.map (fun e => ("env.".toList ++ e.1, e.2))) := by
  unfold ConfigParser.set_env apply_writes
  rw [List.foldl_map]

theorem set_nonempty_eq (c : ConfigParser) (key val : Str) :
    c.set_nonempty key val = apply_writes c (nonempty_write key val) := by
  unfold ConfigParser.set_nonempty nonempty_write
  by_cases h : val = []
  · simp [h, apply_writes]
  · simp [h, apply_writes]

/-- The store `save_config` leaves in `config` is the one its sequence of
assignments gives. -/
theorem save_config_store_eq (w : Workspace) :
    w.save_config_store = apply_writes w.config (save_config_writes w) := by
  unfold Workspace.save_config_store save_config_writes scalar_writes env_writes
  simp only [set_list_from_eq, set_env_eq, set_nonempty_eq, apply_writes_append]
  rfl

theorem apply_writes_idem (c : ConfigParser) (writes : List (Str × Str)) :
    apply_writes (apply_writes c writes) writes = apply_writes c writes := by
  apply configParser_ext_find
  intro k
  rw [find_apply_writes, find_apply_writes]
  cases lastWrite k writes <;> rfl

theorem write_write (fs : FileSystem) (path content : Str) :
    (fs.write path content).write path content = fs.write path content := by
  funext p
  unfold FileSystem.write
  by_cases h : p = path <;> simp [h]

/-- C3: `save_config` called a second time on the unchanged record leaves the
record and the file system as the first call left them; the configuration
file holds the same text, so each of its lines, the lines of the scalar
fields among them, is the same. -/
theorem save_config_idempotent (w : Workspace) (fs : FileSystem) :
    (w.save_config fs).1.save_config (w.save_config fs).2 = w.save_config fs ∧
    ((w.save_config fs).1.save_config (w.save_config fs).2).2 w.cfg_path =
      some w.save_config_store.save_text ∧
    (w.save_config fs).2 w.cfg_path = some w.save_config_store.save_text := by
  have hstore : ({ w with config := w.save_config_store } : Workspace).save_config_store =
      w.save_config_store := by
    rw [save_config_store_eq, save_config_store_eq]
    exact apply_writes_idem w.config (save_config_writes w)
  have h1 : (w.save_config fs).1.save_config (w.save_config fs).2 = w.save_config fs := by
    simp only [Workspace.save_config, hstore, ConfigParser.save, Workspace.cfg_path, write_write]
  have h2 : (w.save_config fs).2 w.cfg_path = some w.save_config_store.save_text := by
    simp [Workspace.save_config, ConfigParser.save, FileSystem.write]
  exact ⟨h1, by rw [h1]; exact h2, h2⟩

theorem to_string_digits_fuel (f1 f2 n : Nat) (h1 : n < f1) (h2 : n < f2) :
    to_string_digits f1 n = to_string_digits f2 n := by
  induction f1 generalizing f2 n with
  | zero => omega
  | succ f1 ih =>
    cases f2 with
    | zero => omega
    | succ f2 =>
      simp only [to_string_digits]
      by_cases hn : n < 10
      · simp [hn]
      · simp only [hn, if_false]
        rw [ih f2 (n / 10) (by omega) (by omega)]

theorem to_string_lt {n : Nat} (h : n < 10) : to_string n = [Char.ofNat (48 + n)] := by
  simp [to_string, to_string_digits, h]

theorem to_string_ge {n : Nat} (h : 10 ≤ n) :
    to_string n = to_string (n / 10) ++ [Char.ofNat (48 + n % 10)] := by
  have hn : ¬ n < 10 := by omega
  have e : to_string_digits (n + 1) n =
      to_string_digits n (n / 10) ++ [Char.ofNat (48 + n % 10)] := by
    rw [to_string_digits, if_neg hn]
  unfold to_string
  rw [e, to_string_digits_fuel n (n / 10 + 1) (n / 10) (by omega) (by omega)]

theorem digit_toNat {d : Nat} (h : d < 10) : (Char.ofNat (48 + d)).toNat = 48 + d := by
  interval_cases d <;> rfl

theorem to_string_ne_nil (n : Nat) : to_string n ≠ [] := by
  by_cases h : n < 10
  · rw [to_string_lt h]; simp
  · have h' : 10 ≤ n := by omega
    rw [to_string_ge h']; simp

theorem to_string_digit_chars (n : Nat) :
    ∀ c ∈ to_string n, 48 ≤ c.toNat ∧ c.toNat ≤ 57 := by
  induction n using Nat.strong_induction_on with
  | _ n ih =>
    intro c hc
    by_cases h : n < 10
    · rw [to_string_lt h, List.mem_singleton] at hc
      rw [hc, digit_toNat h]; omega
    · have h' : 10 ≤ n := by omega
      rw [to_string_ge h', List.mem_append, List.mem_singleton] at hc
      rcases hc with hc | hc
      · exact ih (n / 10) (by omega) c hc
      · rw [hc, digit_toNat (Nat.mod_lt _ (by omega))]
        have := Nat.mod_lt n (show 0 < 10 by omega)
        omega

theorem to_string_injective {a b : Nat} (h : to_string a = to_string b) : a = b := by
  induction a using Nat.strong_induction_on generalizing b with
  | _ a ih =>
    by_cases ha : a < 10
    · by_cases hb : b < 10
      · rw [to_string_lt ha, to_string_lt hb] at h
        have := congrArg Char.toNat (List.singleton_inj.1 h)
        rw [digit_toNat ha, digit_toNat hb] at this
        omega
      · have hb' : 10 ≤ b := by omega
        rw [to_string_lt ha, to_string_ge hb'] at h
        have hl := congrArg List.length h
        simp only [List.length_singleton, List.length_append] at hl
        have : to_string (b / 10) = [] := List.length_eq_zero.1 (by omega)
        exact absurd this (to_string_ne_nil _)
    · by_cases hb : b < 10
      · have ha' : 10 ≤ a := by omega
        rw [to_string_ge ha', to_string_lt hb] at h
        have hl := congrArg List.length h
        simp only [List.length_singleton, List.length_append] at hl
        have : to_string (a / 10) = [] := List.length_eq_zero.1 (by omega)
        exact absurd this (to_string_ne_nil _)
      · have ha' : 10 ≤ a := by omega
        have hb' : 10 ≤ b := by omega
        rw [to_string_ge ha', to_string_ge hb'] at h
        obtain ⟨h1, h2⟩ := List.append_inj' h rfl
        have e1 : a / 10 = b / 10 := ih (a / 10) (by omega) h1
        have e2 := congrArg Char.toNat (List.singleton_inj.1 h2)
        rw [digit_toNat (Nat.mod_lt _ (by omega)), digit_toNat (Nat.mod_lt _ (by omega))] at e2
        omega

theorem list_key_injective {pfx : Str} {a b : Nat}
    (h : pfx ++ to_string a = pfx ++ to_string b) : a = b :=
  to_string_injective (List.append_cancel_left h)

theorem starts_with_append (p r : Str) : starts_with p (p ++ r) = true := by
  induction p with
  | nil => simp [starts_with, List.isPrefixOf]
  | cons x xs ih =>
    simp only [starts_with, List.cons_append, List.isPrefixOf, beq_self_eq_true, Bool.true_and]
    exact ih

theorem starts_with_elim {p k : Str} (h : starts_with p k = true) : ∃ r, k = p ++ r := by
  induction p generalizing k with
  | nil => exact ⟨k, rfl⟩
  | cons x xs ih =>
    cases k with
    | nil => simp [starts_with, List.isPrefixOf] at h
    | cons y ys =>
      simp only [starts_with, List.isPrefixOf, Bool.and_eq_true, beq_iff_eq] at h
      obtain ⟨r, hr⟩ := ih (k := ys) h.2
      exact ⟨r, by rw [h.1, hr]; rfl⟩

theorem entry_line_eq (k v : Str) : entry_line (k, v) = k ++ ':' :: (' ' :: v) := by
  have : ": ".toList = [':', ' '] := rfl
  simp [entry_line, this]

theorem tight_of_trim_eq {s : Str} (h : ConfigParser.trim s = s) : Tight s :=
  (trim_eq_self_iff s).1 h

theorem trim_space_cons (v : Str) : ConfigParser.trim (' ' :: v) = ConfigParser.trim v := by
  have h : AllSpace [' '] := by
    intro x hx
    rw [List.mem_singleton.1 hx]; decide
  exact trim_allSpace_append h v

theorem rdropWhile_append_of_tight {p : Str} (hp : Tight p) (t : Str) :
    (p ++ t).rdropWhile isspace = p ++ t.rdropWhile isspace := by
  obtain ⟨b, hb, ht⟩ := rdropWhile_decomp t
  have e : p ++ t = (p ++ t.rdropWhile isspace) ++ b := by
    conv_lhs => rw [ht]
    rw [List.append_assoc]
  rw [e, rdropWhile_append_allSpace hb]
  apply rdropWhile_eq_self_of_last
  intro x hx
  by_cases hr : t.rdropWhile isspace = []
  · rw [hr, List.append_nil] at hx
    exact hp.2 x hx
  · rw [List.getLast?_append_of_ne_nil _ hr] at hx
    exact last_rdropWhile_isspace t x hx

theorem trim_append_of_tight {p : Str} (hne : p ≠ []) (hp : Tight p) (t : Str) :
    ConfigParser.trim (p ++ t) = p ++ t.rdropWhile isspace := by
  unfold ConfigParser.trim
  have hd : (p ++ t).dropWhile isspace = p ++ t := by
    apply dropWhile_eq_self_of_head
    intro x hx
    cases p with
    | nil => exact absurd rfl hne
    | cons y ys => exact hp.1 x hx
  rw [hd, rdropWhile_append_of_tight hp]

theorem head_append_of_ne_nil {p : Str} (hne : p ≠ []) (t : Str) :
    (p ++ t).head? = p.head? := by
  cases p with
  | nil => exact absurd rfl hne
  | cons y ys => rfl

/-- The line of an entry with a nice key is stored under this key. -/
theorem parse_entry_line_nice {k : Str} (hk : NiceKey k) (v : Str) :
    ConfigParser.parse_line (entry_line (k, v)) =
      some (k, ConfigParser.strip_quotes (ConfigParser.trim v)) := by
  obtain ⟨hne, hcolon, -, htrim, hhash⟩ := hk
  have hsep : IsSeparator k ':' (' ' :: v) := ⟨hcolon, Or.inl rfl⟩
  have hc : (ConfigParser.trim (k ++ ':' :: (' ' :: v))).head? ≠ some '#' := by
    rw [trim_append_of_tight hne (tight_of_trim_eq htrim), head_append_of_ne_nil hne]
    exact hhash
  rw [entry_line_eq, parse_line_split hsep hc, htrim, trim_space_cons]

/-- The line of an entry whose key starts with a nice prefix is stored under
a key that starts with this prefix. -/
theorem parse_entry_line_prefixed {p : Str} (hp : NiceKey p) (x v : Str) :
    ∃ k' v', ConfigParser.parse_line (entry_line (p ++ x, v)) = some (k', v') ∧
      starts_with p k' = true := by
  obtain ⟨hne, hcolon, -, htrim, hhash⟩ := hp
  have hmem : ':' ∈ x ++ ':' :: (' ' :: v) := by simp
  cases hf : find ':' (x ++ ':' :: (' ' :: v)) with
  | none => exact absurd hmem ((find_eq_none_iff _ _).1 hf)
  | some i =>
    obtain ⟨hd, hnot⟩ := find_some_decomp hf
    have hline : entry_line (p ++ x, v) =
        (p ++ (x ++ ':' :: (' ' :: v)).take i) ++
          ':' :: (x ++ ':' :: (' ' :: v)).drop (i + 1) := by
      rw [entry_line_eq, List.append_assoc, List.append_assoc, ← hd]
    have hsep : IsSeparator (p ++ (x ++ ':' :: (' ' :: v)).take i) ':'
        ((x ++ ':' :: (' ' :: v)).drop (i + 1)) := by
      refine ⟨fun hm => ?_, Or.inl rfl⟩
      rcases List.mem_append.1 hm with hm | hm
      · exact hcolon hm
      · exact hnot hm
    have hc : (ConfigParser.trim ((p ++ (x ++ ':' :: (' ' :: v)).take i) ++
        ':' :: (x ++ ':' :: (' ' :: v)).drop (i + 1))).head? ≠ some '#' := by
      rw [List.append_assoc, trim_append_of_tight hne (tight_of_trim_eq htrim),
        head_append_of_ne_nil hne]
      exact hhash
    refine ⟨_, _, by rw [hline]; exact parse_line_split hsep hc, ?_⟩
    rw [trim_append_of_tight hne (tight_of_trim_eq htrim)]
    exact starts_with_append _ _

theorem faithful_of_nice {K k v : Str} (hk : NiceKey k) (hv : '\n' ∉ v)
    (hK : k = K → Storable v) : Faithful K (k, v) := by
  refine ⟨hk.2.2.1, hv, k, _, parse_entry_line_nice hk v, Iff.rfl, ?_⟩
  intro h
  obtain ⟨-, h1, h2⟩ := hK h
  show ConfigParser.strip_quotes (ConfigParser.trim v) = v
  rw [h1, strip_quotes_not_quoted h2]

theorem faithful_of_prefixed {K p x v : Str} (hp : NiceKey p) (hx : '\n' ∉ x)
    (hv : '\n' ∉ v) (hK : starts_with p K = false) : Faithful K (p ++ x, v) := by
  obtain ⟨k', v', h1, h2⟩ := parse_entry_line_prefixed hp x v
  refine ⟨?_, hv, k', v', h1, ?_, ?_⟩
  · intro hm
    rcases List.mem_append.1 hm with hm | hm
    · exact hp.2.2.1 hm
    · exact hx hm
  · constructor
    · intro h; rw [h, hK] at h2; cases h2
    · intro h
      have := starts_with_append p x
      rw [show p ++ x = K from h, hK] at this; cases this
  · intro h
    have := starts_with_append p x
    rw [show p ++ x = K from h, hK] at this; cases this

theorem load_lines_eq_apply (c0 : ConfigParser) (lines : List Str) :
    c0.load_lines lines = apply_writes c0 (lines.filterMap ConfigParser.parse_line) := by
  unfold ConfigParser.load_lines apply_writes
  induction lines generalizing c0 with
  | nil => rfl
  | cons l ls ih =>
    simp only [List.foldl_cons, List.filterMap_cons, ConfigParser.load_line]
    cases hp : ConfigParser.parse_line l with
    | none => simp only; exact ih c0
    | some kv =>
      obtain ⟨k, v⟩ := kv
      simp only [List.foldl_cons]
      exact ih _

theorem lastWrite_parsed {K : Str} {es : List (Str × Str)} (hasc : KeysAscending es)
    (hf : ∀ e ∈ es, Faithful K e) :
    lastWrite K ((es.map entry_line).filterMap ConfigParser.parse_line) = lookupEntry K es := by
  induction es with
  | nil => rfl
  | cons e t ih =>
    obtain ⟨a1, a2⟩ := List.pairwise_cons.1 hasc
    obtain ⟨-, -, k', v', hp, h1, h2⟩ := hf e (List.mem_cons_self _ _)
    have iht := ih a2 (fun x hx => hf x (List.mem_cons_of_mem _ hx))
    obtain ⟨k, v⟩ := e
    simp only [List.map_cons, List.filterMap_cons, hp, lastWrite, iht, lookupEntry]
    by_cases hk : k = K
    · have hnone : lookupEntry K t = none := by
        rw [← hk]; exact lookup_none_of_lt a1
      rw [hnone]
      simp only [hk, if_true, h1.2 hk]
      rw [h2 hk]
    · have hk' : ¬ k' = K := fun h => hk (h1.1 h)
      simp only [hk, hk', if_false]
      cases lookupEntry K t <;> rfl

theorem entry_line_no_newline {e : Str × Str} (h1 : '\n' ∉ e.1) (h2 : '\n' ∉ e.2) :
    '\n' ∉ entry_line e := by
  obtain ⟨k, v⟩ := e
  rw [entry_line_eq]
  simp only [List.mem_append, List.mem_cons, not_or]
  exact ⟨h1, by decide, by decide, h2⟩

/-- Loading the file `save` has written gives a key that every entry is
faithful to the value it had in the saved store. -/
theorem find_load_save (S c0 : ConfigParser) (K : Str)
    (hf : ∀ e ∈ S.data.entries, Faithful K e) :
    (c0.load_lines (getlines S.save_text)).data.find K =
      match S.data.find K with
      | some v => some v
      | none => c0.data.find K := by
  have hnl : ∀ l ∈ S.data.entries.map entry_line, '\n' ∉ l := by
    intro l hl
    obtain ⟨e, he, rfl⟩ := List.mem_map.1 hl
    exact entry_line_no_newline (hf e he).1 (hf e he).2.1
  rw [save_text_eq, getlines_unlines hnl, load_lines_eq_apply, find_apply_writes,
    lastWrite_parsed S.data.ascending hf]
  rfl

theorem mem_nonempty_write {e : Str × Str} {k v : Str} (h : e ∈ nonempty_write k v) :
    e = (k, v) := by
  unfold nonempty_write at h
  by_cases hv : v = []
  · simp [hv] at h
  · simpa [hv] using h

theorem mem_scalar_writes {w : Workspace} {e : Str × Str} (h : e ∈ scalar_writes w) :
    e ∈ scalar_entries w := by
  unfold scalar_writes at h
  simp only [List.mem_append, List.mem_cons, List.mem_singleton, List.not_mem_nil,
    or_false] at h
  rcases h with ((((((h | h | h | h | h) | h) | h) | h) | h) | h) | h
  all_goals
    first
    | (subst h; simp [scalar_entries])
    | (have h' := mem_nonempty_write h; subst h'; simp [scalar_entries])

theorem scalar_keys_nice : ∀ k ∈ scalar_keys, NiceKey k := by decide

/-- The entries `save_config` writes for the scalar fields: the key is one of
the scalar keys, the value a string of the workspace or `true` or `false`,
and apart from the name it is the scalar field of this key. -/
theorem scalar_write_cases {w : Workspace} {e : Str × Str} (h : e ∈ scalar_writes w) :
    e.1 ∈ scalar_keys ∧ (e.2 ∈ text_fields w ∨ Storable e.2) ∧
      (e.1 ≠ "name".toList → e.2 ∈ scalar_fields w ∨ Storable e.2) := by
  have hm := mem_scalar_writes h
  simp only [scalar_entries, List.mem_cons, List.mem_singleton, List.not_mem_nil,
    or_false] at hm
  rcases hm with h | h | h | h | h | h | h | h | h | h | h <;> subst h
  · exact ⟨by simp [scalar_keys], Or.inl (by simp [text_fields]), fun hn => absurd rfl hn⟩
  · exact ⟨by simp [scalar_keys], Or.inl (by simp [text_fields]), fun _ => Or.inl (by simp [scalar_fields])⟩
  · exact ⟨by simp [scalar_keys], Or.inl (by simp [text_fields]), fun _ => Or.inl (by simp [scalar_fields])⟩
  · exact ⟨by simp [scalar_keys], Or.inl (by simp [text_fields]), fun _ => Or.inl (by simp [scalar_fields])⟩
  · have hs : Storable (if w.isolated then "true".toList else "false".toList) := by
      cases w.isolated <;> decide
    exact ⟨by simp [scalar_keys], Or.inr hs, fun _ => Or.inr hs⟩
  · exact ⟨by simp [scalar_keys], Or.inl (by simp [text_fields]), fun _ => Or.inl (by simp [scalar_fields])⟩
  · exact ⟨by simp [scalar_keys], Or.inl (by simp [text_fields]), fun _ => Or.inl (by simp [scalar_fields])⟩
  · exact ⟨by simp [scalar_keys], Or.inl (by simp [text_fields]), fun _ => Or.inl (by simp [scalar_fields])⟩
  · exact ⟨by simp [scalar_keys], Or.inl (by simp [text_fields]), fun _ => Or.inl (by simp [scalar_fields])⟩
  · exact ⟨by simp [scalar_keys], Or.inl (by simp [text_fields]), fun _ => Or.inl (by simp [scalar_fields])⟩
  · exact ⟨by simp [scalar_keys], Or.inl (by simp [text_fields]), fun _ => Or.inl (by simp [scalar_fields])⟩

theorem mem_list_writes {pfx : Str} {i : Nat} {vs : List Str} {e : Str × Str}
    (h : e ∈ list_writes pfx i vs) :
    ∃ j, i ≤ j ∧ j < i + vs.length ∧ e.1 = pfx ++ to_string j ∧ e.2 ∈ vs := by
  induction vs generalizing i with
  | nil => simp [list_writes] at h
  | cons v vs ih =>
    simp only [list_writes, List.mem_cons] at h
    rcases h with h | h
    · exact ⟨i, le_refl _, by simp, by rw [h], by rw [h]; exact List.mem_cons_self _ _⟩
    · obtain ⟨j, h1, h2, h3, h4⟩ := ih h
      refine ⟨j, by omega, ?_, h3, List.mem_cons_of_mem _ h4⟩
      simp only [List.length_cons]; omega

theorem isspace_digit {c : Char} (h : 48 ≤ c.toNat ∧ c.toNat ≤ 57) : isspace c = false := by
  unfold isspace
  simp only [Bool.or_eq_false_iff, decide_eq_false_iff_not, Bool.and_eq_false_iff]
  constructor
  · omega
  · right; omega

theorem niceKey_list_key {pfx : Str} (hp : NiceKey pfx) (j : Nat) :
    NiceKey (pfx ++ to_string j) := by
  obtain ⟨hne, hcolon, hnl, htrim, hhash⟩ := hp
  have hd := to_string_digit_chars j
  refine ⟨by simp [hne], ?_, ?_, ?_, ?_⟩
  · intro hm
    rcases List.mem_append.1 hm with hm | hm
    · exact hcolon hm
    · have := hd _ hm
      have e : (':' : Char).toNat = 58 := rfl
      omega
  · intro hm
    rcases List.mem_append.1 hm with hm | hm
    · exact hnl hm
    · have := hd _ hm
      have e : ('\n' : Char).toNat = 10 := rfl
      omega
  · rw [trim_append_of_tight hne (tight_of_trim_eq htrim)]
    congr 1
    apply rdropWhile_eq_self_of_last
    intro x hx
    exact isspace_digit (hd x (List.mem_of_mem_getLast? hx))
  · rw [head_append_of_ne_nil hne]; exact hhash

theorem mem_apply_writes {c : ConfigParser} {writes : List (Str × Str)} {e : Str × Str}
    (h : e ∈ (apply_writes c writes).data.entries) : e ∈ c.data.entries ∨ e ∈ writes := by
  induction writes generalizing c with
  | nil => exact Or.inl h
  | cons hd tl ih =>
    have : apply_writes c (hd :: tl) = apply_writes (c.set hd.1 hd.2) tl := rfl
    rw [this] at h
    rcases ih h with h | h
    · rcases mem_insertEntry h with h | h
      · exact Or.inr (by rw [h]; exact List.mem_cons_self _ _)
      · exact Or.inl h
    · exact Or.inr (List.mem_cons_of_mem _ h)

theorem list_prefixes_nice :
    NiceKey "env.".toList ∧ NiceKey "mount.".toList ∧ NiceKey "init.".toList ∧
      NiceKey "tag.".toList := by decide

/-- Every entry `save_config` writes for a line-safe workspace is faithful to
a key `K` outside `env.` when the values written under `K` are storable. -/
theorem faithful_save_config_writes {w : Workspace} {K : Str} (hsafe : LineSafe w)
    (henv : starts_with "env.".toList K = false)
    (hK : ∀ e ∈ save_config_writes w, e.1 = K → Storable e.2) :
    ∀ e ∈ save_config_writes w, Faithful K e := by
  intro e he
  have hKe := hK e he
  obtain ⟨k, v⟩ := e
  unfold save_config_writes at he
  have hlist : ∀ (pfx : Str) (vs : List Str), NiceKey pfx → (∀ x ∈ vs, x ∈ text_fields w) →
      (k, v) ∈ list_writes pfx 0 vs → Faithful K (k, v) := by
    intro pfx vs hp hvs hm
    obtain ⟨j, -, -, h1, h2⟩ := mem_list_writes hm
    simp only at h1 h2
    rw [h1]
    exact faithful_of_nice (niceKey_list_key hp j) (hsafe v (hvs v h2))
      (fun h => hKe (by rw [← h, h1]))
  rcases List.mem_append.1 he with he | he
  · rcases List.mem_append.1 he with he | he
    · rcases List.mem_append.1 he with he | he
      · rcases List.mem_append.1 he with he | he
        · obtain ⟨h1, h2, -⟩ := scalar_write_cases he
          refine faithful_of_nice (scalar_keys_nice k h1) ?_ hKe
          rcases h2 with h2 | h2
          · exact hsafe v h2
          · exact h2.1
        · unfold env_writes at he
          obtain ⟨x, hx, hxe⟩ := List.mem_map.1 he
          simp only [Prod.mk.injEq] at hxe
          rw [← hxe.1, ← hxe.2]
          refine faithful_of_prefixed list_prefixes_nice.1 (hsafe _ ?_) (hsafe _ ?_) henv
          · simp only [text_fields, List.mem_append, List.mem_map]
            exact Or.inl (Or.inl (Or.inl (Or.inl (Or.inr ⟨x, hx, rfl⟩))))
          · simp only [text_fields, List.mem_append, List.mem_map]
            exact Or.inl (Or.inl (Or.inl (Or.inr ⟨x, hx, rfl⟩)))
      · refine hlist _ _ list_prefixes_nice.2.1 (fun x hx => ?_) he
        simp only [text_fields, List.mem_append]
        exact Or.inl (Or.inl (Or.inr hx))
    · refine hlist _ _ list_prefixes_nice.2.2.1 (fun x hx => ?_) he
      simp only [text_fields, List.mem_append]
      exact Or.inl (Or.inr hx)
  · refine hlist _ _ list_prefixes_nice.2.2.2 (fun x hx => ?_) he
    simp only [text_fields, List.mem_append]
    exact Or.inr hx

theorem lastWrite_append_nonempty_write (K k v : Str) (writes : List (Str × Str)) :
    lastWrite K (writes ++ nonempty_write k v) =
      if k = K ∧ v ≠ [] then some v else lastWrite K writes := by
  rw [lastWrite_append]
  unfold nonempty_write
  by_cases hv : v = []
  · simp [hv, lastWrite]
  · by_cases hk : k = K
    · simp [hv, hk, lastWrite]
    · simp [hv, hk, lastWrite]

theorem list_write_starts {pfx : Str} {i : Nat} {vs : List Str} {e : Str × Str}
    (h : e ∈ list_writes pfx i vs) : starts_with pfx e.1 = true := by
  obtain ⟨j, -, -, h1, -⟩ := mem_list_writes h
  rw [h1]; exact starts_with_append _ _

theorem env_write_starts {w : Workspace} {e : Str × Str} (h : e ∈ env_writes w) :
    starts_with "env.".toList e.1 = true := by
  unfold env_writes at h
  obtain ⟨x, -, hx⟩ := List.mem_map.1 h
  rw [← hx]; exact starts_with_append _ _

theorem save_config_write_cases {w : Workspace} {e : Str × Str}
    (h : e ∈ save_config_writes w) :
    e ∈ scalar_writes w ∨ e ∈ env_writes w ∨ e ∈ list_writes "mount.".toList 0 w.mounts ∨
      e ∈ list_writes "init.".toList 0 w.init_cmds ∨ e ∈ list_writes "tag.".toList 0 w.tags := by
  unfold save_config_writes at h
  simp only [List.mem_append] at h
  tauto

theorem scalar_keys_no_list_prefix : ∀ k ∈ scalar_keys,
    starts_with "env.".toList k = false ∧ starts_with "mount.".toList k = false ∧
      starts_with "init.".toList k = false ∧ starts_with "tag.".toList k = false := by
  decide

theorem lastWrite_none_of_starts {pfx K : Str} {writes : List (Str × Str)}
    (hK : starts_with pfx K = false) (h : ∀ e ∈ writes, starts_with pfx e.1 = true) :
    lastWrite K writes = none := by
  apply lastWrite_none_of_keys
  intro e he hk
  have := h e he
  rw [hk, hK] at this
  cases this

/-- The store that `load_config` reads back after `save_config` from an empty
store. -/
theorem reload_eq (w : Workspace) (fs : FileSystem) :
    reload w fs = (true, (named w.name w.path).assign_fields
      (ConfigParser.empty.load_lines (getlines w.save_config_store.save_text))) := by
  unfold reload Workspace.load_config
  have h : (named w.name w.path).config.load (w.save_config fs).2 (named w.name w.path).cfg_path =
      (true, ConfigParser.empty.load_lines (getlines w.save_config_store.save_text)) := by
    have e1 : (named w.name w.path).cfg_path = w.cfg_path := rfl
    have e2 : (named w.name w.path).config = ConfigParser.empty := rfl
    rw [e1, e2]
    exact load_write _ _ _ _
  rw [h]

/-- After `save_config` from an empty store, the reloaded store holds under a
key that the written entries are faithful to what the last assignment of
`save_config` to this key has put there. -/
theorem reload_find {w : Workspace} (hcfg : w.config = ConfigParser.empty) {K : Str}
    (hf : ∀ e ∈ save_config_writes w, Faithful K e) :
    (ConfigParser.empty.load_lines (getlines w.save_config_store.save_text)).data.find K =
      lastWrite K (save_config_writes w) := by
  have hS : w.save_config_store = apply_writes ConfigParser.empty (save_config_writes w) := by
    rw [save_config_store_eq, hcfg]
  have hmem : ∀ e ∈ w.save_config_store.data.entries, Faithful K e := by
    intro e he
    rw [hS] at he
    rcases mem_apply_writes he with h | h
    · cases h
    · exact hf e h
  rw [find_load_save _ _ _ hmem, hS, find_apply_writes]
  cases lastWrite K (save_config_writes w) <;> rfl

theorem lastWrite_scalar_key {K : Str} (hK : K ∈ scalar_keys) (w : Workspace) :
    lastWrite K (save_config_writes w) = lastWrite K (scalar_writes w) := by
  obtain ⟨h1, h2, h3, h4⟩ := scalar_keys_no_list_prefix K hK
  unfold save_config_writes
  rw [lastWrite_append, lastWrite_none_of_starts h4 (fun e he => list_write_starts he)]
  simp only
  rw [lastWrite_append, lastWrite_none_of_starts h3 (fun e he => list_write_starts he)]
  simp only
  rw [lastWrite_append, lastWrite_none_of_starts h2 (fun e he => list_write_starts he)]
  simp only
  rw [lastWrite_append, lastWrite_none_of_starts h1 (fun e he => env_write_starts he)]

/-- The scalar keys other than `name` are read back from the reloaded store
as `save_config` has written them. -/
theorem reload_find_scalar {w : Workspace} (hcfg : w.config = ConfigParser.empty)
    (hsafe : LineSafe w) (hstor : ∀ s ∈ scalar_fields w, Storable s) {K : Str}
    (hK : K ∈ scalar_keys) (hname : K ≠ "name".toList) :
    (ConfigParser.empty.load_lines (getlines w.save_config_store.save_text)).data.find K =
      lastWrite K (scalar_writes w) := by
  obtain ⟨h1, h2, h3, h4⟩ := scalar_keys_no_list_prefix K hK
  rw [← lastWrite_scalar_key hK]
  apply reload_find hcfg
  apply faithful_save_config_writes hsafe h1
  intro e he hk
  rcases save_config_write_cases he with h | h | h | h | h
  · obtain ⟨-, -, h5⟩ := scalar_write_cases h
    rcases h5 (by rw [hk]; exact hname) with h6 | h6
    · exact hstor _ h6
    · exact h6
  · have := env_write_starts h
    rw [hk, h1] at this; cases this
  · have := list_write_starts h
    rw [hk, h2] at this; cases this
  · have := list_write_starts h
    rw [hk, h3] at this; cases this
  · have := list_write_starts h
    rw [hk, h4] at this; cases this

/-- C1, as amended: for a record saved from an empty store in which no string
contains a newline and every scalar string field has no leading or trailing
whitespace and is not wrapped in double quotes, `save_config` followed by
`load_config` into a fresh record with the same name and path succeeds and
gives back `display_name`, `description`, `lang`, `isolated`, `build_cmd`,
`clean_cmd`, `run_cmd`, `test_cmd`, `created` and `author`. -/
theorem save_load_scalar_fields (w : Workspace) (fs : FileSystem)
    (hcfg : w.config = ConfigParser.empty) (hsafe : LineSafe w)
    (hstor : ∀ s ∈ scalar_fields w, Storable s) :
    (reload w fs).1 = true ∧
    (reload w fs).2.display_name = w.display_name ∧
    (reload w fs).2.description = w.description ∧
    (reload w fs).2.lang = w.lang ∧
    (reload w fs).2.isolated = w.isolated ∧
    (reload w fs).2.build_cmd = w.build_cmd ∧
    (reload w fs).2.clean_cmd = w.clean_cmd ∧
    (reload w fs).2.run_cmd_ = w.run_cmd_ ∧
    (reload w fs).2.test_cmd = w.test_cmd ∧
    (reload w fs).2.created = w.created ∧
    (reload w fs).2.author = w.author := by
  have hfind := fun (K : Str) (hK : K ∈ scalar_keys) (hn : K ≠ "name".toList) =>
    reload_find_scalar hcfg hsafe hstor hK hn
  have f1 : (ConfigParser.empty.load_lines (getlines w.save_config_store.save_text)).data.find
      "display_name".toList = some w.display_name := by
    rw [hfind _ (by decide) (by decide)]
    simp only [scalar_writes, lastWrite_append_nonempty_write]
    simp [lastWrite]
  have f2 : (ConfigParser.empty.load_lines (getlines w.save_config_store.save_text)).data.find
      "description".toList = some w.description := by
    rw [hfind _ (by decide) (by decide)]
    simp only [scalar_writes, lastWrite_append_nonempty_write]
    simp [lastWrite]
  have f3 : (ConfigParser.empty.load_lines (getlines w.save_config_store.save_text)).data.find
      "lang".toList = some w.lang := by
    rw [hfind _ (by decide) (by decide)]
    simp only [scalar_writes, lastWrite_append_nonempty_write]
    simp [lastWrite]
  have f4 : (ConfigParser.empty.load_lines (getlines w.save_config_store.save_text)).data.find
      "isolated".toList = some (if w.isolated then "true".toList else "false".toList) := by
    rw [hfind _ (by decide) (by decide)]
    simp only [scalar_writes, lastWrite_append_nonempty_write]
    simp [lastWrite]
  have f5 : (ConfigParser.empty.load_lines (getlines w.save_config_store.save_text)).data.find
      "build_cmd".toList = if w.build_cmd = [] then none else some w.build_cmd := by
    rw [hfind _ (by decide) (by decide)]
    simp only [scalar_writes, lastWrite_append_nonempty_write]
    simp [lastWrite]
  have f6 : (ConfigParser.empty.load_lines (getlines w.save_config_store.save_text)).data.find
      "clean_cmd".toList = if w.clean_cmd = [] then none else some w.clean_cmd := by
    rw [hfind _ (by decide) (by decide)]
    simp only [scalar_writes, lastWrite_append_nonempty_write]
    simp [lastWrite]
  have f7 : (ConfigParser.empty.load_lines (getlines w.save_config_store.save_text)).data.find
      "run_cmd".toList = if w.run_cmd_ = [] then none else some w.run_cmd_ := by
    rw [hfind _ (by decide) (by decide)]
    simp only [scalar_writes, lastWrite_append_nonempty_write]
    simp [lastWrite]
  have f8 : (ConfigParser.empty.load_lines (getlines w.save_config_store.save_text)).data.find
      "test_cmd".toList = if w.test_cmd = [] then none else some w.test_cmd := by
    rw [hfind _ (by decide) (by decide)]
    simp only [scalar_writes, lastWrite_append_nonempty_write]
    simp [lastWrite]
  have f9 : (ConfigParser.empty.load_lines (getlines w.save_config_store.save_text)).data.find
      "created".toList = if w.created = [] then none else some w.created := by
    rw [hfind _ (by decide) (by decide)]
    simp only [scalar_writes, lastWrite_append_nonempty_write]
    simp [lastWrite]
  have f10 : (ConfigParser.empty.load_lines (getlines w.save_config_store.save_text)).data.find
      "author".toList = if w.author = [] then none else some w.author := by
    rw [hfind _ (by decide) (by decide)]
    simp only [scalar_writes, lastWrite_append_nonempty_write]
    simp [lastWrite]
  rw [reload_eq]
  simp only [Workspace.assign_fields, ConfigParser.get]
  refine ⟨trivial, ?_, ?_, ?_, ?_, ?_, ?_, ?_, ?_, ?_, ?_⟩
  · rw [f1]
  · rw [f2]
  · rw [f3]
  · simp only [f4]; cases w.isolated <;> decide
  · rw [f5]; by_cases h : w.build_cmd = [] <;> simp [h]
  · rw [f6]; by_cases h : w.clean_cmd = [] <;> simp [h]
  · rw [f7]; by_cases h : w.run_cmd_ = [] <;> simp [h]
  · rw [f8]; by_cases h : w.test_cmd = [] <;> simp [h]
  · rw [f9]; by_cases h : w.created = [] <;> simp [h]
  · rw [f10]; by_cases h : w.author = [] <;> simp [h]

theorem lookup_filter_key (P : Str → Bool) (k : Str) (es : List (Str × Str)) :
    lookupEntry k (es.filter (fun e => P e.1)) = if P k = true then lookupEntry k es else none := by
  induction es with
  | nil => simp [lookupEntry]
  | cons hd tl ih =>
    obtain ⟨k0, v0⟩ := hd
    by_cases hP : P k0 = true
    · simp only [List.filter_cons, hP, if_true, lookupEntry, ih]
      by_cases hk : k0 = k
      · rw [← hk] ; simp [hP]
      · simp [hk]
    · simp only [List.filter_cons, hP, if_false, lookupEntry, ih, Bool.false_eq_true]
      by_cases hk : k0 = k
      · rw [← hk]; simp [hP]
      · simp [hk]

theorem keysAscending_filter (P : Str × Str → Bool) {es : List (Str × Str)}
    (h : KeysAscending es) : KeysAscending (es.filter P) :=
  List.Pairwise.filter P h

/-- Two stores that agree on the keys starting with `pfx` give the same list
for `pfx`. -/
theorem get_list_congr {c1 c2 : ConfigParser} {pfx : Str}
    (h : ∀ K, starts_with pfx K = true → c1.data.find K = c2.data.find K) :
    c1.get_list pfx = c2.get_list pfx := by
  unfold ConfigParser.get_list
  congr 1
  apply entries_ext (keysAscending_filter _ c1.data.ascending)
    (keysAscending_filter _ c2.data.ascending)
  intro k
  rw [lookup_filter_key (fun k => starts_with pfx k), lookup_filter_key (fun k => starts_with pfx k)]
  by_cases hk : starts_with pfx k = true
  · simp only [hk, if_true]; exact h k hk
  · simp only [hk, if_false, Bool.false_eq_true]

theorem list_writes_distinct_keys (pfx : Str) (i : Nat) (vs : List Str) :
    (list_writes pfx i vs).Pairwise (fun a b => a.1 ≠ b.1) := by
  induction vs generalizing i with
  | nil => simp [list_writes]
  | cons v vs ih =>
    simp only [list_writes]
    refine List.pairwise_cons.2 ⟨?_, ih (i + 1)⟩
    intro e he hk
    obtain ⟨j, h1, -, h2, -⟩ := mem_list_writes he
    simp only at hk
    rw [h2] at hk
    have := list_key_injective hk
    omega

theorem list_writes_map_snd (pfx : Str) (i : Nat) (vs : List Str) :
    (list_writes pfx i vs).map (fun e => e.2) = vs := by
  induction vs generalizing i with
  | nil => rfl
  | cons v vs ih => simp only [list_writes, List.map_cons, ih]

theorem lastWrite_of_mem {k v : Str} {writes : List (Str × Str)}
    (hd : writes.Pairwise (fun a b => a.1 ≠ b.1)) (h : (k, v) ∈ writes) :
    lastWrite k writes = some v := by
  induction writes with
  | nil => cases h
  | cons hd0 tl ih =>
    obtain ⟨k0, v0⟩ := hd0
    obtain ⟨h1, h2⟩ := List.pairwise_cons.1 hd
    rcases List.mem_cons.1 h with h | h
    · simp only [Prod.mk.injEq] at h
      have hn : lastWrite k tl = none := by
        apply lastWrite_none_of_keys
        intro e he hk
        exact h1 e he (by rw [hk, h.1])
      rw [h.1] at hn
      simp only [lastWrite, h.1, h.2, hn, if_true]
    · simp only [lastWrite, ih h2 h]

/-- A store that holds under the keys starting with `pfx` what the loop of
`save_config` assigns for the list `vals` gives for `pfx` a rearrangement of
`vals`. -/
theorem get_list_perm {c : ConfigParser} {pfx : Str} {vals : List Str}
    (h : ∀ K, starts_with pfx K = true →
      c.data.find K = lastWrite K (list_writes pfx 0 vals)) :
    (c.get_list pfx).Perm vals := by
  have hperm : (c.data.entries.filter (fun e => starts_with pfx e.1)).Perm
      (list_writes pfx 0 vals) := by
    rw [List.perm_ext_iff_of_nodup]
    · intro e
      obtain ⟨k, v⟩ := e
      rw [List.mem_filter, mem_iff_lookup c.data.ascending]
      constructor
      · rintro ⟨h1, h2⟩
        have h3 : c.data.find k = some v := h1
        rw [h k h2] at h3
        exact lastWrite_mem h3
      · intro h1
        have h2 : starts_with pfx k = true := list_write_starts h1
        refine ⟨?_, h2⟩
        have h3 : c.data.find k = some v := by
          rw [h k h2]; exact lastWrite_of_mem (list_writes_distinct_keys _ _ _) h1
        exact h3
    · have hasc : KeysAscending (c.data.entries.filter (fun e => starts_with pfx e.1)) :=
        keysAscending_filter _ c.data.ascending
      exact List.Pairwise.imp (fun {a b} hab heq => strLt_ne hab (congrArg Prod.fst heq)) hasc
    · exact List.Pairwise.imp (fun {a b} hab heq => hab (congrArg Prod.fst heq))
        (list_writes_distinct_keys pfx 0 vals)
  have := hperm.map (fun e => e.2)
  rw [list_writes_map_snd] at this
  exact this

theorem lastWrite_append_right_none {K : Str} {w2 : List (Str × Str)}
    (h : lastWrite K w2 = none) (w1 : List (Str × Str)) :
    lastWrite K (w1 ++ w2) = lastWrite K w1 := by
  rw [lastWrite_append, h]

theorem lastWrite_append_left_none {K : Str} {w1 : List (Str × Str)}
    (h : lastWrite K w1 = none) (w2 : List (Str × Str)) :
    lastWrite K (w1 ++ w2) = lastWrite K w2 := by
  rw [lastWrite_append, h]
  cases lastWrite K w2 <;> rfl

theorem lastWrite_cons_ne {K k0 : Str} (h : k0 ≠ K) (v : Str) (writes : List (Str × Str)) :
    lastWrite K ((k0, v) :: writes) = lastWrite K writes := by
  simp only [lastWrite, h, if_false]
  cases lastWrite K writes <;> rfl

theorem lastWrite_cons_self {K : Str} {writes : List (Str × Str)}
    (h : lastWrite K writes = none) (v : Str) :
    lastWrite K ((K, v) :: writes) = some v := by
  simp only [lastWrite, h, if_true]

theorem lastWrite_list_writes_lt (pfx : Str) {i j : Nat} (h : j < i) (vs : List Str) :
    lastWrite (pfx ++ to_string j) (list_writes pfx i vs) = none := by
  apply lastWrite_none_of_keys
  intro e he hk
  obtain ⟨t, h1, -, h2, -⟩ := mem_list_writes he
  rw [h2] at hk
  have := list_key_injective hk
  omega

/-- Assigning the list `old` and then a list `new` that is not longer leaves
what assigning `new` followed by the rest of `old` leaves. -/
theorem lastWrite_list_writes_merge (pfx K : Str) (i : Nat) (old new : List Str)
    (h : new.length ≤ old.length) :
    lastWrite K (list_writes pfx i old ++ list_writes pfx i new) =
      lastWrite K (list_writes pfx i (new ++ old.drop new.length)) := by
  induction new generalizing old i with
  | nil => simp [list_writes]
  | cons a new ih =>
    cases old with
    | nil => simp at h
    | cons b old =>
      have hlen : new.length ≤ old.length := by simpa using h
      have ih' := ih (i + 1) old hlen
      have hL : list_writes pfx i (b :: old) ++ list_writes pfx i (a :: new) =
          ((pfx ++ to_string i, b) :: list_writes pfx (i + 1) old) ++
            ((pfx ++ to_string i, a) :: list_writes pfx (i + 1) new) := rfl
      have hR : list_writes pfx i ((a :: new) ++ (b :: old).drop (a :: new).length) =
          (pfx ++ to_string i, a) ::
            list_writes pfx (i + 1) (new ++ old.drop new.length) := rfl
      rw [hL, hR, lastWrite_append]
      by_cases hk : pfx ++ to_string i = K
      · subst hk
        rw [lastWrite_cons_self (lastWrite_list_writes_lt pfx (Nat.lt_succ_self i) new),
          lastWrite_cons_self (lastWrite_list_writes_lt pfx (Nat.lt_succ_self i)
            (new ++ old.drop new.length))]
      · rw [lastWrite_cons_ne hk, lastWrite_cons_ne hk, lastWrite_cons_ne hk,
          ← lastWrite_append, ih']

theorem ListField.pfx_nice (f : ListField) : NiceKey f.pfx := by
  cases f <;> decide

theorem ListField.pfx_exclusive (f : ListField) {K : Str} (h : starts_with f.pfx K = true) :
    starts_with "env.".toList K = false ∧ K ∉ scalar_keys ∧
      ∀ g : ListField, g ≠ f → starts_with g.pfx K = false := by
  obtain ⟨r, rfl⟩ := starts_with_elim h
  refine ⟨?_, ?_, ?_⟩
  · cases f <;> rfl
  · cases f <;> simp [scalar_keys, ListField.pfx]
  · intro g hg
    cases f <;> cases g <;> first | rfl | exact absurd rfl hg

theorem lastWrite_scalar_writes_none {w : Workspace} {K : Str} (h : K ∉ scalar_keys) :
    lastWrite K (scalar_writes w) = none := by
  apply lastWrite_none_of_keys
  intro e he hk
  exact h (hk ▸ (scalar_write_cases he).1)

/-- The assignments of `save_config` to a key under the prefix of a list are
the ones of the loop over this list. -/
theorem lastWrite_list_key (f : ListField) (w : Workspace) {K : Str}
    (h : starts_with f.pfx K = true) :
    lastWrite K (save_config_writes w) = lastWrite K (list_writes f.pfx 0 (f.get w)) := by
  obtain ⟨h1, h2, h3⟩ := f.pfx_exclusive h
  have hs : lastWrite K (scalar_writes w) = none := lastWrite_scalar_writes_none h2
  have he : lastWrite K (env_writes w) = none :=
    lastWrite_none_of_starts h1 (fun e he => env_write_starts he)
  have hse : lastWrite K (scalar_writes w ++ env_writes w) = none := by
    rw [lastWrite_append_right_none he, hs]
  have hg : ∀ g : ListField, g ≠ f → lastWrite K (list_writes g.pfx 0 (g.get w)) = none :=
    fun g hg => lastWrite_none_of_starts (h3 g hg) (fun e he => list_write_starts he)
  unfold save_config_writes
  cases f
  · have t1 : lastWrite K (list_writes "init.".toList 0 w.init_cmds) = none :=
      hg ListField.init_cmds (by decide)
    have t2 : lastWrite K (list_writes "tag.".toList 0 w.tags) = none :=
      hg ListField.tags (by decide)
    rw [lastWrite_append_right_none t2, lastWrite_append_right_none t1,
      lastWrite_append_left_none hse]
    rfl
  · have t1 : lastWrite K (list_writes "mount.".toList 0 w.mounts) = none :=
      hg ListField.mounts (by decide)
    have t2 : lastWrite K (list_writes "tag.".toList 0 w.tags) = none :=
      hg ListField.tags (by decide)
    have hm : lastWrite K (scalar_writes w ++ env_writes w ++
        list_writes "mount.".toList 0 w.mounts) = none := by
      rw [lastWrite_append_right_none t1, hse]
    rw [lastWrite_append_right_none t2, lastWrite_append_left_none hm]
    rfl
  · have t1 : lastWrite K (list_writes "mount.".toList 0 w.mounts) = none :=
      hg ListField.mounts (by decide)
    have t2 : lastWrite K (list_writes "init.".toList 0 w.init_cmds) = none :=
      hg ListField.init_cmds (by decide)
    have hm : lastWrite K (scalar_writes w ++ env_writes w ++
        list_writes "mount.".toList 0 w.mounts ++
        list_writes "init.".toList 0 w.init_cmds) = none := by
      rw [lastWrite_append_right_none t2, lastWrite_append_right_none t1, hse]
    rw [lastWrite_append_left_none hm]
    rfl

/-- For a line-safe workspace whose list `f` holds storable values, every
entry `save_config` writes is faithful to the keys under the prefix of `f`. -/
theorem faithful_for_list_key (f : ListField) {w : Workspace} {K : Str} (hsafe : LineSafe w)
    (hstor : ∀ v ∈ f.get w, Storable v) (hK : starts_with f.pfx K = true) :
    ∀ e ∈ save_config_writes w, Faithful K e := by
  obtain ⟨h1, h2, h3⟩ := f.pfx_exclusive hK
  apply faithful_save_config_writes hsafe h1
  intro e he hk
  have hother : ∀ g : ListField, g ≠ f → e ∉ list_writes g.pfx 0 (g.get w) := by
    intro g hg hm
    have := list_write_starts hm
    rw [hk, h3 g hg] at this; cases this
  have hself : e ∈ list_writes f.pfx 0 (f.get w) → Storable e.2 := by
    intro hm
    obtain ⟨j, -, -, -, hv⟩ := mem_list_writes hm
    exact hstor _ hv
  rcases save_config_write_cases he with h | h | h | h | h
  · exact absurd (hk ▸ (scalar_write_cases h).1) h2
  · have := env_write_starts h
    rw [hk, h1] at this; cases this
  · cases f
    · exact hself h
    · exact absurd h (hother ListField.mounts (by decide))
    · exact absurd h (hother ListField.mounts (by decide))
  · cases f
    · exact absurd h (hother ListField.init_cmds (by decide))
    · exact hself h
    · exact absurd h (hother ListField.init_cmds (by decide))
  · cases f
    · exact absurd h (hother ListField.tags (by decide))
    · exact absurd h (hother ListField.tags (by decide))
    · exact hself h

theorem get_assign_fields (f : ListField) (w : Workspace) (c : ConfigParser) :
    f.get (w.assign_fields c) = c.get_list f.pfx := by
  cases f <;> rfl

/-- The lists read back after `save_config` from an empty store are
rearrangements of the saved lists, when their values are storable. -/
theorem reload_list_perm (f : ListField) (w : Workspace) (fs : FileSystem)
    (hcfg : w.config = ConfigParser.empty) (hsafe : LineSafe w)
    (hstor : ∀ v ∈ f.get w, Storable v) :
    (f.get (reload w fs).2).Perm (f.get w) := by
  rw [reload_eq]
  simp only [get_assign_fields]
  apply get_list_perm
  intro K hK
  rw [reload_find hcfg (faithful_for_list_key f hsafe hstor hK), lastWrite_list_key f w hK]

theorem save_load_scalar_fields_witness :
    demo_workspace.config = ConfigParser.empty ∧ LineSafe demo_workspace ∧
    (∀ s ∈ scalar_fields demo_workspace, Storable s) ∧
    (reload demo_workspace FileSystem.none).2.description = demo_workspace.description :=
  ⟨by decide, by decide, by decide,
    (save_load_scalar_fields demo_workspace FileSystem.none (by decide) (by decide)
      (by decide)).2.2.1⟩

/-- C1 as stated fails: a description with a leading space is saved from an
empty store and comes back without the space. -/
theorem save_load_scalar_fields_counterexample :
    padded_workspace.config = ConfigParser.empty ∧
    (reload padded_workspace FileSystem.none).1 = true ∧
    (reload padded_workspace FileSystem.none).2.description ≠ padded_workspace.description := by
  decide

/-- C2, as amended: for a record saved from an empty store in which no string
contains a newline and every entry of `mounts`, `init_cmds` and `tags` has no
leading or trailing whitespace and is not wrapped in double quotes,
`save_config` followed by `load_config` into a fresh record gives for each of
the three lists the same set of values as was saved. -/
theorem save_load_list_fields (w : Workspace) (fs : FileSystem)
    (hcfg : w.config = ConfigParser.empty) (hsafe : LineSafe w)
    (hstor : ∀ v ∈ w.mounts ++ w.init_cmds ++ w.tags, Storable v) :
    (∀ v, v ∈ (reload w fs).2.mounts ↔ v ∈ w.mounts) ∧
    (∀ v, v ∈ (reload w fs).2.init_cmds ↔ v ∈ w.init_cmds) ∧
    (∀ v, v ∈ (reload w fs).2.tags ↔ v ∈ w.tags) := by
  have h1 : ∀ v ∈ ListField.mounts.get w, Storable v :=
    fun v hv => hstor v (List.mem_append_left _ (List.mem_append_left _ hv))
  have h2 : ∀ v ∈ ListField.init_cmds.get w, Storable v :=
    fun v hv => hstor v (List.mem_append_left _ (List.mem_append_right _ hv))
  have h3 : ∀ v ∈ ListField.tags.get w, Storable v :=
    fun v hv => hstor v (List.mem_append_right _ hv)
  exact ⟨fun v => (reload_list_perm ListField.mounts w fs hcfg hsafe h1).mem_iff,
    fun v => (reload_list_perm ListField.init_cmds w fs hcfg hsafe h2).mem_iff,
    fun v => (reload_list_perm ListField.tags w fs hcfg hsafe h3).mem_iff⟩

theorem save_load_list_fields_witness :
    demo_workspace.config = ConfigParser.empty ∧ LineSafe demo_workspace ∧
    (∀ v ∈ demo_workspace.mounts ++ demo_workspace.init_cmds ++ demo_workspace.tags,
      Storable v) ∧
    (∀ v, v ∈ (reload demo_workspace FileSystem.none).2.mounts ↔ v ∈ demo_workspace.mounts) :=
  ⟨by decide, by decide, by decide,
    (save_load_list_fields demo_workspace FileSystem.none (by decide) (by decide)
      (by decide)).1⟩

/-- C2 as stated fails: a mount wrapped in double quotes is saved from an
empty store, with non-empty lists, and is not among the mounts read back. -/
theorem save_load_list_fields_counterexample :
    quoted_workspace.config = ConfigParser.empty ∧
    "\"/b\"".toList ∈ quoted_workspace.mounts ∧
    "\"/b\"".toList ∉ (reload quoted_workspace FileSystem.none).2.mounts := by
  decide

theorem lineSafe_put (f : ListField) {w : Workspace} {vs : List Str} (hsafe : LineSafe w)
    (hvs : ∀ v ∈ vs, '\n' ∉ v) : LineSafe (f.put w vs) := by
  intro s hs
  have : s ∈ text_fields w ∨ s ∈ vs := by
    cases f <;>
      simp only [text_fields, ListField.put, List.mem_append, List.mem_cons] at hs ⊢ <;> tauto
  rcases this with h | h
  · exact hsafe s h
  · exact hvs s h

theorem get_put (f : ListField) (w : Workspace) (vs : List Str) : f.get (f.put w vs) = vs := by
  cases f <;> rfl

theorem save_config_writes_put (f : ListField) (w : Workspace) (c : ConfigParser)
    (vs : List Str) :
    save_config_writes (f.put { w with config := c } vs) = save_config_writes (f.put w vs) := by
  cases f <;> rfl

/-- The store that `load_config` reads back after the two calls of
`save_config`. -/
theorem reload_after_change_eq (w : Workspace) (fs : FileSystem) (f : ListField)
    (vs : List Str) :
    reload_after_change w fs f vs = (true, (named w.name w.path).assign_fields
      (ConfigParser.empty.load_lines (getlines
        (apply_writes w.save_config_store (save_config_writes (f.put w vs))).save_text))) := by
  unfold reload_after_change Workspace.load_config
  have hstore : (f.put (w.save_config fs).1 vs).save_config_store =
      apply_writes w.save_config_store (save_config_writes (f.put w vs)) := by
    rw [save_config_store_eq]
    have e1 : (f.put (w.save_config fs).1 vs).config = w.save_config_store := by
      cases f <;> rfl
    have e2 : save_config_writes (f.put (w.save_config fs).1 vs) =
        save_config_writes (f.put w vs) := save_config_writes_put f w _ vs
    rw [e1, e2]
  have hpath : (f.put (w.save_config fs).1 vs).cfg_path = (named w.name w.path).cfg_path := by
    cases f <;> rfl
  have h : (named w.name w.path).config.load
      ((f.put (w.save_config fs).1 vs).save_config (w.save_config fs).2).2
      (named w.name w.path).cfg_path =
      (true, ConfigParser.empty.load_lines (getlines
        (apply_writes w.save_config_store (save_config_writes (f.put w vs))).save_text)) := by
    have e2 : (named w.name w.path).config = ConfigParser.empty := rfl
    have hfs : ((f.put (w.save_config fs).1 vs).save_config (w.save_config fs).2).2 =
        (w.save_config fs).2.write (f.put (w.save_config fs).1 vs).cfg_path
          (f.put (w.save_config fs).1 vs).save_config_store.save_text := rfl
    rw [e2, hfs, hstore, hpath]
    exact load_write _ _ _ _
  rw [h]

/-- C8, as amended: a record in which no string contains a newline and whose
list `f` (`mounts`, `init_cmds` or `tags`) holds `n` entries without leading
or trailing whitespace and not wrapped in double quotes is saved from an
empty store; its list is replaced by `m < n` such entries and the record is
saved again. A `load_config` into a fresh record then reads a list of `n`
values: the `m` new ones and the old ones of the indices `m` to `n - 1`. -/
theorem stale_list_entries_survive (w : Workspace) (fs : FileSystem) (f : ListField)
    (vs : List Str) (hcfg : w.config = ConfigParser.empty) (hsafe : LineSafe w)
    (hold : ∀ v ∈ f.get w, Storable v) (hnew : ∀ v ∈ vs, Storable v)
    (hlen : vs.length < (f.get w).length) :
    (reload_after_change w fs f vs).1 = true ∧
    (f.get (reload_after_change w fs f vs).2).Perm (vs ++ (f.get w).drop vs.length) ∧
    (f.get (reload_after_change w fs f vs).2).length = (f.get w).length := by
  have hsafe2 : LineSafe (f.put w vs) := lineSafe_put f hsafe (fun v hv => (hnew v hv).1)
  have hnew2 : ∀ v ∈ f.get (f.put w vs), Storable v := by rw [get_put]; exact hnew
  have hS1 : w.save_config_store = apply_writes ConfigParser.empty (save_config_writes w) := by
    rw [save_config_store_eq, hcfg]
  have hperm : (f.get (reload_after_change w fs f vs).2).Perm
      (vs ++ (f.get w).drop vs.length) := by
    rw [reload_after_change_eq]
    simp only [get_assign_fields]
    apply get_list_perm
    intro K hK
    have hf1 := faithful_for_list_key f hsafe hold hK
    have hf2 := faithful_for_list_key f hsafe2 hnew2 hK
    have hmem : ∀ e ∈ (apply_writes w.save_config_store
        (save_config_writes (f.put w vs))).data.entries, Faithful K e := by
      intro e he
      rcases mem_apply_writes he with h | h
      · rw [hS1] at h
        rcases mem_apply_writes h with h | h
        · cases h
        · exact hf1 e h
      · exact hf2 e h
    rw [find_load_save _ _ _ hmem, find_apply_writes, hS1, find_apply_writes,
      lastWrite_list_key f _ hK, lastWrite_list_key f _ hK, get_put,
      ← lastWrite_list_writes_merge f.pfx K 0 (f.get w) vs (le_of_lt hlen), lastWrite_append]
    cases lastWrite K (list_writes f.pfx 0 vs) with
    | some v => rfl
    | none => cases lastWrite K (list_writes f.pfx 0 (f.get w)) <;> rfl
  refine ⟨by rw [reload_after_change_eq], hperm, ?_⟩
  rw [hperm.length_eq, List.length_append, List.length_drop]
  omega

theorem stale_list_entries_survive_witness :
    demo_workspace.config = ConfigParser.empty ∧ LineSafe demo_workspace ∧
    (∀ v ∈ ListField.mounts.get demo_workspace, Storable v) ∧
    (∀ v ∈ ["/x".toList], Storable v) ∧
    ["/x".toList].length < (ListField.mounts.get demo_workspace).length ∧
    (ListField.mounts.get
        (reload_after_change demo_workspace FileSystem.none ListField.mounts
          ["/x".toList]).2).Perm
      (["/x".toList] ++ (ListField.mounts.get demo_workspace).drop ["/x".toList].length) :=
  ⟨by decide, by decide, by decide, by decide, by decide,
    (stale_list_entries_survive demo_workspace FileSystem.none ListField.mounts ["/x".toList]
      (by decide) (by decide) (by decide) (by decide) (by decide)).2.1⟩

/-- C8 as stated fails: the old mount of index 1 is wrapped in double quotes;
after the list is cut to its first entry and saved again, the list read back
has two values, and the old value of index 1 is not among them. -/
theorem stale_list_entries_survive_counterexample :
    quoted_workspace.config = ConfigParser.empty ∧
    ["/a".toList].length < quoted_workspace.mounts.length ∧
    "\"/b\"".toList ∈ ["/a".toList] ++ quoted_workspace.mounts.drop ["/a".toList].length ∧
    "\"/b\"".toList ∉
      (reload_after_change quoted_workspace FileSystem.none ListField.mounts
        ["/a".toList]).2.mounts := by
  decide

theorem registry_text_foldl (ws : List Workspace) (acc : Str) :
    ws.foldl
      (fun out w => out ++ "[".toList ++ w.name ++ "]\n".toList ++ "path=".toList ++ w.path ++
        "\n\n".toList) acc = acc ++ unlines (registry_lines ws) := by
  induction ws generalizing acc with
  | nil => simp [registry_lines, unlines]
  | cons w ws ih =>
    simp only [List.foldl_cons, registry_lines, unlines, ih, header_line]
    have e1 : "[".toList = ['['] := rfl
    have e2 : "]\n".toList = [']', '\n'] := rfl
    have e3 : "\n\n".toList = ['\n', '\n'] := rfl
    simp [e1, e2, e3, List.append_assoc]

theorem registry_text_eq (ws : List Workspace) :
    registry_text ws = unlines (registry_lines ws) := by
  unfold registry_text
  rw [registry_text_foldl]; rfl

theorem isHeader_header_line (name : Str) : IsHeader (header_line name) :=
  ⟨rfl, List.getLast?_concat _⟩

theorem registry_lines_head (ws : List Workspace) :
    ∀ l, (registry_lines ws).head? = some l → IsHeader l := by
  intro l hl
  cases ws with
  | nil => simp [registry_lines] at hl
  | cons w rest =>
    simp only [registry_lines, List.head?_cons, Option.some.injEq] at hl
    rw [← hl]; exact isHeader_header_line _

/-- The section parser of `load_workspaces` reads the lines written for
records with non-empty names back as these records. -/
theorem registry_entries_lines (ws : List Workspace) (h : ∀ w ∈ ws, w.name ≠ []) :
    registry_entries (registry_lines ws) = ws.map (fun w => named w.name w.path) := by
  induction ws with
  | nil => rfl
  | cons w rest ih =>
    have hbody : ∀ l ∈ [([] : Str)], ¬ IsHeader l ∧ ¬ IsPathLine l := by
      intro l hl
      rw [List.mem_singleton.1 hl]
      decide
    have hs := registry_entries_section [] [[]] (registry_lines rest) w.name
      ["path=".toList ++ w.path] w.path (Or.inr rfl) (h w (List.mem_cons_self _ _)) hbody
      (registry_lines_head rest)
    have e : registry_lines (w :: rest) =
        [] ++ header_line w.name :: (["path=".toList ++ w.path] ++ [[]]) ++
          registry_lines rest := rfl
    rw [e, hs, ih (fun x hx => h x (List.mem_cons_of_mem _ hx))]
    rfl

theorem registry_lines_no_newline (ws : List Workspace)
    (h : ∀ w ∈ ws, '\n' ∉ w.name ∧ '\n' ∉ w.path) : ∀ l ∈ registry_lines ws, '\n' ∉ l := by
  induction ws with
  | nil => intro l hl; cases hl
  | cons w rest ih =>
    intro l hl
    obtain ⟨h1, h2⟩ := h w (List.mem_cons_self _ _)
    simp only [registry_lines, List.mem_cons] at hl
    rcases hl with rfl | rfl | rfl | hl
    · simp only [header_line, List.mem_append, List.mem_cons, List.mem_singleton,
        List.not_mem_nil, or_false, not_or]
      exact ⟨⟨by decide, h1⟩, by decide⟩
    · intro hm
      rcases List.mem_append.1 hm with hm | hm
      · revert hm; decide
      · exact h2 hm
    · simp
    · exact ih (fun x hx => h x (List.mem_cons_of_mem _ hx)) l hl

theorem names_and_paths_named (ws : List Workspace) :
    names_and_paths (ws.map (fun w => named w.name w.path)) = names_and_paths ws := by
  unfold names_and_paths
  rw [List.map_map]
  rfl

/-- C11: `save_workspaces` replaces the content of the registry file by the
lines `[name]`, `path=<path>` and an empty line of each record, in the order
of the list; and for records with non-empty names and no newline in names
and paths, `load_workspaces` reads from this file the same names and paths in
the same order. -/
theorem save_workspaces_round_trip (home : Option Str) (ws : List Workspace) :
    (∀ fs : FileSystem,
      save_workspaces home ws fs (ws_config home) = some (unlines (registry_lines ws))) ∧
    ((∀ w ∈ ws, Registrable w) →
      names_and_paths (registry_entries (getlines (registry_text ws))) = names_and_paths ws ∧
      ∀ fs : FileSystem,
        names_and_paths (load_workspaces home (save_workspaces home ws fs)) =
          names_and_paths ws) := by
  have hfile : ∀ fs : FileSystem,
      save_workspaces home ws fs (ws_config home) = some (unlines (registry_lines ws)) := by
    intro fs
    simp [save_workspaces, FileSystem.write, registry_text_eq]
  refine ⟨hfile, fun h => ?_⟩
  have hparse : registry_entries (getlines (registry_text ws)) =
      ws.map (fun w => named w.name w.path) := by
    rw [registry_text_eq, getlines_unlines (registry_lines_no_newline ws
      (fun w hw => (h w hw).2)), registry_entries_lines ws (fun w hw => (h w hw).1)]
  refine ⟨by rw [hparse, names_and_paths_named], fun fs => ?_⟩
  unfold load_workspaces
  rw [hfile fs]
  simp only
  rw [← registry_text_eq, hparse, names_and_paths_load_config, names_and_paths_named]

theorem save_workspaces_round_trip_witness :
    (∀ w ∈ [named "a".toList "/x".toList, named "b c".toList []], Registrable w) ∧
    names_and_paths
        (registry_entries
          (getlines (registry_text [named "a".toList "/x".toList, named "b c".toList []]))) =
      names_and_paths [named "a".toList "/x".toList, named "b c".toList []] :=
  ⟨by decide,
    ((save_workspaces_round_trip none
      [named "a".toList "/x".toList, named "b c".toList []]).2 (by decide)).1⟩

theorem find_ws_some_iff (ws : List Workspace) (name : Str) (i : Nat) :
    find_ws ws name = some i ↔
      (∃ w, ws.get? i = some w ∧ w.name = name) ∧
        ∀ j, j < i → ∀ w, ws.get? j = some w → w.name ≠ name := by
  induction ws generalizing i with
  | nil => simp [find_ws]
  | cons hd tl ih =>
    simp only [find_ws]
    by_cases h : hd.name = name
    · simp only [h, if_true, Option.some.injEq]
      constructor
      · intro hi
        subst hi
        exact ⟨⟨hd, rfl, h⟩, fun j hj => absurd hj (Nat.not_lt_zero j)⟩
      · rintro ⟨-, h2⟩
        cases i with
        | zero => rfl
        | succ k => exact absurd h (h2 0 (Nat.succ_pos k) hd rfl)
    · simp only [h, if_false, Option.map_eq_some']
      constructor
      · rintro ⟨k, hk, rfl⟩
        obtain ⟨h1, h2⟩ := (ih k).1 hk
        refine ⟨h1, ?_⟩
        intro j hj w hw
        cases j with
        | zero =>
          simp only [List.get?_cons_zero, Option.some.injEq] at hw
          rw [← hw]; exact h
        | succ j' => exact h2 j' (Nat.lt_of_succ_lt_succ hj) w hw
      · rintro ⟨⟨w, h1, h2⟩, h3⟩
        cases i with
        | zero =>
          simp only [List.get?_cons_zero, Option.some.injEq] at h1
          rw [← h1] at h2; exact absurd h2 h
        | succ k =>
          refine ⟨k, (ih k).2 ⟨⟨w, h1, h2⟩, ?_⟩, rfl⟩
          intro j hj w' hw'
          exact h3 (j + 1) (Nat.succ_lt_succ hj) w' hw'

theorem find_ws_none_iff (ws : List Workspace) (name : Str) :
    find_ws ws name = none ↔ ∀ w ∈ ws, w.name ≠ name := by
  induction ws with
  | nil => simp [find_ws]
  | cons hd tl ih =>
    simp only [find_ws, List.mem_cons, forall_eq_or_imp]
    by_cases h : hd.name = name
    · simp [h]
    · simp [h, ih]

/-- C12: `find_ws` returns the record at position `i` exactly when this
record has the given name and no record before it has; it returns the null
pointer exactly when no record of the list has the name; names that differ
in the case of a letter are different names. -/
theorem find_ws_first_exact_match :
    (∀ (ws : List Workspace) (name : Str) (i : Nat),
      find_ws ws name = some i ↔
        (∃ w, ws.get? i = some w ∧ w.name = name) ∧
          ∀ j, j < i → ∀ w, ws.get? j = some w → w.name ≠ name) ∧
    (∀ (ws : List Workspace) (name : Str),
      find_ws ws name = none ↔ ∀ w ∈ ws, w.name ≠ name) ∧
    find_ws [named "Demo".toList [], named "demo".toList "/a".toList,
        named "demo".toList "/b".toList] "demo".toList = some 1 ∧
    find_ws [named "Demo".toList []] "demo".toList = none :=
  ⟨find_ws_some_iff, find_ws_none_iff, by decide, by decide⟩

theorem replace_from_skip (tok name : Str) (k : Nat) (s : Str) :
    replace_from tok name k s = replace_from tok name 0 (s.drop k) := by
  induction k generalizing s with
  | zero => rfl
  | succ k ih =>
    cases s with
    | nil => rfl
    | cons c cs => simp only [replace_from, List.drop_succ_cons, ih]

theorem isPrefixOf_length {tok s : Str} (h : tok.isPrefixOf s = true) : tok.length ≤ s.length := by
  induction tok generalizing s with
  | nil => simp
  | cons t ts ih =>
    cases s with
    | nil => simp [List.isPrefixOf] at h
    | cons c cs =>
      simp only [List.isPrefixOf, Bool.and_eq_true] at h
      simp only [List.length_cons]
      exact Nat.succ_le_succ (ih h.2)

theorem replace_from_find_none {tok : Str} (name : Str) {s : Str} (h : find_sub tok s = none) :
    replace_from tok name 0 s = s := by
  induction s with
  | nil => rfl
  | cons c cs ih =>
    simp only [find_sub] at h
    by_cases hp : tok.isPrefixOf (c :: cs) = true
    · simp [hp] at h
    · simp only [hp, Bool.false_eq_true, if_false, Option.map_eq_none'] at h
      simp only [replace_from, hp, Bool.false_eq_true, if_false, ih h]

theorem replace_from_find_some {tok : Str} (htok : tok ≠ []) (name : Str) {s : Str} {q : Nat}
    (h : find_sub tok s = some q) :
    q + tok.length ≤ s.length ∧
      replace_from tok name 0 s =
        s.take q ++ name ++ replace_from tok name 0 (s.drop (q + tok.length)) := by
  induction s generalizing q with
  | nil => simp [find_sub, htok] at h
  | cons c cs ih =>
    simp only [find_sub] at h
    by_cases hp : tok.isPrefixOf (c :: cs) = true
    · simp only [hp, if_true, Option.some.injEq] at h
      subst h
      have hlen := isPrefixOf_length hp
      have hpos : 0 < tok.length := List.length_pos.2 htok
      refine ⟨by simpa using hlen, ?_⟩
      simp only [replace_from, hp, if_true, List.take_zero, List.nil_append, Nat.zero_add]
      rw [replace_from_skip]
      have e : tok.length = (tok.length - 1) + 1 := by omega
      conv_rhs => rw [e, List.drop_succ_cons]
    · simp only [hp, Bool.false_eq_true, if_false, Option.map_eq_some'] at h
      obtain ⟨q', hq', rfl⟩ := h
      obtain ⟨h1, h2⟩ := ih hq'
      refine ⟨by simp only [List.length_cons]; omega, ?_⟩
      simp only [replace_from, hp, Bool.false_eq_true, if_false, h2]
      have e : q' + 1 + tok.length = (q' + tok.length) + 1 := by omega
      rw [e]
      simp

/-- The placeholder loop of `cmd_create` is over before its fuel is used up,
and what it leaves is the text before `pos` followed by the rest with every
occurrence of the placeholder replaced. -/
theorem substitute_loop_spec (name : Str) (fuel : Nat) (content : Str) (pos : Nat)
    (hpos : pos ≤ content.length) (hfuel : content.length - pos < fuel) :
    substitute_loop name fuel content pos =
      some (content.take pos ++ replace_all placeholder name (content.drop pos)) := by
  induction fuel generalizing content pos with
  | zero => omega
  | succ fuel ih =>
    simp only [substitute_loop, find_from, hpos, if_true]
    cases hf : find_sub placeholder (content.drop pos) with
    | none =>
      simp only [Option.map_none']
      unfold replace_all
      rw [replace_from_find_none name hf, List.take_append_drop]
    | some q =>
      simp only [Option.map_some']
      have htok : placeholder ≠ [] := by decide
      have h7 : placeholder.length = 7 := rfl
      obtain ⟨h1, h2⟩ := replace_from_find_some htok name hf
      rw [h7, List.length_drop] at h1
      have hp : q + pos ≤ content.length := by omega
      have hlt : (content.take (q + pos)).length = q + pos := by
        rw [List.length_take]; omega
      have hlen : (content.take (q + pos) ++ name ++ content.drop (q + pos + 7)).length =
          q + pos + name.length + (content.length - (q + pos + 7)) := by
        simp only [List.length_append, hlt, List.length_drop]
      rw [ih _ _ (by rw [hlen]; omega) (by rw [hlen]; omega)]
      have e1 : (content.take (q + pos) ++ name ++ content.drop (q + pos + 7)).take
          (q + pos + name.length) = content.take (q + pos) ++ name :=
        List.take_left' (by rw [List.length_append, hlt])
      have e2 : (content.take (q + pos) ++ name ++ content.drop (q + pos + 7)).drop
          (q + pos + name.length) = content.drop (q + pos + 7) :=
        List.drop_left' (by rw [List.length_append, hlt])
      rw [e1, e2]
      unfold replace_all at *
      rw [h2, h7, List.drop_drop]
      have e3 : content.take (q + pos) = content.take pos ++ (content.drop pos).take q := by
        rw [Nat.add_comm q pos, List.take_add]
      have e4 : pos + (q + 7) = q + pos + 7 := by omega
      rw [e3, e4]
      simp [List.append_assoc]

theorem substitute_eq (content name : Str) :
    substitute content name = some (replace_all placeholder name content) := by
  unfold substitute
  rw [substitute_loop_spec name _ content 0 (Nat.zero_le _) (by omega)]
  rfl

theorem seed_file_eq (name f : Str) :
    seed_file name f = some (seed_name f, replace_all placeholder name (seed_content f)) := by
  unfold seed_file seed_name seed_content
  cases find ':' f with
  | none => simp only [substitute_eq]
  | some colon => simp only [substitute_eq]

theorem write_seed_files_eq (path name : Str) (files : List Str) (fs : FileSystem) :
    write_seed_files path name files fs = some (seeded path name files fs) := by
  induction files generalizing fs with
  | nil => rfl
  | cons f rest ih =>
    simp only [write_seed_files, seed_file_eq, ih]
    rfl

theorem write_apply (fs : FileSystem) (p c q : Str) :
    fs.write p c q = if q = p then some c else fs q := rfl

theorem seeded_other (path name : Str) (files : List Str) (fs : FileSystem) (q : Str)
    (h : ∀ f ∈ files, q ≠ path ++ "/".toList ++ seed_name f) :
    seeded path name files fs q = fs q := by
  induction files generalizing fs with
  | nil => rfl
  | cons f rest ih =>
    have e : seeded path name (f :: rest) fs =
        seeded path name rest (fs.write (path ++ "/".toList ++ seed_name f)
          (replace_all placeholder name (seed_content f))) := rfl
    rw [e, ih _ (fun g hg => h g (List.mem_cons_of_mem _ hg)), write_apply,
      if_neg (h f (List.mem_cons_self _ _))]

theorem seeded_mem (path name : Str) (files : List Str) (fs : FileSystem)
    (hnd : (files.map seed_name).Nodup) {f : Str} (hf : f ∈ files) :
    seeded path name files fs (path ++ "/".toList ++ seed_name f) =
      some (replace_all placeholder name (seed_content f)) := by
  induction files generalizing fs with
  | nil => cases hf
  | cons g rest ih =>
    have e : seeded path name (g :: rest) fs =
        seeded path name rest (fs.write (path ++ "/".toList ++ seed_name g)
          (replace_all placeholder name (seed_content g))) := rfl
    rw [e]
    simp only [List.map_cons, List.nodup_cons, List.mem_map, not_exists, not_and] at hnd
    by_cases hm : f ∈ rest
    · exact ih _ hnd.2 hm
    · have hfg : f = g := by
        rcases List.mem_cons.1 hf with h | h
        · exact h
        · exact absurd h hm
      subst hfg
      rw [seeded_other, write_apply, if_pos rfl]
      intro g hg heq
      exact hnd.1 g hg (List.append_cancel_left heq).symm

theorem getLast_append_slash (p : Str) {x : Str} (hx : x ≠ []) :
    (p ++ "/".toList ++ x).getLast? = x.getLast? :=
  List.getLast?_append_of_ne_nil _ hx

theorem cfg_path_last (p : Str) : (p ++ "/.ws/config".toList).getLast? = some 'g' := by
  rw [List.getLast?_append_of_ne_nil _ (by decide)]
  rfl

theorem ws_config_last (home : Option Str) : (ws_config home).getLast? = some 'f' := by
  unfold ws_config
  rw [List.getLast?_append_of_ne_nil _ (by decide)]
  rfl

/-- The seed files of the table: in each template their names are distinct,
not empty, and end neither in `g` nor in `f`. -/
theorem template_table_names : ∀ e ∈ template_table,
    (e.2.files.map seed_name).Nodup ∧
      ∀ f ∈ e.2.files, seed_name f ≠ [] ∧ (seed_name f).getLast? ≠ some 'g' ∧
        (seed_name f).getLast? ≠ some 'f' := by
  decide

theorem get_templates_mem {lang : Str} {tpl : LangTemplate} (h : get_templates lang = some tpl) :
    ∃ e ∈ template_table, e.2 = tpl := by
  unfold get_templates at h
  cases hf : template_table.find? (fun e => decide (e.1 = lang)) with
  | none => rw [hf] at h; cases h
  | some e =>
    rw [hf] at h
    simp only [Option.some.injEq] at h
    exact ⟨e, List.mem_of_find?_eq_some hf, h⟩

theorem create_workspace_eq (env : ProcEnv) (name : Str) (o : CreateOptions)
    (ws : List Workspace) (world : World) :
    create_workspace env name o ws world =
      if (workspace_dirs o.path).any world.mkdir_fails = true then none
      else
        match create_record env name o with
        | none => none
        | some w =>
          if save_dirs_fail env
              { world with files := seeded_for o.lang o.path name world.files } w = true then
            none
          else
            some
              { world with
                files := created_files env name o ws world.files w
                dirs := create_directories
                  (create_directories (create_workspace_dirs world.dirs o.path)
                    (o.path ++ "/.ws".toList))
                  (parent_path (ws_config env.home)) } := by
  unfold create_workspace created_files seeded_for
  cases get_templates o.lang with
  | none => cases create_record env name o <;> rfl
  | some tpl =>
    simp only [write_seed_files_eq]
    cases create_record env name o <;> rfl

theorem command_or_default_idem (given dflt : Str) :
    command_or_default (command_or_default given dflt) dflt = command_or_default given dflt := by
  unfold command_or_default
  by_cases h : given = []
  · by_cases hd : dflt = [] <;> simp [h, hd]
  · simp [h]

/-- The commands of the record `cmd_create` fills in. -/
theorem create_record_commands {env : ProcEnv} {name : Str} {o : CreateOptions} {w : Workspace}
    (h : create_record env name o = some w) :
    (∀ tpl, get_templates o.lang = some tpl →
      w.build_cmd = command_or_default o.build_cmd tpl.build_cmd ∧
      w.run_cmd_ = command_or_default o.run_cmd_ tpl.run_cmd_ ∧
      w.clean_cmd = tpl.clean_cmd ∧ w.test_cmd = tpl.test_cmd) ∧
    (get_templates o.lang = none →
      w.build_cmd = o.build_cmd ∧ w.run_cmd_ = o.run_cmd_ ∧ w.clean_cmd = [] ∧
      w.test_cmd = []) := by
  unfold create_record at h
  simp only at h
  cases ha : (if o.author = [] then env.user else some o.author) with
  | none => rw [ha] at h; cases h
  | some author =>
    rw [ha] at h
    cases ht : get_templates o.lang with
    | none =>
      rw [ht] at h
      simp only [Option.some.injEq] at h
      subst h
      exact ⟨fun tpl ht' => (by cases ht'), fun _ => ⟨rfl, rfl, rfl, rfl⟩⟩
    | some tpl =>
      rw [ht] at h
      simp only [Option.some.injEq] at h
      subst h
      refine ⟨fun tpl' ht' => ?_, fun h' => (by cases h')⟩
      simp only [Option.some.injEq] at ht'
      subst ht'
      exact ⟨command_or_default_idem _ _, command_or_default_idem _ _, rfl, rfl⟩

/-- A call of `cmd_create` that returns 0 has filled in a record and left the
files of `created_files`. -/
theorem cmd_create_success {env : ProcEnv} {name : Str} {opts : List Str} {world world' : World}
    (h : cmd_create env (name :: opts) world = some (0, world')) :
    find_ws (load_workspaces env.home world.files) name = none ∧
    ∃ w, create_record env name (parse_create_options (default_options env.home name) opts) =
        some w ∧
      world'.files =
        created_files env name (parse_create_options (default_options env.home name) opts)
          (load_workspaces env.home world.files) world.files w := by
  unfold cmd_create at h
  simp only at h
  cases hf : find_ws (load_workspaces env.home world.files) name with
  | some i => rw [hf] at h; simp at h
  | none =>
    rw [hf] at h
    simp only at h
    rw [create_workspace_eq] at h
    split_ifs at h with h1
    cases hr : create_record env name
        (parse_create_options (default_options env.home name) opts) with
    | none => rw [hr] at h; simp at h
    | some w =>
      rw [hr] at h
      simp only at h
      split_ifs at h with h2
      simp only [Option.some.injEq, Prod.mk.injEq, true_and] at h
      exact ⟨rfl, w, rfl, by rw [← h]⟩

theorem cfg_path_ne_ws_config (w : Workspace) (home : Option Str) :
    w.cfg_path ≠ ws_config home := by
  intro h
  have h1 := cfg_path_last w.path
  have h2 := ws_config_last home
  unfold Workspace.cfg_path at h
  rw [h, h2] at h1
  revert h1; decide

theorem created_files_cfg (env : ProcEnv) (name : Str) (o : CreateOptions)
    (ws : List Workspace) (fs : FileSystem) (w : Workspace) :
    created_files env name o ws fs w w.cfg_path = some w.save_config_store.save_text := by
  unfold created_files
  rw [write_apply, if_neg (cfg_path_ne_ws_config w env.home), write_apply, if_pos rfl]

/-- A seed file of the template holds after `cmd_create` its content with the
placeholder replaced. -/
theorem created_files_seed (env : ProcEnv) (name : Str) (o : CreateOptions)
    (ws : List Workspace) (fs : FileSystem) (w : Workspace)
    {tpl : LangTemplate} (ht : get_templates o.lang = some tpl) {f : Str} (hf : f ∈ tpl.files) :
    created_files env name o ws fs w (o.path ++ "/".toList ++ seed_name f) =
      some (replace_all placeholder name (seed_content f)) := by
  obtain ⟨e, he, rfl⟩ := get_templates_mem ht
  obtain ⟨hnd, hnames⟩ := template_table_names e he
  obtain ⟨h1, h2, h3⟩ := hnames f hf
  have hlast : (o.path ++ "/".toList ++ seed_name f).getLast? = (seed_name f).getLast? :=
    getLast_append_slash _ h1
  have n1 : o.path ++ "/".toList ++ seed_name f ≠ ws_config env.home := by
    intro h
    rw [h, ws_config_last] at hlast
    exact h3 hlast.symm
  have n2 : o.path ++ "/".toList ++ seed_name f ≠ w.cfg_path := by
    intro h
    have := cfg_path_last w.path
    unfold Workspace.cfg_path at h
    rw [← h, hlast] at this
    exact h2 this
  unfold created_files seeded_for
  rw [write_apply, if_neg n1, write_apply, if_neg n2, ht]
  exact seeded_mem _ _ _ _ hnd hf

/-- C13: the placeholder loop of `cmd_create` ends, for every name and every
content, with every occurrence of `PROJECT` replaced by the name; a call of
`cmd_create` that returns 0 for a language of the table leaves each seed
file of the template with this content; for the language `go` the file
`go.mod` is `module <name>`, an empty line and `go 1.21`, and `src/main.go`
is the text of the template. -/
theorem seed_files_substituted :
    (∀ (name content : Str) (fuel : Nat), content.length < fuel →
      substitute_loop name fuel content 0 = some (replace_all placeholder name content)) ∧
    (∀ (env : ProcEnv) (name : Str) (opts : List Str) (world world' : World)
      (tpl : LangTemplate) (f : Str),
      cmd_create env (name :: opts) world = some (0, world') →
      get_templates (parse_create_options (default_options env.home name) opts).lang =
        some tpl →
      f ∈ tpl.files →
      world'.files
          ((parse_create_options (default_options env.home name) opts).path ++ "/".toList ++
            seed_name f) = some (replace_all placeholder name (seed_content f))) ∧
    (∀ (env : ProcEnv) (name : Str) (opts : List Str) (world world' : World),
      cmd_create env (name :: opts) world = some (0, world') →
      (parse_create_options (default_options env.home name) opts).lang = "go".toList →
      world'.files
          ((parse_create_options (default_options env.home name) opts).path ++
            "/go.mod".toList) = some ("module ".toList ++ name ++ "\n\ngo 1.21\n".toList) ∧
      world'.files
          ((parse_create_options (default_options env.home name) opts).path ++
            "/src/main.go".toList) =
        some "package main\n\nimport \"fmt\"\n\nfunc main() \x7b\n\tfmt.Println(\"Hello from Dreamland!\")\n\x7d\n".toList) := by
  have hseed : ∀ (env : ProcEnv) (name : Str) (opts : List Str) (world world' : World)
      (tpl : LangTemplate) (f : Str),
      cmd_create env (name :: opts) world = some (0, world') →
      get_templates (parse_create_options (default_options env.home name) opts).lang =
        some tpl →
      f ∈ tpl.files →
      world'.files
          ((parse_create_options (default_options env.home name) opts).path ++ "/".toList ++
            seed_name f) = some (replace_all placeholder name (seed_content f)) := by
    intro env name opts world world' tpl f h ht hf
    obtain ⟨-, w, hw, hfiles⟩ := cmd_create_success h
    rw [hfiles]
    exact created_files_seed env name _ _ _ w ht hf
  refine ⟨?_, hseed, ?_⟩
  · intro name content fuel hfuel
    have := substitute_loop_spec name fuel content 0 (Nat.zero_le _) (by omega)
    rw [this]; rfl
  · intro env name opts world world' h hlang
    have ht : get_templates (parse_create_options (default_options env.home name) opts).lang =
        get_templates "go".toList := by rw [hlang]
    have hgo : get_templates "go".toList = some
        { lang := "go".toList, build_cmd := "go build -o build/main ./src".toList,
          clean_cmd := "rm -rf build/".toList, run_cmd_ := "./build/main".toList,
          test_cmd := "go test ./...".toList,
          files := ["go.mod:module PROJECT\n\ngo 1.21\n".toList,
            "src/main.go:package main\n\nimport \"fmt\"\n\nfunc main() \x7b\n\tfmt.Println(\"Hello from Dreamland!\")\n\x7d\n".toList] } := by
      decide
    rw [hgo] at ht
    have h1 := hseed env name opts world world' _ "go.mod:module PROJECT\n\ngo 1.21\n".toList
      h ht (List.mem_cons_self _ _)
    have h2 := hseed env name opts world world' _
      "src/main.go:package main\n\nimport \"fmt\"\n\nfunc main() \x7b\n\tfmt.Println(\"Hello from Dreamland!\")\n\x7d\n".toList
      h ht (List.mem_cons_of_mem _ (List.mem_cons_self _ _))
    have n1 : seed_name "go.mod:module PROJECT\n\ngo 1.21\n".toList = "go.mod".toList := by
      decide
    have n2 : seed_name
        "src/main.go:package main\n\nimport \"fmt\"\n\nfunc main() \x7b\n\tfmt.Println(\"Hello from Dreamland!\")\n\x7d\n".toList =
        "src/main.go".toList := by decide
    have c1 : replace_all placeholder name
        (seed_content "go.mod:module PROJECT\n\ngo 1.21\n".toList) =
        "module ".toList ++ name ++ "\n\ngo 1.21\n".toList := rfl
    have c2 : replace_all placeholder name (seed_content
        "src/main.go:package main\n\nimport \"fmt\"\n\nfunc main() \x7b\n\tfmt.Println(\"Hello from Dreamland!\")\n\x7d\n".toList) =
        "package main\n\nimport \"fmt\"\n\nfunc main() \x7b\n\tfmt.Println(\"Hello from Dreamland!\")\n\x7d\n".toList :=
      rfl
    rw [n1, c1] at h1
    rw [n2, c2] at h2
    have e1 : ("/go.mod".toList : Str) = "/".toList ++ "go.mod".toList := rfl
    have e2 : ("/src/main.go".toList : Str) = "/".toList ++ "src/main.go".toList := rfl
    rw [e1, e2, ← List.append_assoc, ← List.append_assoc]
    exact ⟨h1, h2⟩

theorem seed_files_substituted_witness :
    ("ab".toList.length < 3 ∧
      substitute_loop "x".toList 3 "ab".toList 0 =
        some (replace_all placeholder "x".toList "ab".toList)) ∧
    (cmd_create demo_env ["demo".toList, "--lang".toList, "go".toList] empty_world =
        some (0, go_world) ∧
      (parse_create_options (default_options demo_env.home "demo".toList)
        ["--lang".toList, "go".toList]).lang = "go".toList ∧
      go_world.files
          ((parse_create_options (default_options demo_env.home "demo".toList)
            ["--lang".toList, "go".toList]).path ++ "/go.mod".toList) =
        some ("module ".toList ++ "demo".toList ++ "\n\ngo 1.21\n".toList)) :=
  ⟨⟨by decide, seed_files_substituted.1 _ _ _ (by decide)⟩,
    ⟨rfl, rfl, (seed_files_substituted.2.2 demo_env "demo".toList
      ["--lang".toList, "go".toList] empty_world go_world rfl rfl).1⟩⟩

theorem parse_env_option_commands (o : CreateOptions) (v : Str) :
    (parse_env_option o v).build_cmd = o.build_cmd ∧
      (parse_env_option o v).run_cmd_ = o.run_cmd_ ∧ (parse_env_option o v).lang = o.lang ∧
      (parse_env_option o v).path = o.path := by
  unfold parse_env_option
  cases find '=' v <;> exact ⟨rfl, rfl, rfl, rfl⟩

/-- The option loop of `cmd_create` reads a list of options written out as
arguments as the options, one after the other. -/
theorem parse_render_options (o : CreateOptions) (opts : List CreateOption) :
    parse_create_options o (render_options opts) = opts.foldl CreateOption.apply o := by
  induction opts generalizing o with
  | nil => rfl
  | cons opt rest ih =>
    cases opt with
    | isolated =>
      simp only [render_options, CreateOption.args, List.singleton_append, List.foldl_cons,
        CreateOption.apply]
      rw [← ih]
      cases hR : render_options rest with
      | nil => simp [parse_create_options]
      | cons val R => simp [parse_create_options]
    | path v =>
      simp only [render_options, CreateOption.args, List.cons_append, List.nil_append,
        List.foldl_cons, CreateOption.apply]
      rw [← ih]; simp [parse_create_options]
    | lang v =>
      simp only [render_options, CreateOption.args, List.cons_append, List.nil_append,
        List.foldl_cons, CreateOption.apply]
      rw [← ih]; simp [parse_create_options]
    | description v =>
      simp only [render_options, CreateOption.args, List.cons_append, List.nil_append,
        List.foldl_cons, CreateOption.apply]
      rw [← ih]; simp [parse_create_options]
    | author v =>
      simp only [render_options, CreateOption.args, List.cons_append, List.nil_append,
        List.foldl_cons, CreateOption.apply]
      rw [← ih]; simp [parse_create_options]
    | build v =>
      simp only [render_options, CreateOption.args, List.cons_append, List.nil_append,
        List.foldl_cons, CreateOption.apply]
      rw [← ih]; simp [parse_create_options]
    | run v =>
      simp only [render_options, CreateOption.args, List.cons_append, List.nil_append,
        List.foldl_cons, CreateOption.apply]
      rw [← ih]; simp [parse_create_options]
    | env v =>
      simp only [render_options, CreateOption.args, List.cons_append, List.nil_append,
        List.foldl_cons, CreateOption.apply]
      rw [← ih]; simp [parse_create_options]

theorem foldl_apply_commands (opts : List CreateOption) (o : CreateOptions) :
    (opts.foldl CreateOption.apply o).build_cmd =
        (match given_build opts with
          | some v => v
          | none => o.build_cmd) ∧
      (opts.foldl CreateOption.apply o).run_cmd_ =
        (match given_run opts with
          | some v => v
          | none => o.run_cmd_) := by
  induction opts generalizing o with
  | nil => exact ⟨rfl, rfl⟩
  | cons opt rest ih =>
    obtain ⟨h1, h2⟩ := ih (CreateOption.apply o opt)
    simp only [List.foldl_cons, given_build, given_run]
    rw [h1, h2]
    constructor
    · cases given_build rest with
      | some v => rfl
      | none =>
        cases opt <;> first | rfl | exact (parse_env_option_commands o _).1
    · cases given_run rest with
      | some v => rfl
      | none =>
        cases opt <;> first | rfl | exact (parse_env_option_commands o _).2.1

/-- C14 (as written): the arguments `demo --lang go --build ""` give a
`--build` argument, the empty string, and a language of the template table,
yet the record that `cmd_create` fills in has the build command of the
template and not the argument. -/
theorem create_commands_counterexample :
    given_build [CreateOption.lang "go".toList, CreateOption.build []] = some [] ∧
    (cmd_create demo_env
        ("demo".toList :: render_options [CreateOption.lang "go".toList, CreateOption.build []])
        empty_world).map Prod.fst = some 0 ∧
    (create_record demo_env "demo".toList
        (parse_create_options (default_options demo_env.home "demo".toList)
          (render_options [CreateOption.lang "go".toList, CreateOption.build []]))).map
      Workspace.build_cmd = some "go build -o build/main ./src".toList ∧
    (create_record demo_env "demo".toList
        (parse_create_options (default_options demo_env.home "demo".toList)
          (render_options [CreateOption.lang "go".toList, CreateOption.build []]))).map
      Workspace.build_cmd ≠ some [] := by
  refine ⟨rfl, rfl, ?_, ?_⟩ <;> decide

/-- C14 (amended): after a successful `cmd_create` whose language is in the
template table, the record whose configuration is written has as build
command the last `--build` argument when one was given and is not empty, and
the build command of the template otherwise; likewise for the run command
and `--run`; its clean and test commands are those of the template. -/
theorem create_commands_from_template (env : ProcEnv) (name : Str)
    (options : List CreateOption) (world world' : World) (tpl : LangTemplate)
    (h : cmd_create env (name :: render_options options) world = some (0, world'))
    (ht : get_templates
      (parse_create_options (default_options env.home name) (render_options options)).lang =
        some tpl) :
    ∃ w, create_record env name
          (parse_create_options (default_options env.home name) (render_options options)) =
        some w ∧
      world'.files w.cfg_path = some w.save_config_store.save_text ∧
      w.build_cmd =
        (match given_build options with
          | some v => if v = [] then tpl.build_cmd else v
          | none => tpl.build_cmd) ∧
      w.run_cmd_ =
        (match given_run options with
          | some v => if v = [] then tpl.run_cmd_ else v
          | none => tpl.run_cmd_) ∧
      w.clean_cmd = tpl.clean_cmd ∧ w.test_cmd = tpl.test_cmd := by
  obtain ⟨_, w, hw, hfiles⟩ := cmd_create_success h
  obtain ⟨hb, hr, hc, ht'⟩ := (create_record_commands hw).1 tpl ht
  refine ⟨w, hw, ?_, ?_, ?_, hc, ht'⟩
  · rw [hfiles]; exact created_files_cfg _ _ _ _ _ _
  · rw [hb, parse_render_options, (foldl_apply_commands options _).1]
    unfold command_or_default
    cases given_build options with
    | some v => rfl
    | none => simp [default_options]
  · rw [hr, parse_render_options, (foldl_apply_commands options _).2]
    unfold command_or_default
    cases given_run options with
    | some v => rfl
    | none => simp [default_options]

theorem create_commands_from_template_witness :
    cmd_create demo_env ("demo".toList :: render_options [CreateOption.lang "go".toList])
        empty_world = some (0, go_world) ∧
    get_templates
        (parse_create_options (default_options demo_env.home "demo".toList)
          (render_options [CreateOption.lang "go".toList])).lang =
      get_templates "go".toList ∧
    ∃ w, create_record demo_env "demo".toList
          (parse_create_options (default_options demo_env.home "demo".toList)
            (render_options [CreateOption.lang "go".toList])) = some w ∧
      go_world.files w.cfg_path = some w.save_config_store.save_text ∧
      w.build_cmd = "go build -o build/main ./src".toList ∧
      w.run_cmd_ = "./build/main".toList ∧
      w.clean_cmd = "rm -rf build/".toList ∧ w.test_cmd = "go test ./...".toList :=
  ⟨rfl, rfl,
    create_commands_from_template demo_env "demo".toList [CreateOption.lang "go".toList]
      empty_world go_world _ rfl rfl⟩

/-- C16: when the registry holds a workspace of the given name, `cmd_create`
with that name and any further arguments returns 1 and leaves the world as it
was: every file, the registry file and the configuration files among them,
and every directory. -/
theorem cmd_create_registered (env : ProcEnv) (name : Str) (opts : List Str) (world : World)
    (h : ∃ w ∈ load_workspaces env.home world.files, w.name = name) :
    cmd_create env (name :: opts) world = some (1, world) := by
  unfold cmd_create
  simp only
  cases hf : find_ws (load_workspaces env.home world.files) name with
  | some i => rfl
  | none =>
    obtain ⟨w, hw, hn⟩ := h
    exact absurd hn ((find_ws_none_iff _ _).1 hf w hw)

theorem cmd_create_registered_witness :
    (∃ w ∈ load_workspaces demo_env.home registry_world.files, w.name = "b".toList) ∧
    cmd_create demo_env ["b".toList, "--lang".toList, "go".toList] registry_world =
      some (1, registry_world) :=
  ⟨by decide, cmd_create_registered demo_env "b".toList ["--lang".toList, "go".toList]
    registry_world (by decide)⟩

theorem registry_line_registrable (st : List Workspace × Workspace) (l : Str)
    (hl : '\n' ∉ l) (h1 : ∀ w ∈ st.1, Registrable w)
    (h2 : '\n' ∉ st.2.name ∧ '\n' ∉ st.2.path) :
    (∀ w ∈ (registry_line st l).1, Registrable w) ∧
      '\n' ∉ (registry_line st l).2.name ∧ '\n' ∉ (registry_line st l).2.path := by
  unfold registry_line
  split_ifs with c1 c2 c3
  · exact ⟨h1, h2⟩
  · refine ⟨h1, ?_, by simp [Workspace.fresh]⟩
    intro hm
    exact hl (List.mem_of_mem_drop (List.mem_of_mem_take hm))
  · refine ⟨?_, ?_, by simp [Workspace.fresh]⟩
    · intro w hw
      rcases List.mem_append.1 hw with hw | hw
      · exact h1 w hw
      · rw [List.mem_singleton.1 hw]; exact ⟨c3, h2⟩
    · intro hm
      exact hl (List.mem_of_mem_drop (List.mem_of_mem_take hm))
  · cases find '=' l with
    | none => exact ⟨h1, h2⟩
    | some eq =>
      simp only
      split_ifs
      · exact ⟨h1, h2.1, fun hm => hl (List.mem_of_mem_drop hm)⟩
      · exact ⟨h1, h2⟩

theorem registry_fold_registrable (lines : List Str) (st : List Workspace × Workspace)
    (hl : ∀ l ∈ lines, '\n' ∉ l) (h1 : ∀ w ∈ st.1, Registrable w)
    (h2 : '\n' ∉ st.2.name ∧ '\n' ∉ st.2.path) :
    (∀ w ∈ (lines.foldl registry_line st).1, Registrable w) ∧
      '\n' ∉ (lines.foldl registry_line st).2.name ∧
      '\n' ∉ (lines.foldl registry_line st).2.path := by
  induction lines generalizing st with
  | nil => exact ⟨h1, h2⟩
  | cons l ls ih =>
    obtain ⟨a, b⟩ := registry_line_registrable st l (hl l (List.mem_cons_self _ _)) h1 h2
    exact ih _ (fun x hx => hl x (List.mem_cons_of_mem _ hx)) a b

theorem registry_entries_registrable (lines : List Str) (hl : ∀ l ∈ lines, '\n' ∉ l) :
    ∀ w ∈ registry_entries lines, Registrable w := by
  obtain ⟨a, b⟩ := registry_fold_registrable lines ([], Workspace.fresh) hl
    (fun _ h => by cases h) (by simp [Workspace.fresh])
  unfold registry_entries
  simp only
  split_ifs with c
  · exact a
  · intro w hw
    rcases List.mem_append.1 hw with hw | hw
    · exact a w hw
    · rw [List.mem_singleton.1 hw]; exact ⟨c, b⟩

/-- Every record `load_workspaces` returns has a name that is not empty, and
no newline in its name and its path. -/
theorem load_workspaces_registrable (home : Option Str) (fs : FileSystem) :
    ∀ w ∈ load_workspaces home fs, Registrable w := by
  intro w hw
  unfold load_workspaces at hw
  cases hc : fs (ws_config home) with
  | none => rw [hc] at hw; cases hw
  | some content =>
    rw [hc] at hw
    simp only [List.mem_map] at hw
    obtain ⟨e, he, rfl⟩ := hw
    have hr := registry_entries_registrable _ (getlines_no_newline content) e he
    unfold Registrable at hr ⊢
    rw [(load_config_name_path e fs).1, (load_config_name_path e fs).2]
    exact hr

/-- What `cmd_build` does when `chdir` succeeds: for a registered workspace
whose build command is empty, whose root is a directory and holds none of the
build descriptors, it returns 1, passes no command to `system`, whatever
`system` would do, and leaves every file and directory as it was. -/
theorem cmd_build_unconfigured (env : ProcEnv) (sys : System) (args : List Str)
    (world : World) (i : Nat) (w : Workspace)
    (hfound : find_ws (load_workspaces env.home world.files) (target_name env args) = some i)
    (hw : (load_workspaces env.home world.files).get? i = some w)
    (hb : w.build_cmd = [])
    (hroot : world.is_directory (c_str w.path) = true)
    (hnone : ∀ d ∈ build_descriptors,
      world.path_exists (c_str w.path ++ "/".toList ++ d) = false) :
    cmd_build env sys args world = { status := 1, world := world, commands := [] } := by
  have hname : target_name env args ≠ [] := by
    obtain ⟨⟨w', hw', hn⟩, _⟩ := (find_ws_some_iff _ _ _).1 hfound
    rw [← hn]
    exact (load_workspaces_registrable env.home world.files w' (List.get?_mem hw')).1
  have h1 := hnone "Makefile".toList (by simp [build_descriptors])
  have h2 := hnone "CMakeLists.txt".toList (by simp [build_descriptors])
  have h3 := hnone "Cargo.toml".toList (by simp [build_descriptors])
  have h4 := hnone "package.json".toList (by simp [build_descriptors])
  have h5 := hnone "setup.py".toList (by simp [build_descriptors])
  unfold cmd_build
  rw [if_neg hname, hfound]
  simp only [hw, hroot, if_true, relative_to, hb, ne_eq, not_true_eq_false, if_false,
    h1, h2, h3, h4, h5, Bool.false_eq_true]

theorem cmd_build_unconfigured_witness :
    (find_ws (load_workspaces demo_env.home registry_world.files)
        (target_name demo_env ["b".toList]) = some 0 ∧
      (load_workspaces demo_env.home registry_world.files).get? 0 = some registry_record ∧
      registry_record.build_cmd = [] ∧
      registry_world.is_directory (c_str registry_record.path) = true ∧
      ∀ d ∈ build_descriptors,
        registry_world.path_exists (c_str registry_record.path ++ "/".toList ++ d) = false) ∧
    cmd_build demo_env (fun _ _ world => (0, world)) ["b".toList] registry_world =
      { status := 1, world := registry_world, commands := [] } :=
  ⟨⟨by decide, rfl, by decide, by decide, by decide⟩,
    cmd_build_unconfigured demo_env (fun _ _ world => (0, world)) ["b".toList] registry_world 0
      registry_record (by decide) rfl (by decide) (by decide) (by decide)⟩

theorem setenv_congr (v1 v2 : Str → Option Str) (name value k : Str) (h : v1 k = v2 k) :
    setenv v1 name value k = setenv v2 name value k := by
  unfold setenv
  by_cases hc : c_str name = [] ∨ '=' ∈ c_str name
  · rw [if_pos hc, if_pos hc]; exact h
  · rw [if_neg hc, if_neg hc]
    show (if k = c_str name then some (c_str value) else v1 k) =
      (if k = c_str name then some (c_str value) else v2 k)
    rw [h]

theorem foldl_setenv_congr (es : List (Str × Str)) (v1 v2 : Str → Option Str) (k : Str)
    (h : v1 k = v2 k) :
    es.foldl (fun vars e => setenv vars e.1 e.2) v1 k =
      es.foldl (fun vars e => setenv vars e.1 e.2) v2 k := by
  induction es generalizing v1 v2 with
  | nil => exact h
  | cons e rest ih => exact ih _ _ (setenv_congr v1 v2 e.1 e.2 k h)

theorem setenv_other (v : Str → Option Str) (name value k : Str) (h : c_str name ≠ k) :
    setenv v name value k = v k := by
  unfold setenv
  by_cases hc : c_str name = [] ∨ '=' ∈ c_str name
  · rw [if_pos hc]
  · rw [if_neg hc]
    show (if k = c_str name then some (c_str value) else v k) = v k
    rw [if_neg (fun e => h e.symm)]

theorem setenv_same (v : Str → Option Str) (name value : Str)
    (h : c_str name ≠ [] ∧ '=' ∉ c_str name) :
    setenv v name value (c_str name) = some (c_str value) := by
  unfold setenv
  have hc : ¬ (c_str name = [] ∨ '=' ∈ c_str name) := by
    intro hc
    rcases hc with hc | hc
    · exact h.1 hc
    · exact h.2 hc
  rw [if_neg hc]
  simp

theorem foldl_setenv_not_mem (es : List (Str × Str)) (v : Str → Option Str) (k : Str)
    (h : ∀ e ∈ es, c_str e.1 ≠ k) :
    es.foldl (fun vars e => setenv vars e.1 e.2) v k = v k := by
  induction es generalizing v with
  | nil => rfl
  | cons e rest ih =>
    rw [List.foldl_cons, ih _ (fun x hx => h x (List.mem_cons_of_mem _ hx)),
      setenv_other v e.1 e.2 k (h e (List.mem_cons_self _ _))]

theorem foldl_setenv_mem (es : List (Str × Str)) (v1 v2 : Str → Option Str) (k : Str)
    (hk : k ≠ [] ∧ '=' ∉ k) (h : ∃ e ∈ es, c_str e.1 = k) :
    es.foldl (fun vars e => setenv vars e.1 e.2) v1 k =
      es.foldl (fun vars e => setenv vars e.1 e.2) v2 k := by
  induction es generalizing v1 v2 with
  | nil => obtain ⟨e, he, _⟩ := h; cases he
  | cons e rest ih =>
    by_cases hr : ∃ x ∈ rest, c_str x.1 = k
    · exact ih _ _ hr
    · obtain ⟨x, hx, hxk⟩ := h
      rcases List.mem_cons.1 hx with rfl | hx
      · subst hxk
        exact foldl_setenv_congr rest _ _ _
          ((setenv_same v1 x.1 x.2 hk).trans (setenv_same v2 x.1 x.2 hk).symm)
      · exact absurd ⟨x, hx, hxk⟩ hr

/-- C20 (as written): for the record `demo_workspace`, started without any
environment variable, the isolated child has `WS_ISOLATED` set to `1` and
the path that is not isolated has no such variable, so the two execution
contexts are not the same. -/
theorem isolated_context_counterexample :
    (isolated_context demo_workspace (fun _ => none)).vars "WS_ISOLATED".toList =
        some "1".toList ∧
    (plain_context demo_workspace (fun _ => none)).vars "WS_ISOLATED".toList = none ∧
    isolated_context demo_workspace (fun _ => none) ≠
      plain_context demo_workspace (fun _ => none) := by
  have h1 : (isolated_context demo_workspace (fun _ => none)).vars "WS_ISOLATED".toList =
      some "1".toList := by decide
  have h2 : (plain_context demo_workspace (fun _ => none)).vars "WS_ISOLATED".toList =
      none := by decide
  refine ⟨h1, h2, fun h => ?_⟩
  rw [h, h2] at h1
  cases h1

/-- C20 (amended): the isolated child and the path that is not isolated
prepare the same working directory, the same prompt and the same init
commands, and the same value for every environment variable other than
`WS_ISOLATED`, and for `WS_ISOLATED` too when an entry of `env_vars` sets it;
when no entry of `env_vars` sets it, `WS_ISOLATED` is `1` in the isolated
child and as it was at the start on the other path. -/
theorem isolated_context_same_but_marker (w : Workspace) (vars : Str → Option Str) :
    (isolated_context w vars).cwd = (plain_context w vars).cwd ∧
    (isolated_context w vars).prompt = (plain_context w vars).prompt ∧
    (isolated_context w vars).init_cmds = (plain_context w vars).init_cmds ∧
    (∀ k, (k ≠ "WS_ISOLATED".toList ∨ ∃ e ∈ w.env_vars.entries, c_str e.1 = k) →
      (isolated_context w vars).vars k = (plain_context w vars).vars k) ∧
    ((∀ e ∈ w.env_vars.entries, c_str e.1 ≠ "WS_ISOLATED".toList) →
      (isolated_context w vars).vars "WS_ISOLATED".toList = some "1".toList ∧
      (plain_context w vars).vars "WS_ISOLATED".toList = vars "WS_ISOLATED".toList) := by
  refine ⟨rfl, rfl, rfl, ?_, ?_⟩
  · intro k hk
    unfold isolated_context plain_context
    simp only
    apply setenv_congr
    unfold setenv_all
    by_cases hm : ∃ e ∈ w.env_vars.entries, c_str e.1 = k
    · by_cases hiso : k = "WS_ISOLATED".toList
      · exact foldl_setenv_mem _ _ _ k (by rw [hiso]; decide) hm
      · apply foldl_setenv_congr
        exact setenv_other _ _ _ k (fun h => hiso h.symm)
    · rcases hk with hk | hk
      · apply foldl_setenv_congr
        exact setenv_other _ _ _ k (fun h => hk h.symm)
      · exact absurd hk hm
  · intro hno
    unfold isolated_context plain_context
    simp only
    unfold setenv_all
    constructor
    · rw [setenv_other _ _ _ _ (by decide), foldl_setenv_not_mem _ _ _ hno]
      exact setenv_same _ "WS_ISOLATED".toList "1".toList (by decide)
    · rw [setenv_other _ _ _ _ (by decide), foldl_setenv_not_mem _ _ _ hno,
        setenv_other _ _ _ _ (by decide), setenv_other _ _ _ _ (by decide),
        setenv_other _ _ _ _ (by decide)]

theorem isolated_context_same_but_marker_witness :
    ("CC".toList ≠ "WS_ISOLATED".toList ∨
      ∃ e ∈ demo_workspace.env_vars.entries, c_str e.1 = "CC".toList) ∧
    (isolated_context demo_workspace (fun _ => none)).vars "CC".toList =
      (plain_context demo_workspace (fun _ => none)).vars "CC".toList ∧
    (∀ e ∈ demo_workspace.env_vars.entries, c_str e.1 ≠ "WS_ISOLATED".toList) ∧
    (isolated_context demo_workspace (fun _ => none)).vars "WS_ISOLATED".toList =
      some "1".toList :=
  ⟨by decide,
    (isolated_context_same_but_marker demo_workspace (fun _ => none)).2.2.2.1 "CC".toList
      (by decide),
    by decide,
    ((isolated_context_same_but_marker demo_workspace (fun _ => none)).2.2.2.2
      (by decide)).1⟩

/-- The function `load_config` reads nothing but the configuration file of
the workspace. -/
theorem load_config_congr (w : Workspace) {fs1 fs2 : FileSystem}
    (h : fs1 w.cfg_path = fs2 w.cfg_path) : w.load_config fs1 = w.load_config fs2 := by
  unfold Workspace.load_config ConfigParser.load
  rw [h]

/-- A record `load_workspaces` returns is what `load_config` makes of a fresh
record with its name and its path. -/
theorem load_workspaces_fixed (home : Option Str) (fs : FileSystem) :
    ∀ b ∈ load_workspaces home fs, ((named b.name b.path).load_config fs).2 = b := by
  intro b hb
  unfold load_workspaces at hb
  cases hc : fs (ws_config home) with
  | none => rw [hc] at hb; cases hb
  | some content =>
    rw [hc] at hb
    simp only [List.mem_map] at hb
    obtain ⟨e, he, rfl⟩ := hb
    rw [(load_config_name_path e fs).1, (load_config_name_path e fs).2,
      ← registry_entries_named _ e he]

theorem registry_entries_text (ws : List Workspace) (h : ∀ w ∈ ws, Registrable w) :
    registry_entries (getlines (registry_text ws)) =
      ws.map (fun w => named w.name w.path) := by
  rw [registry_text_eq, getlines_unlines (registry_lines_no_newline ws
    (fun w hw => (h w hw).2)), registry_entries_lines ws (fun w hw => (h w hw).1)]

/-- From a registry file written for records that the file gives back,
`load_workspaces` returns for each of them what `load_config` makes of a
fresh record with its name and its path. -/
theorem load_workspaces_of_registry (home : Option Str) (fs : FileSystem)
    (ws : List Workspace) (hfile : fs (ws_config home) = some (registry_text ws))
    (h : ∀ w ∈ ws, Registrable w) :
    load_workspaces home fs =
      ws.map (fun w => ((named w.name w.path).load_config fs).2) := by
  unfold load_workspaces
  rw [hfile]
  simp only
  rw [registry_entries_text ws h, List.map_map]
  rfl

/-- The function `load_config` on a fresh record with the name and the path of
`w`, when the configuration file holds what `save_config` writes for `w`. -/
theorem load_config_saved (w : Workspace) (fs : FileSystem)
    (h : fs w.cfg_path = some w.save_config_store.save_text) :
    (named w.name w.path).load_config fs =
      (true, (named w.name w.path).assign_fields
        (ConfigParser.empty.load_lines (getlines w.save_config_store.save_text))) := by
  have e1 : (named w.name w.path).cfg_path = w.cfg_path := rfl
  have e2 : (named w.name w.path).config = ConfigParser.empty := rfl
  unfold Workspace.load_config ConfigParser.load
  rw [e1, e2, h]

/-- A scalar key is read back from the reloaded store as `save_config` has
written it when the value written under this key is storable. -/
theorem reload_find_key {w : Workspace} (hcfg : w.config = ConfigParser.empty)
    (hsafe : LineSafe w) {K : Str} (hK : K ∈ scalar_keys)
    (hv : ∀ e ∈ scalar_entries w, e.1 = K → Storable e.2) :
    (ConfigParser.empty.load_lines (getlines w.save_config_store.save_text)).data.find K =
      lastWrite K (scalar_writes w) := by
  obtain ⟨h1, h2, h3, h4⟩ := scalar_keys_no_list_prefix K hK
  rw [← lastWrite_scalar_key hK]
  apply reload_find hcfg
  apply faithful_save_config_writes hsafe h1
  intro e he hk
  rcases save_config_write_cases he with h | h | h | h | h
  · exact hv e (mem_scalar_writes h) hk
  · have := env_write_starts h
    rw [hk, h1] at this; cases this
  · have := list_write_starts h
    rw [hk, h2] at this; cases this
  · have := list_write_starts h
    rw [hk, h3] at this; cases this
  · have := list_write_starts h
    rw [hk, h4] at this; cases this

/-- The values `save_config` writes under the keys `lang`, `display_name` and
`isolated`. -/
theorem scalar_entry_key {w : Workspace} {e : Str × Str} (he : e ∈ scalar_entries w) :
    (e.1 = "lang".toList → e.2 = w.lang) ∧
      (e.1 = "display_name".toList → e.2 = w.display_name) ∧
      (e.1 = "isolated".toList →
        e.2 = if w.isolated then "true".toList else "false".toList) := by
  simp only [scalar_entries, List.mem_cons, List.mem_singleton, List.not_mem_nil,
    or_false] at he
  rcases he with h | h | h | h | h | h | h | h | h | h | h <;> subst h <;>
    refine ⟨?_, ?_, ?_⟩ <;> intro hk <;> first | rfl | simp at hk

/-- C21 (as written): with an `execlp` that fails, `cmd_enter` returns 0 for
the workspace `b` of `registry_world`, which is not isolated, and 127 for
the workspace `b` of `isolated_world`, which is; in neither case 1. Both
workspaces are registered and their path exists. -/
theorem cmd_enter_exec_failure_counterexample :
    find_ws (load_workspaces demo_env.home registry_world.files) "b".toList = some 0 ∧
    registry_world.path_exists registry_record.path = true ∧
    registry_record.isolated = false ∧
    cmd_enter demo_env (no_shell false) ["b".toList] registry_world = Entered.returned 0 ∧
    find_ws (load_workspaces demo_env.home isolated_world.files) "b".toList = some 0 ∧
    isolated_world.path_exists isolated_record.path = true ∧
    isolated_record.isolated = true ∧
    cmd_enter demo_env (no_shell false) ["b".toList] isolated_world = Entered.returned 127 := by
  refine ⟨?_, ?_, ?_, ?_, ?_, ?_, ?_, ?_⟩ <;> decide

/-- C21 (amended): for a registered workspace that is isolated and whose path
exists, `cmd_enter` returns 1 when `fork` fails, and returns 127, the status
of `_exit(127)` in the child, when `fork` succeeds and `execlp` fails. -/
theorem cmd_enter_isolated_failure (env : ProcEnv) (os : Os) (name : Str) (rest : List Str)
    (world : World) (i : Nat) (w : Workspace)
    (hfound : find_ws (load_workspaces env.home world.files) name = some i)
    (hw : (load_workspaces env.home world.files).get? i = some w)
    (hpath : world.path_exists w.path = true) (hiso : w.isolated = true) :
    (os.fork_fails = true → cmd_enter env os (name :: rest) world = Entered.returned 1) ∧
    (os.fork_fails = false →
      os.exec (resolved_shell (isolated_context w env.vars)) (isolated_context w env.vars) =
        none →
      cmd_enter env os (name :: rest) world = Entered.returned 127) := by
  have hp : ¬ world.path_exists w.path = false := by rw [hpath]; decide
  constructor
  · intro hf
    unfold cmd_enter
    simp only [hfound, hw]
    rw [if_neg hp, if_pos hiso, if_pos hf]
  · intro hf he
    have hf' : ¬ os.fork_fails = true := by rw [hf]; decide
    unfold cmd_enter
    simp only [hfound, hw]
    rw [if_neg hp, if_pos hiso, if_neg hf', he]

theorem cmd_enter_isolated_failure_witness :
    (find_ws (load_workspaces demo_env.home isolated_world.files) "b".toList = some 0 ∧
      (load_workspaces demo_env.home isolated_world.files).get? 0 = some isolated_record ∧
      isolated_world.path_exists isolated_record.path = true ∧
      isolated_record.isolated = true ∧ (no_shell true).fork_fails = true ∧
      (no_shell false).fork_fails = false ∧
      (no_shell false).exec (resolved_shell (isolated_context isolated_record demo_env.vars))
        (isolated_context isolated_record demo_env.vars) = none) ∧
    cmd_enter demo_env (no_shell true) ["b".toList] isolated_world = Entered.returned 1 ∧
    cmd_enter demo_env (no_shell false) ["b".toList] isolated_world = Entered.returned 127 :=
  ⟨⟨by decide, rfl, by decide, by decide, rfl, rfl, rfl⟩,
    (cmd_enter_isolated_failure demo_env (no_shell true) "b".toList [] isolated_world 0
      isolated_record (by decide) rfl (by decide) (by decide)).1 rfl,
    (cmd_enter_isolated_failure demo_env (no_shell false) "b".toList [] isolated_world 0
      isolated_record (by decide) rfl (by decide) (by decide)).2 rfl rfl⟩

/-- C22: for a key that is none of `display_name`, `description`,
`build_cmd`, `run_cmd`, `test_cmd`, `clean_cmd` and `isolated` and does not
start with `env.`, `cmd_config` returns 1 in the get form and in the set
form, for a registered workspace as for any other name, and leaves every
file, the configuration file and the registry file among them, and every
directory as it was. -/
theorem cmd_config_unknown_key (env : ProcEnv) (name key : Str) (world : World)
    (hkey : key ∉ config_keys) (henv : starts_with "env.".toList key = false) :
    cmd_config env [name, key] world = (1, world) ∧
    ∀ (value : Str) (more : List Str),
      cmd_config env (name :: key :: value :: more) world = (1, world) := by
  simp only [config_keys, List.mem_cons, List.mem_singleton, List.not_mem_nil, or_false,
    not_or] at hkey
  obtain ⟨k1, k2, k3, k4, k5, k6, k7⟩ := hkey
  have hget : ∀ w : Workspace, config_get w key = none := by
    intro w
    unfold config_get
    rw [if_neg k1, if_neg k2, if_neg k3, if_neg k4, if_neg k5, if_neg k6, if_neg k7, henv]
    rfl
  have hset : ∀ (w : Workspace) (value : Str), config_set w key value = none := by
    intro w value
    unfold config_set
    rw [if_neg k1, if_neg k2, if_neg k3, if_neg k4, if_neg k5, if_neg k6, if_neg k7, henv]
    rfl
  constructor
  · unfold cmd_config
    simp only
    cases find_ws (load_workspaces env.home world.files) name with
    | none => rfl
    | some i =>
      simp only
      cases (load_workspaces env.home world.files).get? i with
      | none => rfl
      | some w => simp only [hget]
  · intro value more
    unfold cmd_config
    simp only
    cases find_ws (load_workspaces env.home world.files) name with
    | none => rfl
    | some i =>
      simp only
      cases (load_workspaces env.home world.files).get? i with
      | none => rfl
      | some w => simp only [hset]

theorem cmd_config_unknown_key_witness :
    ("lang".toList ∉ config_keys ∧ starts_with "env.".toList "lang".toList = false ∧
      find_ws (load_workspaces demo_env.home registry_world.files) "b".toList = some 0) ∧
    cmd_config demo_env ["b".toList, "lang".toList] registry_world = (1, registry_world) ∧
    cmd_config demo_env ["b".toList, "lang".toList, "go".toList] registry_world =
      (1, registry_world) :=
  ⟨⟨by decide, by decide, by decide⟩,
    (cmd_config_unknown_key demo_env "b".toList "lang".toList registry_world (by decide)
      (by decide)).1,
    (cmd_config_unknown_key demo_env "b".toList "lang".toList registry_world (by decide)
      (by decide)).2 "go".toList []⟩

/-- The line `save` writes for an entry with a safe key is stored under this
key, with the value trimmed and stripped of quotes. -/
theorem parse_entry_line_safe {k : Str} (hk : SafeKey k) (v : Str) :
    ConfigParser.parse_line (entry_line (k, v)) =
      some (k, ConfigParser.strip_quotes (ConfigParser.trim v)) := by
  by_cases hne : k = []
  · subst hne
    have hsep : IsSeparator [] ':' (' ' :: v) := ⟨by simp, Or.inl rfl⟩
    have hc : (ConfigParser.trim ([] ++ ':' :: (' ' :: v))).head? ≠ some '#' := by
      have e : ([] : Str) ++ ':' :: (' ' :: v) = [':'] ++ (' ' :: v) := rfl
      have ht : Tight [':'] := by
        constructor <;> intro x hx <;> simp at hx <;> subst hx <;> decide
      rw [e, trim_append_of_tight (by simp) ht]
      simp
    have h := parse_line_split hsep hc
    rw [entry_line_eq, h, trim_space_cons]
    rfl
  · exact parse_entry_line_nice ⟨hne, hk.1, hk.2.1, hk.2.2.1, hk.2.2.2⟩ v

/-- An entry with a safe key and a storable value is faithful to every
key. -/
theorem faithful_of_safe {K : Str} {e : Str × Str} (hk : SafeKey e.1) (hv : Storable e.2) :
    Faithful K e := by
  refine ⟨hk.2.1, hv.1, e.1, _, parse_entry_line_safe hk e.2, Iff.rfl, fun _ => ?_⟩
  show ConfigParser.strip_quotes (ConfigParser.trim e.2) = e.2
  rw [hv.2.1, strip_quotes_not_quoted hv.2.2]

/-- C23: a store in which every key has no `:`, no newline, no leading or
trailing whitespace and no `#` at its start, and every value has no newline,
no leading or trailing whitespace and no pair of double quotes around it, is
read back from the file `save` writes, into an empty store, as the same
store; a store with the key `env.A:B` and a store with the value `"x"` in
quotes are read back as other stores. -/
theorem config_store_round_trip :
    (∀ (S : ConfigParser) (fs : FileSystem) (path : Str),
      (∀ e ∈ S.data.entries, SafeKey e.1 ∧ Storable e.2) →
      ConfigParser.empty.load (S.save fs path) path = (true, S)) ∧
    (ConfigParser.empty.load
        ((ConfigParser.empty.set "env.A:B".toList "v".toList).save FileSystem.none
          "/c".toList) "/c".toList).2 ≠
      ConfigParser.empty.set "env.A:B".toList "v".toList ∧
    (ConfigParser.empty.load
        ((ConfigParser.empty.set "k".toList "\"x\"".toList).save FileSystem.none
          "/c".toList) "/c".toList).2 ≠
      ConfigParser.empty.set "k".toList "\"x\"".toList := by
  refine ⟨?_, by decide, by decide⟩
  intro S fs path h
  unfold ConfigParser.save
  rw [load_write]
  congr 1
  apply configParser_ext_find
  intro K
  rw [find_load_save S ConfigParser.empty K
    (fun e he => faithful_of_safe (h e he).1 (h e he).2)]
  cases S.data.find K <;> rfl

theorem config_store_round_trip_witness :
    (∀ e ∈ ((ConfigParser.empty.set "env.A".toList "B C".toList).set [] "x: y".toList).data.entries,
      SafeKey e.1 ∧ Storable e.2) ∧
    ConfigParser.empty.load
        (((ConfigParser.empty.set "env.A".toList "B C".toList).set [] "x: y".toList).save
          FileSystem.none "/c".toList) "/c".toList =
      (true, (ConfigParser.empty.set "env.A".toList "B C".toList).set [] "x: y".toList) :=
  ⟨by decide, config_store_round_trip.1 _ _ _ (by decide)⟩

theorem strLt_append_left (p a b : Str) : strLt (p ++ a) (p ++ b) = strLt a b := by
  induction p with
  | nil => rfl
  | cons c cs ih => simp [strLt, ih]

theorem strLt_append_right {a b : Str} (h : strLt a b = true) (c : Str) :
    strLt a (b ++ c) = true := by
  induction a generalizing b with
  | nil =>
    cases b with
    | nil => simp [strLt] at h
    | cons y ys => rfl
  | cons x xs ih =>
    cases b with
    | nil => simp [strLt] at h
    | cons y ys =>
      simp only [List.cons_append, strLt] at h ⊢
      split_ifs at h ⊢ with h1 h2
      · rfl
      · exact ih h

theorem strLt_proper_prefix (a : Str) {c : Str} (hc : c ≠ []) : strLt a (a ++ c) = true := by
  have h := strLt_append_left a [] c
  rw [List.append_nil] at h
  rw [h]
  cases c with
  | nil => exact absurd rfl hc
  | cons y ys => rfl

theorem strLt_digit {a b : Nat} (hab : a < b) (hb : b < 10) (r1 r2 : Str) :
    strLt (Char.ofNat (48 + a) :: r1) (Char.ofNat (48 + b) :: r2) = true := by
  have ha : a < 10 := by omega
  simp only [strLt, digit_toNat ha, digit_toNat hb]
  rw [if_pos (by omega)]

/-- The digits of 0 come before the digits of every other number. -/
theorem strLt_to_string_zero (j : Nat) (hj : 1 ≤ j) :
    strLt (to_string 0) (to_string j) = true := by
  induction j using Nat.strong_induction_on with
  | _ j ih =>
    by_cases h : j < 10
    · rw [to_string_lt (by omega : 0 < 10), to_string_lt h]
      exact strLt_digit (by omega) h _ _
    · rw [to_string_ge (by omega : 10 ≤ j)]
      exact strLt_append_right (ih (j / 10) (by omega) (by omega)) _

/-- The digits of 1 come before the digits of every number from 2 on. -/
theorem strLt_to_string_one (j : Nat) (hj : 2 ≤ j) :
    strLt (to_string 1) (to_string j) = true := by
  induction j using Nat.strong_induction_on with
  | _ j ih =>
    by_cases h : j < 10
    · rw [to_string_lt (by omega : 1 < 10), to_string_lt h]
      exact strLt_digit (by omega) h _ _
    · rw [to_string_ge (by omega : 10 ≤ j)]
      by_cases hq : j / 10 = 1
      · rw [hq]
        exact strLt_proper_prefix _ (by simp)
      · exact strLt_append_right (ih (j / 10) (by omega) (by omega)) _

/-- The digits of 10 come before the digits of every number from 2 on other
than 10. -/
theorem strLt_to_string_ten (j : Nat) (hj : 2 ≤ j) (hne : j ≠ 10) :
    strLt (to_string 10) (to_string j) = true := by
  induction j using Nat.strong_induction_on with
  | _ j ih =>
    have e10 : to_string 10 = [Char.ofNat (48 + 1), Char.ofNat (48 + 0)] := by decide
    by_cases h : j < 10
    · rw [e10, to_string_lt h]
      exact strLt_digit (by omega) h _ _
    · rw [to_string_ge (by omega : 10 ≤ j)]
      by_cases hq : j / 10 = 1
      · rw [hq, e10, to_string_lt (by omega : 1 < 10)]
        show strLt [Char.ofNat (48 + 1), Char.ofNat (48 + 0)]
          [Char.ofNat (48 + 1), Char.ofNat (48 + j % 10)] = true
        have h2 := strLt_append_left [Char.ofNat (48 + 1)] [Char.ofNat (48 + 0)]
          [Char.ofNat (48 + j % 10)]
        simp only [List.singleton_append] at h2
        rw [h2]
        exact strLt_digit (by omega) (by omega) _ _
      · by_cases hq10 : j / 10 = 10
        · rw [hq10]
          exact strLt_proper_prefix _ (by simp)
        · exact strLt_append_right (ih (j / 10) (by omega) (by omega) hq10) _

theorem list_writes_append (pfx : Str) (i : Nat) (xs ys : List Str) :
    list_writes pfx i (xs ++ ys) =
      list_writes pfx i xs ++ list_writes pfx (i + xs.length) ys := by
  induction xs generalizing i with
  | nil => rfl
  | cons x xs ih =>
    show (pfx ++ to_string i, x) :: list_writes pfx (i + 1) (xs ++ ys) =
      (pfx ++ to_string i, x) :: list_writes pfx (i + 1) xs ++
        list_writes pfx (i + (xs.length + 1)) ys
    rw [ih (i + 1)]
    have e : i + 1 + xs.length = i + (xs.length + 1) := by omega
    rw [e]
    rfl

/-- The keys of a list of at most ten entries are written in ascending
order. -/
theorem list_writes_ascending (pfx : Str) (i : Nat) (vs : List Str)
    (h : i + vs.length ≤ 10) : KeysAscending (list_writes pfx i vs) := by
  induction vs generalizing i with
  | nil => exact List.Pairwise.nil
  | cons v vs ih =>
    simp only [List.length_cons] at h
    simp only [list_writes]
    refine List.pairwise_cons.2 ⟨?_, ih (i + 1) (by omega)⟩
    intro e he
    obtain ⟨j, h1, h2, h3, -⟩ := mem_list_writes he
    show strLt (pfx ++ to_string i) e.1 = true
    rw [h3, strLt_append_left, to_string_lt (by omega : i < 10),
      to_string_lt (by omega : j < 10)]
    exact strLt_digit (by omega) (by omega) _ _

theorem lookup_eq_lastWrite {es : List (Str × Str)}
    (hd : es.Pairwise (fun a b => a.1 ≠ b.1)) (K : Str) :
    lookupEntry K es = lastWrite K es := by
  induction es with
  | nil => rfl
  | cons hd0 tl ih =>
    obtain ⟨k0, v0⟩ := hd0
    obtain ⟨h1, h2⟩ := List.pairwise_cons.1 hd
    by_cases hk : k0 = K
    · have hn : lastWrite K tl = none := by
        apply lastWrite_none_of_keys
        intro e he hke
        exact h1 e he (by rw [hke]; exact hk)
      simp only [lookupEntry, lastWrite, hk, hn, if_true]
    · simp only [lookupEntry, lastWrite, hk, if_false, ih h2]
      cases lastWrite K tl <;> rfl

/-- A store that holds under the keys starting with `pfx` the entries of an
ascending list of such keys gives for `pfx` the values of this list, in its
order. -/
theorem get_list_of_ascending {c : ConfigParser} {pfx : Str} {E : List (Str × Str)}
    (hasc : KeysAscending E) (hpfx : ∀ e ∈ E, starts_with pfx e.1 = true)
    (h : ∀ K, starts_with pfx K = true → c.data.find K = lookupEntry K E) :
    c.get_list pfx = E.map (fun e => e.2) := by
  unfold ConfigParser.get_list
  congr 1
  apply entries_ext (keysAscending_filter _ c.data.ascending) hasc
  intro k
  rw [lookup_filter_key (fun k => starts_with pfx k)]
  by_cases hk : starts_with pfx k = true
  · simp only [hk, if_true]; exact h k hk
  · simp only [hk, if_false, Bool.false_eq_true]
    cases hl : lookupEntry k E with
    | none => rfl
    | some v => exact absurd (hpfx _ ((mem_iff_lookup hasc k v).2 hl)) hk

/-- The entries under the keys starting with `pfx`, in a store that holds
there what the loop of `save_config` assigns for `vals`, are these
assignments in some order. -/
theorem prefixed_entries_perm {c : ConfigParser} {pfx : Str} {vals : List Str}
    (h : ∀ K, starts_with pfx K = true →
      c.data.find K = lastWrite K (list_writes pfx 0 vals)) :
    (c.data.entries.filter (fun e => starts_with pfx e.1)).Perm (list_writes pfx 0 vals) := by
  rw [List.perm_ext_iff_of_nodup]
  · intro e
    obtain ⟨k, v⟩ := e
    rw [List.mem_filter, mem_iff_lookup c.data.ascending]
    constructor
    · rintro ⟨h1, h2⟩
      have h3 : c.data.find k = some v := h1
      rw [h k h2] at h3
      exact lastWrite_mem h3
    · intro h1
      have h2 : starts_with pfx k = true := list_write_starts h1
      refine ⟨?_, h2⟩
      have h3 : c.data.find k = some v := by
        rw [h k h2]; exact lastWrite_of_mem (list_writes_distinct_keys _ _ _) h1
      exact h3
  · have hasc : KeysAscending (c.data.entries.filter (fun e => starts_with pfx e.1)) :=
      keysAscending_filter _ c.data.ascending
    exact List.Pairwise.imp (fun {a b} hab heq => strLt_ne hab (congrArg Prod.fst heq)) hasc
  · exact List.Pairwise.imp (fun {a b} hab heq => hab (congrArg Prod.fst heq))
      (list_writes_distinct_keys pfx 0 vals)

/-- An entry of an ascending list whose key comes before the keys of all
other entries is the first entry. -/
theorem ascending_head {F : List (Str × Str)} (hasc : KeysAscending F) {e : Str × Str}
    (he : e ∈ F) (hmin : ∀ x ∈ F, x ≠ e → strLt e.1 x.1 = true) : ∃ tl, F = e :: tl := by
  cases F with
  | nil => cases he
  | cons hd tl =>
    by_cases h : hd = e
    · exact ⟨tl, by rw [h]⟩
    · have he' : e ∈ tl := (List.mem_cons.1 he).resolve_left (fun h' => h h'.symm)
      have h1 : strLt hd.1 e.1 = true := (List.pairwise_cons.1 hasc).1 e he'
      have h2 := hmin hd (List.mem_cons_self _ _) h
      rw [strLt_asymm h1] at h2
      cases h2

/-- In a store that holds the assignments of `save_config` for a list of
eleven or more values, the value of index 10 is the third of the list
`get_list` returns, behind the values of index 0 and 1. -/
theorem get_list_index_ten {c : ConfigParser} {pfx : Str} {a0 a1 a10 : Str}
    {mid tail : List Str} (hmid : mid.length = 8)
    (h : ∀ K, starts_with pfx K = true →
      c.data.find K = lastWrite K (list_writes pfx 0 (a0 :: a1 :: (mid ++ a10 :: tail)))) :
    ∃ rest, c.get_list pfx = a0 :: a1 :: a10 :: rest ∧ rest.Perm (mid ++ tail) := by
  have hW : list_writes pfx 0 (a0 :: a1 :: (mid ++ a10 :: tail)) =
      (pfx ++ to_string 0, a0) :: (pfx ++ to_string 1, a1) ::
        (list_writes pfx 2 mid ++ (pfx ++ to_string 10, a10) :: list_writes pfx 11 tail) := by
    simp only [list_writes]
    rw [list_writes_append, hmid]
    rfl
  have hperm := prefixed_entries_perm h
  rw [hW] at hperm
  have hasc : KeysAscending (c.data.entries.filter (fun e => starts_with pfx e.1)) :=
    keysAscending_filter _ c.data.ascending
  have hkey : ∀ x ∈ list_writes pfx 2 mid ++
      (pfx ++ to_string 10, a10) :: list_writes pfx 11 tail,
      ∃ j, 2 ≤ j ∧ x.1 = pfx ++ to_string j ∧ (j = 10 → x = (pfx ++ to_string 10, a10)) := by
    intro x hx
    rcases List.mem_append.1 hx with hx | hx
    · obtain ⟨j, h1, h2, h3, -⟩ := mem_list_writes hx
      exact ⟨j, h1, h3, fun h10 => by omega⟩
    · rcases List.mem_cons.1 hx with hx | hx
      · exact ⟨10, by omega, by rw [hx], fun _ => hx⟩
      · obtain ⟨j, h1, h2, h3, -⟩ := mem_list_writes hx
        exact ⟨j, by omega, h3, fun h10 => by omega⟩
  obtain ⟨F1, hF⟩ := ascending_head hasc (hperm.mem_iff.2 (List.mem_cons_self _ _))
    (fun x hx hne => by
      rcases List.mem_cons.1 (hperm.mem_iff.1 hx) with hx | hx
      · exact absurd hx hne
      · rcases List.mem_cons.1 hx with hx | hx
        · rw [hx, strLt_append_left]
          exact strLt_to_string_zero 1 (by omega)
        · obtain ⟨j, h1, h2, -⟩ := hkey x hx
          rw [h2, strLt_append_left]
          exact strLt_to_string_zero j (by omega))
  rw [hF] at hperm hasc
  have hperm1 := hperm.cons_inv
  have hasc1 : KeysAscending F1 := (List.pairwise_cons.1 hasc).2
  obtain ⟨F2, hF1⟩ := ascending_head hasc1 (hperm1.mem_iff.2 (List.mem_cons_self _ _))
    (fun x hx hne => by
      rcases List.mem_cons.1 (hperm1.mem_iff.1 hx) with hx | hx
      · exact absurd hx hne
      · obtain ⟨j, h1, h2, -⟩ := hkey x hx
        rw [h2, strLt_append_left]
        exact strLt_to_string_one j h1)
  rw [hF1] at hperm1 hasc1
  have hperm2 := hperm1.cons_inv
  have hasc2 : KeysAscending F2 := (List.pairwise_cons.1 hasc1).2
  obtain ⟨F3, hF2⟩ := ascending_head hasc2
    (hperm2.mem_iff.2 (List.mem_append_right _ (List.mem_cons_self _ _)))
    (fun x hx hne => by
      obtain ⟨j, h1, h2, h3⟩ := hkey x (hperm2.mem_iff.1 hx)
      rw [h2, strLt_append_left]
      exact strLt_to_string_ten j h1 (fun h10 => hne (h3 h10)))
  rw [hF2] at hperm2
  have hperm3 : F3.Perm (list_writes pfx 2 mid ++ list_writes pfx 11 tail) :=
    (hperm2.trans List.perm_middle).cons_inv
  refine ⟨F3.map (fun e => e.2), ?_, ?_⟩
  · unfold ConfigParser.get_list
    rw [hF, hF1, hF2]
    rfl
  · have := hperm3.map (fun e => e.2)
    rw [List.map_append, list_writes_map_snd, list_writes_map_snd] at this
    exact this

/-- C24 (as written): a list of one tag, ` x` with a leading space, saved
from an empty store, is not returned as it was: `load_config` returns the
tag `x`. -/
theorem list_order_after_reload_counterexample :
    padded_tag_workspace.config = ConfigParser.empty ∧
    padded_tag_workspace.tags.length ≤ 10 ∧
    (reload padded_tag_workspace FileSystem.none).2.tags = ["x".toList] ∧
    (reload padded_tag_workspace FileSystem.none).2.tags ≠ padded_tag_workspace.tags := by
  refine ⟨?_, ?_, ?_, ?_⟩ <;> decide

/-- C24 (amended): for a record saved from an empty store in which no string
contains a newline and the entries of the list have no leading or trailing
whitespace and are not wrapped in double quotes, `save_config` followed by
`load_config` returns a list of at most ten entries in its order; and of a
list of eleven or more entries it returns first the entries of index 0, 1
and 10, then the other entries in some order, the entry of index 2 among
them. -/
theorem list_order_after_reload (f : ListField) (w : Workspace) (fs : FileSystem)
    (hcfg : w.config = ConfigParser.empty) (hsafe : LineSafe w)
    (hstor : ∀ v ∈ f.get w, Storable v) :
    ((f.get w).length ≤ 10 → f.get (reload w fs).2 = f.get w) ∧
    (∀ (a0 a1 a10 : Str) (mid tail : List Str), mid.length = 8 →
      f.get w = a0 :: a1 :: (mid ++ a10 :: tail) →
      ∃ rest, f.get (reload w fs).2 = a0 :: a1 :: a10 :: rest ∧ rest.Perm (mid ++ tail)) := by
  have hfind : ∀ K, starts_with f.pfx K = true →
      (ConfigParser.empty.load_lines (getlines w.save_config_store.save_text)).data.find K =
        lastWrite K (list_writes f.pfx 0 (f.get w)) := by
    intro K hK
    rw [reload_find hcfg (faithful_for_list_key f hsafe hstor hK), lastWrite_list_key f w hK]
  rw [reload_eq]
  simp only [get_assign_fields]
  constructor
  · intro hlen
    rw [get_list_of_ascending (list_writes_ascending f.pfx 0 (f.get w) (by omega))
      (fun e he => list_write_starts he)
      (fun K hK => by
        rw [hfind K hK, lookup_eq_lastWrite (list_writes_distinct_keys _ _ _)]),
      list_writes_map_snd]
  · intro a0 a1 a10 mid tail hmid hlist
    rw [hlist] at hfind
    exact get_list_index_ten hmid hfind

theorem list_order_after_reload_witness :
    (twelve_mounts_workspace.config = ConfigParser.empty ∧ LineSafe twelve_mounts_workspace ∧
      (∀ v ∈ ListField.mounts.get twelve_mounts_workspace, Storable v) ∧
      ["m2".toList, "m3".toList, "m4".toList, "m5".toList, "m6".toList, "m7".toList,
        "m8".toList, "m9".toList].length = 8) ∧
    (∃ rest, ListField.mounts.get (reload twelve_mounts_workspace FileSystem.none).2 =
        "m0".toList :: "m1".toList :: "m10".toList :: rest ∧
      rest.Perm (["m2".toList, "m3".toList, "m4".toList, "m5".toList, "m6".toList,
        "m7".toList, "m8".toList, "m9".toList] ++ ["m11".toList])) ∧
    (reload twelve_mounts_workspace FileSystem.none).2.mounts =
      ["m0".toList, "m1".toList, "m10".toList, "m11".toList, "m2".toList, "m3".toList,
        "m4".toList, "m5".toList, "m6".toList, "m7".toList, "m8".toList, "m9".toList] :=
  ⟨⟨by decide, by decide, by decide, rfl⟩,
    (list_order_after_reload ListField.mounts twelve_mounts_workspace FileSystem.none
      (by decide) (by decide) (by decide)).2 "m0".toList "m1".toList "m10".toList
      ["m2".toList, "m3".toList, "m4".toList, "m5".toList, "m6".toList, "m7".toList,
        "m8".toList, "m9".toList] ["m11".toList] rfl rfl,
    by decide⟩

/-- An entry with a safe key and a value without newline is faithful to a
key when its value is storable in case it has this key. -/
theorem faithful_of_safe_key {K : Str} {e : Str × Str} (hk : SafeKey e.1) (hv : '\n' ∉ e.2)
    (hK : e.1 = K → Storable e.2) : Faithful K e := by
  refine ⟨hk.2.1, hv, e.1, _, parse_entry_line_safe hk e.2, Iff.rfl, fun h => ?_⟩
  obtain ⟨-, h1, h2⟩ := hK h
  show ConfigParser.strip_quotes (ConfigParser.trim e.2) = e.2
  rw [h1, strip_quotes_not_quoted h2]

theorem mem_of_mem_trim {x : Char} {s : Str} (h : x ∈ ConfigParser.trim s) : x ∈ s := by
  obtain ⟨a, b, -, -, hs⟩ := trim_spec s
  rw [hs]
  exact List.mem_append_left _ (List.mem_append_right _ h)

theorem mem_of_mem_strip_quotes {x : Char} {s : Str} (h : x ∈ ConfigParser.strip_quotes s) :
    x ∈ s := by
  unfold ConfigParser.strip_quotes at h
  split_ifs at h
  · exact List.mem_of_mem_drop (List.mem_of_mem_take h)
  · exact h

theorem head_trim {s : Str} {c : Char} (h : (ConfigParser.trim s).head? = some c) :
    (s.dropWhile isspace).head? = some c := by
  unfold ConfigParser.trim at h
  obtain ⟨b, -, hb⟩ := rdropWhile_decomp (s.dropWhile isspace)
  rw [hb]
  cases hr : (s.dropWhile isspace).rdropWhile isspace with
  | nil => rw [hr] at h; cases h
  | cons y ys =>
    rw [hr] at h
    exact h

/-- What `load` stores for a line without newline: a safe key and a value
without newline. -/
theorem parse_line_safe {raw k v : Str} (h : ConfigParser.parse_line raw = some (k, v))
    (hraw : '\n' ∉ raw) : SafeKey k ∧ '\n' ∉ v := by
  have hnot : ¬ Ignorable raw := by
    intro hi
    rw [(parse_line_eq_none_iff raw).2 hi] at h
    cases h
  obtain ⟨pre, sep, post, hdec, hsep, hk, hv⟩ := parse_line_some h
  have hpre : ∀ x, x ∈ pre → x ∈ raw := fun x hx => by
    rw [hdec]; exact List.mem_append_left _ hx
  have hpost : ∀ x, x ∈ post → x ∈ raw := fun x hx => by
    rw [hdec]; exact List.mem_append_right _ (List.mem_cons_of_mem _ hx)
  refine ⟨⟨?_, ?_, ?_, ?_⟩, ?_⟩
  · rw [hk]; exact fun hm => hsep.1 (mem_of_mem_trim hm)
  · rw [hk]; exact fun hm => hraw (hpre _ (mem_of_mem_trim hm))
  · rw [hk]; exact trim_trim pre
  · intro hh
    apply hnot
    right; left
    rw [hk] at hh
    have h1 := head_trim hh
    rw [hdec, trim_line (isspace_separator hsep)]
    cases hd : pre.dropWhile isspace with
    | nil => rw [hd] at h1; cases h1
    | cons y ys => rw [hd] at h1; exact h1
  · rw [hv]
    exact fun hm => hraw (hpost _ (mem_of_mem_trim (mem_of_mem_strip_quotes hm)))

/-- Loading lines without newline into a safe store gives a safe store. -/
theorem storeSafe_load_lines {c : ConfigParser} (hc : StoreSafe c) {lines : List Str}
    (hl : ∀ l ∈ lines, '\n' ∉ l) : StoreSafe (c.load_lines lines) := by
  intro e he
  rw [load_lines_eq_apply] at he
  rcases mem_apply_writes he with h | h
  · exact hc e h
  · obtain ⟨l, hl1, hl2⟩ := List.mem_filterMap.1 h
    exact parse_line_safe hl2 (hl l hl1)

theorem storeSafe_empty : StoreSafe ConfigParser.empty := by
  intro e he
  cases he

theorem safeKey_of_nice {k : Str} (h : NiceKey k) : SafeKey k :=
  ⟨h.2.1, h.2.2.1, h.2.2.2.1, h.2.2.2.2⟩

/-- Every assignment `save_config` makes for a clean record has a safe key
and a value without newline. -/
theorem save_config_writes_safe {w : Workspace} (hsafe : LineSafe w)
    (henv : ∀ e ∈ w.env_vars.entries, SafeKey ("env.".toList ++ e.1)) :
    ∀ e ∈ save_config_writes w, SafeKey e.1 ∧ '\n' ∉ e.2 := by
  intro e he
  have hlist : ∀ (pfx : Str) (vs : List Str), NiceKey pfx → (∀ x ∈ vs, x ∈ text_fields w) →
      e ∈ list_writes pfx 0 vs → SafeKey e.1 ∧ '\n' ∉ e.2 := by
    intro pfx vs hp hvs hm
    obtain ⟨j, -, -, h1, h2⟩ := mem_list_writes hm
    rw [h1]
    exact ⟨safeKey_of_nice (niceKey_list_key hp j), hsafe _ (hvs _ h2)⟩
  rcases save_config_write_cases he with h | h | h | h | h
  · obtain ⟨h1, h2, -⟩ := scalar_write_cases h
    refine ⟨safeKey_of_nice (scalar_keys_nice _ h1), ?_⟩
    rcases h2 with h2 | h2
    · exact hsafe _ h2
    · exact h2.1
  · unfold env_writes at h
    obtain ⟨x, hx, hxe⟩ := List.mem_map.1 h
    rw [← hxe]
    refine ⟨henv x hx, hsafe _ ?_⟩
    simp only [text_fields, List.mem_append, List.mem_map]
    exact Or.inl (Or.inl (Or.inl (Or.inr ⟨x, hx, rfl⟩)))
  · refine hlist _ _ list_prefixes_nice.2.1 (fun x hx => ?_) h
    simp only [text_fields, List.mem_append]
    exact Or.inl (Or.inl (Or.inr hx))
  · refine hlist _ _ list_prefixes_nice.2.2.1 (fun x hx => ?_) h
    simp only [text_fields, List.mem_append]
    exact Or.inl (Or.inr hx)
  · refine hlist _ _ list_prefixes_nice.2.2.2 (fun x hx => ?_) h
    simp only [text_fields, List.mem_append]
    exact Or.inr hx

theorem drop_env_prefix (r : Str) : ("env.".toList ++ r).drop 4 = r := rfl

/-- The loop of `load_config` over the store: an environment variable gets
the value of the last entry `env.<name>` of the list, and keeps its value
when there is none. -/
theorem load_env_fold_find (es : List (Str × Str)) (env : StrMap) (k : Str) :
    (es.foldl
        (fun env e => if starts_with "env.".toList e.1 then env.set (e.1.drop 4) e.2 else env)
        env).find k =
      match lastWrite ("env.".toList ++ k) es with
      | some v => some v
      | none => env.find k := by
  induction es generalizing env with
  | nil => rfl
  | cons e rest ih =>
    obtain ⟨k0, v0⟩ := e
    rw [List.foldl_cons, ih]
    simp only [lastWrite]
    cases lastWrite ("env.".toList ++ k) rest with
    | some v => rfl
    | none =>
      simp only
      by_cases hk : k0 = "env.".toList ++ k
      · rw [if_pos hk, hk, starts_with_append, if_pos rfl, drop_env_prefix]
        show lookupEntry k (insertEntry k v0 env.entries) = some v0
        rw [lookup_insertEntry, if_pos rfl]
      · rw [if_neg hk]
        by_cases hs : starts_with "env.".toList k0 = true
        · rw [if_pos hs]
          obtain ⟨r, hr⟩ := starts_with_elim hs
          rw [hr, drop_env_prefix]
          show lookupEntry k (insertEntry r v0 env.entries) = lookupEntry k env.entries
          rw [lookup_insertEntry, if_neg (fun h => hk (by rw [hr, h]))]
        · rw [if_neg hs]

theorem keys_distinct_of_ascending {es : List (Str × Str)} (h : KeysAscending es) :
    es.Pairwise (fun a b => a.1 ≠ b.1) :=
  List.Pairwise.imp (fun hab => strLt_ne hab) h

/-- The environment `load_config` fills from an empty one holds under a name
what the store holds under `env.<name>`. -/
theorem load_env_find (c : ConfigParser) (k : Str) :
    (Workspace.load_env c StrMap.empty).find k = c.data.find ("env.".toList ++ k) := by
  unfold Workspace.load_env
  rw [load_env_fold_find, ← lookup_eq_lastWrite (keys_distinct_of_ascending c.data.ascending)]
  show (match c.data.find ("env.".toList ++ k) with
    | some v => some v
    | none => none) = c.data.find ("env.".toList ++ k)
  cases c.data.find ("env.".toList ++ k) <;> rfl

/-- An entry of the environment after the loop of `load_config` was there
before or comes from an entry `env.<name>` of the list. -/
theorem load_env_fold_mem (es : List (Str × Str)) (env : StrMap) (x : Str × Str)
    (h : x ∈ (es.foldl
      (fun env e => if starts_with "env.".toList e.1 then env.set (e.1.drop 4) e.2 else env)
      env).entries) :
    x ∈ env.entries ∨ ∃ e ∈ es, e = ("env.".toList ++ x.1, x.2) := by
  induction es generalizing env with
  | nil => exact Or.inl h
  | cons e rest ih =>
    rw [List.foldl_cons] at h
    rcases ih _ h with h1 | ⟨e', he', h2⟩
    · by_cases hs : starts_with "env.".toList e.1 = true
      · rw [if_pos hs] at h1
        rcases mem_insertEntry h1 with h3 | h3
        · right
          refine ⟨e, List.mem_cons_self _ _, ?_⟩
          obtain ⟨r, hr⟩ := starts_with_elim hs
          rw [h3]
          show e = ("env.".toList ++ e.1.drop 4, e.2)
          rw [hr, drop_env_prefix, ← hr]
        · exact Or.inl h3
      · rw [if_neg hs] at h1
        exact Or.inl h1
    · exact Or.inr ⟨e', List.mem_cons_of_mem _ he', h2⟩

theorem get_no_newline {c : ConfigParser} (hc : StoreSafe c) (key : Str) {dflt : Str}
    (hd : '\n' ∉ dflt) : '\n' ∉ c.get key dflt := by
  unfold ConfigParser.get
  cases hf : c.data.find key with
  | none => exact hd
  | some v => exact (hc (key, v) ((mem_iff_lookup c.data.ascending key v).2 hf)).2

theorem get_list_no_newline {c : ConfigParser} (hc : StoreSafe c) (pfx : Str) :
    ∀ v ∈ c.get_list pfx, '\n' ∉ v := by
  intro v hv
  unfold ConfigParser.get_list at hv
  obtain ⟨e, he, rfl⟩ := List.mem_map.1 hv
  exact (hc e (List.mem_filter.1 he).1).2

/-- The record `load_config` fills from a safe store, for a name without
newline, is clean. -/
theorem clean_assign_fields (name path : Str) {c : ConfigParser} (hn : '\n' ∉ name)
    (hc : StoreSafe c) : Clean ((named name path).assign_fields c) := by
  have henv : ∀ e ∈ (Workspace.load_env c StrMap.empty).entries,
      SafeKey ("env.".toList ++ e.1) ∧ '\n' ∉ e.2 := by
    intro e he
    rcases load_env_fold_mem _ _ e he with h | ⟨e0, he0, h0⟩
    · cases h
    · have := hc e0 he0
      rw [h0] at this
      exact this
  refine ⟨?_, fun e he => (henv e he).1, hc⟩
  intro s hs
  have e : text_fields ((named name path).assign_fields c) =
      [name, c.get "display_name".toList name, c.get "description".toList [],
        c.get "lang".toList "generic".toList, c.get "build_cmd".toList [],
        c.get "clean_cmd".toList [], c.get "run_cmd".toList [], c.get "test_cmd".toList [],
        c.get "created".toList [], c.get "author".toList []] ++
      (Workspace.load_env c StrMap.empty).entries.map (fun e => e.1) ++
      (Workspace.load_env c StrMap.empty).entries.map (fun e => e.2) ++
      c.get_list "mount.".toList ++ c.get_list "init.".toList ++ c.get_list "tag.".toList := rfl
  rw [e] at hs
  rcases List.mem_append.1 hs with hs | hs
  · rcases List.mem_append.1 hs with hs | hs
    · rcases List.mem_append.1 hs with hs | hs
      · rcases List.mem_append.1 hs with hs | hs
        · rcases List.mem_append.1 hs with hs | hs
          · simp only [List.mem_cons, List.mem_singleton, List.not_mem_nil, or_false] at hs
            rcases hs with h | h | h | h | h | h | h | h | h | h <;> subst h <;>
              first
              | exact hn
              | exact get_no_newline hc _ hn
              | exact get_no_newline hc _ (by simp)
          · obtain ⟨x, hx, rfl⟩ := List.mem_map.1 hs
            exact fun hm => (henv x hx).1.2.1 (List.mem_append_right _ hm)
        · obtain ⟨x, hx, rfl⟩ := List.mem_map.1 hs
          exact (henv x hx).2
      · exact get_list_no_newline hc _ s hs
    · exact get_list_no_newline hc _ s hs
  · exact get_list_no_newline hc _ s hs

theorem clean_named (name path : Str) (hn : '\n' ∉ name) : Clean (named name path) := by
  refine ⟨?_, fun e he => (by cases he), storeSafe_empty⟩
  intro s hs
  have e : text_fields (named name path) = [name, [], [], [], [], [], [], [], [], []] := rfl
  rw [e] at hs
  simp only [List.mem_cons, List.mem_singleton, List.not_mem_nil, or_false] at hs
  rcases hs with h | h | h | h | h | h | h | h | h | h <;> subst h <;>
    first
    | exact hn
    | simp

/-- A record `load_workspaces` returns has only its name and its path, or is
what `load_config` fills from a safe store. -/
theorem loaded_record_cases {home : Option Str} {fs : FileSystem} {w : Workspace}
    (hw : w ∈ load_workspaces home fs) :
    '\n' ∉ w.name ∧ (w = named w.name w.path ∨
      ∃ c, StoreSafe c ∧ w = (named w.name w.path).assign_fields c) := by
  refine ⟨(load_workspaces_registrable home fs w hw).2.1, ?_⟩
  have hfix := load_workspaces_fixed home fs w hw
  cases hf : fs (named w.name w.path).cfg_path with
  | none =>
    left
    rw [load_config_missing_file _ fs hf] at hfix
    exact hfix.symm
  | some content =>
    right
    refine ⟨ConfigParser.empty.load_lines (getlines content),
      storeSafe_load_lines storeSafe_empty (getlines_no_newline content), ?_⟩
    have e : (named w.name w.path).load_config fs =
        (true, (named w.name w.path).assign_fields
          (ConfigParser.empty.load_lines (getlines content))) := by
      have e2 : (named w.name w.path).config = ConfigParser.empty := rfl
      unfold Workspace.load_config ConfigParser.load
      rw [e2, hf]
    rw [e] at hfix
    exact hfix.symm

theorem clean_of_loaded {home : Option Str} {fs : FileSystem} {w : Workspace}
    (hw : w ∈ load_workspaces home fs) : Clean w := by
  obtain ⟨hn, h | ⟨c, hc, h⟩⟩ := loaded_record_cases hw
  · rw [h]; exact clean_named _ _ hn
  · rw [h]; exact clean_assign_fields _ _ hn hc

theorem text_fields_clear (f : OptField) (w : Workspace) :
    ∀ s ∈ text_fields (f.clear w), s = [] ∨ s ∈ text_fields w := by
  intro s hs
  cases f <;>
    · dsimp only [OptField.clear, text_fields] at hs ⊢
      simp only [List.mem_append, List.mem_cons, List.mem_singleton, List.not_mem_nil,
        or_false] at hs ⊢
      rcases hs with (((((h | h | h | h | h | h | h | h | h | h) | h) | h) | h) | h) | h <;>
        first
        | exact Or.inl h
        | (right; simp only [h, true_or, or_true, eq_self_iff_true])

theorem clean_clear (f : OptField) {w : Workspace} (h : Clean w) : Clean (f.clear w) := by
  refine ⟨?_, ?_, ?_⟩
  · intro s hs
    rcases text_fields_clear f w s hs with h1 | h1
    · rw [h1]; simp
    · exact h.1 s h1
  · cases f <;> exact h.2.1
  · cases f <;> exact h.2.2

theorem clean_erase (k : Str) {w : Workspace} (h : Clean w) :
    Clean { w with env_vars := w.env_vars.erase k } := by
  have hsub : ∀ e ∈ (w.env_vars.erase k).entries, e ∈ w.env_vars.entries :=
    fun e he => (List.mem_filter.1 he).1
  refine ⟨?_, fun e he => h.2.1 e (hsub e he), h.2.2⟩
  intro s hs
  apply h.1 s
  simp only [text_fields, List.mem_append, List.mem_cons, List.mem_singleton,
    List.not_mem_nil, or_false, List.mem_map] at hs ⊢
  rcases hs with (((((hs | ⟨a, ha, h1⟩) | ⟨a, ha, h1⟩) | hs) | hs) | hs)
  · exact Or.inl (Or.inl (Or.inl (Or.inl (Or.inl hs))))
  · exact Or.inl (Or.inl (Or.inl (Or.inl (Or.inr ⟨a, hsub a ha, h1⟩))))
  · exact Or.inl (Or.inl (Or.inl (Or.inr ⟨a, hsub a ha, h1⟩)))
  · exact Or.inl (Or.inl (Or.inr hs))
  · exact Or.inl (Or.inr hs)
  · exact Or.inr hs

/-- An entry of the store of a clean record that `save_config` does not
assign stays in the configuration file, and `load` reads it back when its
value is storable. -/
theorem kept_entry_restored {w : Workspace} (hclean : Clean w) {K v : Str}
    (hv : w.config.data.find K = some v) (hstor : Storable v)
    (hnot : lastWrite K (save_config_writes w) = none) :
    (ConfigParser.empty.load_lines (getlines w.save_config_store.save_text)).data.find K =
        some v ∧
      entry_line (K, v) ∈ getlines w.save_config_store.save_text := by
  have hS : ∀ e ∈ w.save_config_store.data.entries, SafeKey e.1 ∧ '\n' ∉ e.2 := by
    intro e he
    rw [save_config_store_eq] at he
    rcases mem_apply_writes he with h | h
    · exact hclean.2.2 e h
    · exact save_config_writes_safe hclean.1 hclean.2.1 e h
  have hfind : w.save_config_store.data.find K = some v := by
    rw [save_config_store_eq, find_apply_writes, hnot]
    exact hv
  have hf : ∀ e ∈ w.save_config_store.data.entries, Faithful K e := by
    intro e he
    refine faithful_of_safe_key (hS e he).1 (hS e he).2 (fun hk => ?_)
    have h1 : w.save_config_store.data.find e.1 = some e.2 :=
      (mem_iff_lookup w.save_config_store.data.ascending e.1 e.2).1 he
    rw [hk, hfind] at h1
    cases h1
    exact hstor
  constructor
  · rw [find_load_save _ ConfigParser.empty K hf, hfind]
  · rw [save_text_eq, getlines_unlines
      (fun l hl => by
        obtain ⟨e, he, rfl⟩ := List.mem_map.1 hl
        exact entry_line_no_newline (hS e he).1.2.1 (hS e he).2)]
    exact List.mem_map.2
      ⟨(K, v), (mem_iff_lookup w.save_config_store.data.ascending K v).2 hfind, rfl⟩

theorem get_of_find {c : ConfigParser} {key dflt v : Str} (h : c.data.find key = some v) :
    c.get key dflt = v := by
  unfold ConfigParser.get
  rw [h]

theorem find_of_get_ne_nil {c : ConfigParser} {key : Str} (h : c.get key [] ≠ []) :
    c.data.find key = some (c.get key []) := by
  unfold ConfigParser.get at h ⊢
  cases hf : c.data.find key with
  | none => rw [hf] at h; exact absurd rfl h
  | some v => rfl

theorem optField_get_assign_fields (f : OptField) (w : Workspace) (c : ConfigParser) :
    f.get (w.assign_fields c) = c.get f.key [] := by
  cases f <;> rfl

/-- A field of a loaded record that is not empty is the value of its key in
the store of the record. -/
theorem loaded_field_find {home : Option Str} {fs : FileSystem} {w : Workspace}
    (hw : w ∈ load_workspaces home fs) (f : OptField) (hne : f.get w ≠ []) :
    w.config.data.find f.key = some (f.get w) := by
  obtain ⟨-, h | ⟨c, -, h⟩⟩ := loaded_record_cases hw
  · rw [h] at hne
    exact absurd (by cases f <;> rfl) hne
  · have hcfg : w.config = c := by rw [h]; rfl
    have hget : f.get w = c.get f.key [] := by
      conv_lhs => rw [h]
      exact optField_get_assign_fields f _ c
    rw [hcfg, hget]
    rw [hget] at hne
    exact find_of_get_ne_nil hne

/-- An entry of the environment of a loaded record is the entry
`env.<name>` of the store of the record. -/
theorem loaded_env_find {home : Option Str} {fs : FileSystem} {w : Workspace}
    (hw : w ∈ load_workspaces home fs) {k v : Str} (hv : w.env_vars.find k = some v) :
    w.config.data.find ("env.".toList ++ k) = some v := by
  obtain ⟨-, h | ⟨c, -, h⟩⟩ := loaded_record_cases hw
  · rw [h] at hv
    cases hv
  · have hcfg : w.config = c := by rw [h]; rfl
    have henv : w.env_vars = Workspace.load_env c StrMap.empty := by rw [h]; rfl
    rw [hcfg, ← load_env_find, ← henv]
    exact hv

theorem lastWrite_cleared (f : OptField) (w : Workspace) :
    lastWrite f.key (save_config_writes (f.clear w)) = none := by
  have hk : f.key ∈ scalar_keys := by cases f <;> decide
  rw [lastWrite_scalar_key hk]
  cases f <;>
    · simp only [scalar_writes, lastWrite_append_nonempty_write, OptField.clear, OptField.key]
      simp [lastWrite]

theorem lastWrite_erased (w : Workspace) (k : Str) :
    lastWrite ("env.".toList ++ k)
      (save_config_writes { w with env_vars := w.env_vars.erase k }) = none := by
  apply lastWrite_none_of_keys
  intro e he hk
  have hstart : starts_with "env.".toList e.1 = true := by
    rw [hk]; exact starts_with_append _ _
  rcases save_config_write_cases he with h | h | h | h | h
  · obtain ⟨h1, -⟩ := scalar_keys_no_list_prefix e.1 (scalar_write_cases h).1
    rw [hstart] at h1
    cases h1
  · unfold env_writes at h
    obtain ⟨x, hx, hxe⟩ := List.mem_map.1 h
    have hne : x.1 ≠ k := by
      have := (List.mem_filter.1 hx).2
      simpa using this
    rw [← hxe] at hk
    exact hne (List.append_cancel_left hk)
  · have h1 := list_write_starts h
    rw [hk] at h1
    cases h1
  · have h1 := list_write_starts h
    rw [hk] at h1
    cases h1
  · have h1 := list_write_starts h
    rw [hk] at h1
    cases h1

/-- What `save_config` and then `load_config` on a fresh record give for a
clean record and an entry of its store that `save_config` does not assign. -/
theorem reload_kept {w : Workspace} (fs : FileSystem) (hclean : Clean w) {K v : Str}
    (hv : w.config.data.find K = some v) (hstor : Storable v)
    (hnot : lastWrite K (save_config_writes w) = none) :
    (∃ text, (w.save_config fs).2 w.cfg_path = some text ∧
      entry_line (K, v) ∈ getlines text) ∧
    (named w.name w.path).load_config (w.save_config fs).2 =
      (true, (named w.name w.path).assign_fields
        (ConfigParser.empty.load_lines (getlines w.save_config_store.save_text))) ∧
    (ConfigParser.empty.load_lines (getlines w.save_config_store.save_text)).data.find K =
      some v := by
  obtain ⟨h1, h2⟩ := kept_entry_restored hclean hv hstor hnot
  have hfile : (w.save_config fs).2 w.cfg_path = some w.save_config_store.save_text := by
    show (fs.write w.cfg_path w.save_config_store.save_text) w.cfg_path = _
    rw [write_apply, if_pos rfl]
  exact ⟨⟨_, hfile, h2⟩, load_config_saved w _ hfile, h1⟩

theorem clear_name_path (f : OptField) (w : Workspace) :
    (f.clear w).name = w.name ∧ (f.clear w).path = w.path ∧
      (f.clear w).config = w.config := by
  cases f <;> exact ⟨rfl, rfl, rfl⟩

/-- Clearing an optional field of a loaded record and saving leaves its line
in the configuration file, and `load_config` reads the old value back when
it is storable. -/
theorem cleared_field_reload {home : Option Str} {fs : FileSystem} {w : Workspace}
    (hw : w ∈ load_workspaces home fs) (f : OptField) (hne : f.get w ≠ [])
    (hstor : Storable (f.get w)) :
    (∃ text, ((f.clear w).save_config fs).2 w.cfg_path = some text ∧
      entry_line (f.key, f.get w) ∈ getlines text) ∧
    f.get ((named w.name w.path).load_config ((f.clear w).save_config fs).2).2 = f.get w := by
  obtain ⟨hn, hp, hc⟩ := clear_name_path f w
  have hv : (f.clear w).config.data.find f.key = some (f.get w) := by
    rw [hc]; exact loaded_field_find hw f hne
  obtain ⟨h1, h2, h3⟩ := reload_kept fs (clean_clear f (clean_of_loaded hw)) hv hstor
    (lastWrite_cleared f w)
  have hcfg : (f.clear w).cfg_path = w.cfg_path := by
    unfold Workspace.cfg_path; rw [hp]
  rw [hcfg] at h1
  rw [hn, hp] at h2
  refine ⟨h1, ?_⟩
  rw [h2]
  show f.get ((named w.name w.path).assign_fields _) = _
  rw [optField_get_assign_fields, get_of_find h3]

/-- Removing an entry from the environment of a loaded record and saving
leaves its line in the configuration file, and `load_config` reads the entry
back when its value is storable. -/
theorem erased_env_reload {home : Option Str} {fs : FileSystem} {w : Workspace}
    (hw : w ∈ load_workspaces home fs) {k v : Str} (hv : w.env_vars.find k = some v)
    (hstor : Storable v) :
    (∃ text, (({ w with env_vars := w.env_vars.erase k } : Workspace).save_config fs).2
        w.cfg_path = some text ∧
      entry_line ("env.".toList ++ k, v) ∈ getlines text) ∧
    ((named w.name w.path).load_config
      (({ w with env_vars := w.env_vars.erase k } : Workspace).save_config fs).2).2.env_vars.find
        k = some v := by
  obtain ⟨h1, h2, h3⟩ := reload_kept fs (clean_erase k (clean_of_loaded hw))
    (loaded_env_find hw hv) hstor (lastWrite_erased w k)
  refine ⟨h1, ?_⟩
  have h2' : (named w.name w.path).load_config
      (({ w with env_vars := w.env_vars.erase k } : Workspace).save_config fs).2 = _ := h2
  rw [h2']
  show (Workspace.load_env _ StrMap.empty).find k = some v
  rw [load_env_find]
  exact h3

theorem config_set_clear (w : Workspace) {f : OptField} (hf : f ∈ config_fields) :
    config_set w f.key [] = some (f.clear w) := by
  simp only [config_fields, List.mem_cons, List.mem_singleton, List.not_mem_nil,
    or_false] at hf
  rcases hf with h | h | h | h <;> subst h <;> simp [config_set, OptField.key, OptField.clear]

/-- The set form of `cmd_config` with an empty value for one of the fields
it can clear, on a registered name. -/
theorem cmd_config_clear_eq {env : ProcEnv} {world : World} {name : Str} {i : Nat}
    {w : Workspace} (hfound : find_ws (load_workspaces env.home world.files) name = some i)
    (hget : (load_workspaces env.home world.files).get? i = some w) {f : OptField}
    (hf : f ∈ config_fields) :
    cmd_config env [name, f.key, []] world =
      (0,
        { world with
          files := save_workspaces env.home
            ((load_workspaces env.home world.files).set i
              ((f.clear w).save_config world.files).1)
            ((f.clear w).save_config world.files).2
          dirs := create_directories
            (create_directories
              (create_directories world.dirs ((f.clear w).path ++ "/.ws".toList))
              (parent_path (f.clear w).cfg_path))
            (parent_path (ws_config env.home)) }) := by
  unfold cmd_config
  simp only [hfound, hget, config_set_clear w hf]

/-- After `cmd_config` has cleared a field of the workspace at position `i`,
`load_workspaces` returns at this position what `load_config` makes of the
configuration file `save_config` has written for the cleared record. -/
theorem load_workspaces_after_clear {env : ProcEnv} {world : World} {name : Str} {i : Nat}
    {w : Workspace} (hfound : find_ws (load_workspaces env.home world.files) name = some i)
    (hget : (load_workspaces env.home world.files).get? i = some w) {f : OptField}
    (hf : f ∈ config_fields) :
    (load_workspaces env.home (cmd_config env [name, f.key, []] world).2.files).get? i =
      some ((named w.name w.path).load_config ((f.clear w).save_config world.files).2).2 := by
  obtain ⟨hn, hp, -⟩ := clear_name_path f w
  have hmem : w ∈ load_workspaces env.home world.files := List.get?_mem hget
  have hlt : i < (load_workspaces env.home world.files).length := by
    rcases Nat.lt_or_ge i (load_workspaces env.home world.files).length with hl | hl
    · exact hl
    · rw [List.get?_eq_none.2 hl] at hget; cases hget
  rw [cmd_config_clear_eq hfound hget hf]
  simp only
  have hall : ∀ x ∈ (load_workspaces env.home world.files).set i
      ((f.clear w).save_config world.files).1, Registrable x := by
    intro x hx
    rcases List.mem_or_eq_of_mem_set hx with h | h
    · exact load_workspaces_registrable _ _ x h
    · have hr := load_workspaces_registrable _ _ w hmem
      rw [h]
      unfold Registrable at hr ⊢
      show (f.clear w).name ≠ [] ∧ '\n' ∉ (f.clear w).name ∧ '\n' ∉ (f.clear w).path
      rw [hn, hp]
      exact hr
  rw [load_workspaces_of_registry env.home _ _
    (by unfold save_workspaces; rw [write_apply, if_pos rfl]) hall]
  simp only [List.get?_eq_getElem?]
  rw [List.getElem?_map, List.getElem?_set_self hlt]
  show some ((named (f.clear w).name (f.clear w).path).load_config _).2 = _
  rw [hn, hp]
  congr 2
  apply load_config_congr
  unfold save_workspaces
  rw [write_apply, if_neg (cfg_path_ne_ws_config _ _)]

/-- C25 (as written): the configuration file of `b` gives `build_cmd` the
value `"make"`, in double quotes; `config b build_cmd ""` returns 0 and
leaves a line for `build_cmd` in the file, but the next `load_workspaces`
gives `build_cmd` the value `make`, not the previous one. -/
theorem cleared_field_restored_counterexample :
    (load_workspaces demo_env.home quoted_build_world.files).map
        (fun w => (w.name, w.build_cmd)) = [("b".toList, "\"make\"".toList)] ∧
    (cmd_config demo_env ["b".toList, "build_cmd".toList, []] quoted_build_world).1 = 0 ∧
    (cmd_config demo_env ["b".toList, "build_cmd".toList, []] quoted_build_world).2.files
        "/p/.ws/config".toList =
      some ("build_cmd: \"make\"\ndescription: \ndisplay_name: b\nisolated: false\n".toList ++
        "lang: generic\nname: b\n".toList) ∧
    (load_workspaces demo_env.home
        (cmd_config demo_env ["b".toList, "build_cmd".toList, []]
          quoted_build_world).2.files).map
        (fun w => (w.name, w.build_cmd)) = [("b".toList, "make".toList)] := by
  refine ⟨?_, ?_, ?_, ?_⟩ <;> decide

/-- C25 (amended): for a record `load_workspaces` returns, an optional field
(`build_cmd`, `clean_cmd`, `run_cmd`, `test_cmd`, `created`, `author`) that
is not empty, has no leading or trailing whitespace and is not wrapped in
double quotes: when the field is set to the empty string and the record is
saved, the line of the old value is still in the configuration file and the
next `load_config` gives the field the old value. The same holds for an
entry removed from `env_vars`. And `cmd_config` with an empty value for
`build_cmd`, `clean_cmd`, `run_cmd` or `test_cmd` returns 0, after which
`load_workspaces` returns at the same position a record with the old
value. -/
theorem cleared_field_restored (env : ProcEnv) (world : World) (w : Workspace)
    (hw : w ∈ load_workspaces env.home world.files) :
    (∀ f : OptField, f.get w ≠ [] → Storable (f.get w) →
      (∃ text, ((f.clear w).save_config world.files).2 w.cfg_path = some text ∧
        entry_line (f.key, f.get w) ∈ getlines text) ∧
      f.get ((named w.name w.path).load_config
        ((f.clear w).save_config world.files).2).2 = f.get w) ∧
    (∀ k v : Str, w.env_vars.find k = some v → Storable v →
      (∃ text,
        (({ w with env_vars := w.env_vars.erase k } : Workspace).save_config
          world.files).2 w.cfg_path = some text ∧
        entry_line ("env.".toList ++ k, v) ∈ getlines text) ∧
      ((named w.name w.path).load_config
        (({ w with env_vars := w.env_vars.erase k } : Workspace).save_config
          world.files).2).2.env_vars.find k = some v) ∧
    (∀ (name : Str) (i : Nat) (f : OptField),
      find_ws (load_workspaces env.home world.files) name = some i →
      (load_workspaces env.home world.files).get? i = some w →
      f ∈ config_fields → f.get w ≠ [] → Storable (f.get w) →
      (cmd_config env [name, f.key, []] world).1 = 0 ∧
      ∃ w2,
        (load_workspaces env.home (cmd_config env [name, f.key, []] world).2.files).get? i =
          some w2 ∧
        f.get w2 = f.get w) := by
  refine ⟨fun f hne hstor => cleared_field_reload hw f hne hstor,
    fun k v hv hstor => erased_env_reload hw hv hstor, ?_⟩
  intro name i f hfound hget hf hne hstor
  refine ⟨by rw [cmd_config_clear_eq hfound hget hf], _,
    load_workspaces_after_clear hfound hget hf, (cleared_field_reload hw f hne hstor).2⟩

theorem cleared_field_restored_witness :
    (build_record ∈ load_workspaces demo_env.home build_world.files ∧
      OptField.build_cmd.get build_record ≠ [] ∧
      Storable (OptField.build_cmd.get build_record) ∧
      build_record.env_vars.find "CC".toList = some "gcc".toList ∧ Storable "gcc".toList ∧
      find_ws (load_workspaces demo_env.home build_world.files) "b".toList = some 0 ∧
      (load_workspaces demo_env.home build_world.files).get? 0 = some build_record ∧
      OptField.build_cmd ∈ config_fields) ∧
    OptField.build_cmd.get
        ((named build_record.name build_record.path).load_config
          ((OptField.build_cmd.clear build_record).save_config build_world.files).2).2 =
      OptField.build_cmd.get build_record ∧
    ((named build_record.name build_record.path).load_config
        (({ build_record with env_vars := build_record.env_vars.erase "CC".toList } :
          Workspace).save_config build_world.files).2).2.env_vars.find "CC".toList =
      some "gcc".toList ∧
    (cmd_config demo_env ["b".toList, OptField.build_cmd.key, []] build_world).1 = 0 :=
  ⟨⟨by decide, by decide, by decide, by decide, by decide, by decide, rfl, by decide⟩,
    ((cleared_field_restored demo_env build_world build_record (by decide)).1
      OptField.build_cmd (by decide) (by decide)).2,
    ((cleared_field_restored demo_env build_world build_record (by decide)).2.1
      "CC".toList "gcc".toList (by decide) (by decide)).2,
    ((cleared_field_restored demo_env build_world build_record (by decide)).2.2
      "b".toList 0 OptField.build_cmd (by decide) rfl (by decide) (by decide) (by decide)).1⟩

theorem trimmed_iff (raw t : Str) : Trimmed raw t ↔ ConfigParser.trim raw = t := by
  constructor
  · rintro ⟨a, b, ha, hb, ht, rfl⟩
    exact trim_unique ha hb ht
  · intro h
    obtain ⟨a, b, ha, hb, hs⟩ := trim_spec raw
    exact ⟨a, b, ha, hb, h ▸ trim_tight raw, h ▸ hs⟩

theorem trimmed_trim (raw : Str) : Trimmed raw (ConfigParser.trim raw) :=
  (trimmed_iff raw _).2 rfl

theorem ignoredLine_iff (raw : Str) : Ignorable raw ↔ IgnoredLine raw := by
  constructor
  · intro h
    exact ⟨_, trimmed_trim raw, h⟩
  · rintro ⟨line, ht, h⟩
    rw [← (trimmed_iff raw line).1 ht] at h
    exact h

theorem storedAs_set (c : ConfigParser) (key val : Str) :
    StoredAs c (c.set key val) key val := by
  constructor
  · intro v
    rw [mem_iff_lookup (c.set key val).data.ascending]
    have := find_set c key val key
    unfold StrMap.find at this
    rw [this, if_pos rfl]
    constructor
    · intro h; exact (Option.some.inj h).symm
    · intro h; rw [h]
  · intro k v hk
    rw [mem_iff_lookup (c.set key val).data.ascending, mem_iff_lookup c.data.ascending]
    have := find_set c key val k
    unfold StrMap.find at this
    rw [this, if_neg hk]

theorem unquoted_strip (val : Str) : Unquoted val (ConfigParser.strip_quotes val) := by
  by_cases h : Quoted val
  · obtain ⟨mid, hm, hs⟩ := strip_quotes_quoted h
    exact Or.inl ⟨h, by rw [hs]; exact hm⟩
  · exact Or.inr ⟨h, strip_quotes_not_quoted h⟩

theorem parse_line_trimmed {raw line : Str} (h : Trimmed raw line) :
    ConfigParser.parse_line raw = ConfigParser.parse_line line := by
  have h1 := (trimmed_iff raw line).1 h
  have h2 : ConfigParser.trim line = line := by rw [← h1]; exact trim_trim raw
  unfold ConfigParser.parse_line
  rw [h1, h2]


/-- C4: a line that, without its leading and trailing whitespace, is not
empty, does not start with `#` and contains a `:` or a `=` splits at its
separator, the first `:` or, when there is no `:`, the first `=`; after
`load` has read the line, the store holds under the key, which is the text
before the separator without its leading and trailing whitespace, the text
after the separator without its leading and trailing whitespace, less its
pair of double quotes when it has one, and every other key is as it was. The
line `a=b:c` is stored under the key `a=b` with the value `c`. -/
theorem load_line_splits_at_separator :
    (∀ (c : ConfigParser) (raw line : Str), Trimmed raw line → line ≠ [] →
      line.head? ≠ some '#' → (':' ∈ line ∨ '=' ∈ line) →
      ∃ pre sep post key val v, line = pre ++ sep :: post ∧ IsSeparator pre sep post ∧
        Trimmed pre key ∧ Trimmed post val ∧ Unquoted val v ∧
        StoredAs c (c.load_line raw) key v) ∧
    (ConfigParser.empty.load_line "a=b:c".toList).data.entries =
      [("a=b".toList, "c".toList)] ∧
    (ConfigParser.empty.load_line " k = v:w ".toList).data.entries =
      [("k = v".toList, "w".toList)] ∧
    (ConfigParser.empty.load_line "\tx =  1 \r".toList).data.entries =
      [("x".toList, "1".toList)] := by
  refine ⟨?_, by decide, by decide, by decide⟩
  intro c raw line ht hne hh hsep
  have hp := parse_line_trimmed ht
  have hl : ConfigParser.trim line = line := by
    have h1 := (trimmed_iff raw line).1 ht
    rw [← h1]; exact trim_trim raw
  cases hpl : ConfigParser.parse_line line with
  | none =>
    have hi := (parse_line_eq_none_iff line).1 hpl
    unfold Ignorable at hi
    rw [hl] at hi
    rcases hi with h | h | h
    · exact absurd h hne
    · exact absurd h hh
    · rcases hsep with h' | h'
      · exact absurd h' h.1
      · exact absurd h' h.2
  | some kv =>
    obtain ⟨k, v⟩ := kv
    obtain ⟨pre, sep, post, h1, h2, h3, h4⟩ := parse_line_some hpl
    refine ⟨pre, sep, post, ConfigParser.trim pre, ConfigParser.trim post,
      ConfigParser.strip_quotes (ConfigParser.trim post), h1, h2, trimmed_trim pre,
      trimmed_trim post, unquoted_strip _, ?_⟩
    have e : c.load_line raw = c.set k v := by
      unfold ConfigParser.load_line
      rw [hp, hpl]
    rw [e, h3, h4]
    exact storedAs_set c _ _

theorem load_line_splits_at_separator_witness :
    (Trimmed " k = v:w ".toList "k = v:w".toList ∧ "k = v:w".toList ≠ [] ∧
      "k = v:w".toList.head? ≠ some '#' ∧
      (':' ∈ "k = v:w".toList ∨ '=' ∈ "k = v:w".toList)) ∧
    ∃ pre sep post key val v, "k = v:w".toList = pre ++ sep :: post ∧
      IsSeparator pre sep post ∧ Trimmed pre key ∧ Trimmed post val ∧ Unquoted val v ∧
      StoredAs ConfigParser.empty (ConfigParser.empty.load_line " k = v:w ".toList) key v :=
  ⟨⟨(trimmed_iff _ _).2 (by decide), by decide, by decide, by decide⟩,
    load_line_splits_at_separator.1 ConfigParser.empty " k = v:w ".toList "k = v:w".toList
      ((trimmed_iff _ _).2 (by decide)) (by decide) (by decide) (by decide)⟩

/-- C5: a line that, without its leading and trailing whitespace, is empty,
starts with `#` or contains neither `:` nor `=` is the kind of line
`remove_ignorable` takes out of a content; `load` leaves the store as it is
on such a line, and loading a file gives the same result and the same store
as loading the file without these lines. A file of a comment line with a
`:`, an empty line, a line of whitespace, a line without separator and the
line `k: v` loads as the single entry of `k`. -/
theorem load_ignores_ignorable_lines :
    (∀ raw : Str, Ignorable raw ↔ IgnoredLine raw) ∧
    (∀ (c : ConfigParser) (raw : Str), IgnoredLine raw → c.load_line raw = c) ∧
    (∀ (c : ConfigParser) (fs : FileSystem) (path content : Str),
      c.load (fs.write path (remove_ignorable content)) path =
        c.load (fs.write path content) path) ∧
    remove_ignorable "  # k: v\n\n \t \nplain\nk: v\n".toList = "k: v\n".toList ∧
    ((ConfigParser.empty.load
        (FileSystem.none.write "f".toList "  # k: v\n\n \t \nplain\nk: v\n".toList)
        "f".toList).2).data.entries = [("k".toList, "v".toList)] := by
  refine ⟨ignoredLine_iff, ?_, ?_, by decide, by decide⟩
  · intro c raw h
    exact load_line_of_ignorable ((ignoredLine_iff raw).2 h) c
  · intro c fs path content
    rw [load_write, load_write]
    unfold remove_ignorable
    rw [getlines_unlines, load_lines_filter]
    intro l hl
    exact getlines_no_newline content l (List.mem_of_mem_filter hl)

theorem load_ignores_ignorable_lines_witness :
    IgnoredLine "  # k: v".toList ∧
    (ConfigParser.empty.set "a".toList "b".toList).load_line "  # k: v".toList =
      ConfigParser.empty.set "a".toList "b".toList :=
  ⟨(ignoredLine_iff _).1 (by decide),
    load_ignores_ignorable_lines.2.1 _ _ ((ignoredLine_iff _).1 (by decide))⟩

/-- C6: when the text after the separator of a line, without its leading and
trailing whitespace, has size at least 2 and starts and ends with a double
quote, the store holds under the key of the line, after `load` has read it,
this text without its first and its last character, and nothing else is taken
away: of `""v""` the value `"v"` is stored; a text that is a single double
quote is stored as it is; `save` writes the line `key: value` for each entry,
the value as it is stored, quotes included. -/
theorem load_strips_one_pair_of_quotes :
    (∀ (c : ConfigParser) (raw line pre post key val : Str) (sep : Char),
      Trimmed raw line → line.head? ≠ some '#' → line = pre ++ sep :: post →
      IsSeparator pre sep post → Trimmed pre key → Trimmed post val → Quoted val →
      ∃ mid, val = '"' :: mid ++ ['"'] ∧ StoredAs c (c.load_line raw) key mid) ∧
    (∀ (c : ConfigParser) (raw line pre post key : Str) (sep : Char),
      Trimmed raw line → line.head? ≠ some '#' → line = pre ++ sep :: post →
      IsSeparator pre sep post → Trimmed pre key → Trimmed post ['"'] →
      StoredAs c (c.load_line raw) key ['"']) ∧
    (∀ (c : ConfigParser) (fs : FileSystem) (path : Str),
      c.save fs path path =
        some (unlines (c.data.entries.map (fun e => e.1 ++ ": ".toList ++ e.2)))) ∧
    (ConfigParser.empty.load_line " k : \"\"v\"\" ".toList).data.entries =
      [("k".toList, "\"v\"".toList)] ∧
    (ConfigParser.empty.load_line "k=\"".toList).data.entries =
      [("k".toList, "\"".toList)] ∧
    (ConfigParser.empty.load_line " k : \"\"v\"\" ".toList).save FileSystem.none "f".toList
      "f".toList = some "k: \"v\"\n".toList := by
  have key_lemma : ∀ (c : ConfigParser) (raw line pre post key val : Str) (sep : Char),
      Trimmed raw line → line.head? ≠ some '#' → line = pre ++ sep :: post →
      IsSeparator pre sep post → Trimmed pre key → Trimmed post val →
      c.load_line raw = c.set key (ConfigParser.strip_quotes val) := by
    intro c raw line pre post key val sep ht hh hl hs hk hv
    have hp := parse_line_trimmed ht
    have htl : ConfigParser.trim line = line := by
      have h1 := (trimmed_iff raw line).1 ht
      rw [← h1]; exact trim_trim raw
    rw [hl] at hh htl hp
    have hsplit := parse_line_split hs (by rw [htl]; exact hh)
    unfold ConfigParser.load_line
    rw [hp, hsplit, (trimmed_iff _ _).1 hk, (trimmed_iff _ _).1 hv]
  refine ⟨?_, ?_, ?_, by decide, by decide, by decide⟩
  · intro c raw line pre post key val sep ht hh hl hs hk hv hq
    obtain ⟨mid, hm, hst⟩ := strip_quotes_quoted hq
    refine ⟨mid, hm, ?_⟩
    rw [key_lemma c raw line pre post key val sep ht hh hl hs hk hv, hst]
    exact storedAs_set c _ _
  · intro c raw line pre post key sep ht hh hl hs hk hv
    rw [key_lemma c raw line pre post key ['"'] sep ht hh hl hs hk hv]
    exact storedAs_set c _ _
  · intro c fs path
    simp only [ConfigParser.save, FileSystem.write, if_true, save_text_eq]
    rfl

theorem load_strips_one_pair_of_quotes_witness :
    (Trimmed " k : \"\"v\"\" ".toList "k : \"\"v\"\"".toList ∧
      "k : \"\"v\"\"".toList.head? ≠ some '#' ∧
      "k : \"\"v\"\"".toList = "k ".toList ++ ':' :: " \"\"v\"\"".toList ∧
      IsSeparator "k ".toList ':' " \"\"v\"\"".toList ∧ Trimmed "k ".toList "k".toList ∧
      Trimmed " \"\"v\"\"".toList "\"\"v\"\"".toList ∧ Quoted "\"\"v\"\"".toList) ∧
    (∃ mid, "\"\"v\"\"".toList = '"' :: mid ++ ['"'] ∧
      StoredAs ConfigParser.empty (ConfigParser.empty.load_line " k : \"\"v\"\" ".toList)
        "k".toList mid) ∧
    (Trimmed "k=\"".toList "k=\"".toList ∧ "k=\"".toList.head? ≠ some '#' ∧
      "k=\"".toList = "k".toList ++ '=' :: "\"".toList ∧
      IsSeparator "k".toList '=' "\"".toList ∧ Trimmed "k".toList "k".toList ∧
      Trimmed "\"".toList ['"']) ∧
    StoredAs ConfigParser.empty (ConfigParser.empty.load_line "k=\"".toList) "k".toList
      ['"'] :=
  ⟨⟨(trimmed_iff _ _).2 (by decide), by decide, by decide, by decide,
      (trimmed_iff _ _).2 (by decide), (trimmed_iff _ _).2 (by decide), by decide⟩,
    load_strips_one_pair_of_quotes.1 ConfigParser.empty " k : \"\"v\"\" ".toList
      "k : \"\"v\"\"".toList "k ".toList " \"\"v\"\"".toList "k".toList "\"\"v\"\"".toList ':'
      ((trimmed_iff _ _).2 (by decide)) (by decide) (by decide) (by decide)
      ((trimmed_iff _ _).2 (by decide)) ((trimmed_iff _ _).2 (by decide)) (by decide),
    ⟨(trimmed_iff _ _).2 (by decide), by decide, by decide, by decide,
      (trimmed_iff _ _).2 (by decide), (trimmed_iff _ _).2 (by decide)⟩,
    load_strips_one_pair_of_quotes.2.1 ConfigParser.empty "k=\"".toList "k=\"".toList
      "k".toList "\"".toList "k".toList '='
      ((trimmed_iff _ _).2 (by decide)) (by decide) (by decide) (by decide)
      ((trimmed_iff _ _).2 (by decide)) ((trimmed_iff _ _).2 (by decide))⟩

theorem get_of_mem (c : ConfigParser) (k v dflt : Str) (h : (k, v) ∈ c.data.entries) :
    c.get k dflt = v := by
  unfold ConfigParser.get StrMap.find
  rw [(mem_iff_lookup c.data.ascending k v).1 h]

theorem get_of_not_mem (c : ConfigParser) (k dflt : Str)
    (h : ∀ v, (k, v) ∉ c.data.entries) : c.get k dflt = dflt := by
  unfold ConfigParser.get StrMap.find
  cases hl : lookupEntry k c.data.entries with
  | none => rfl
  | some v => exact absurd ((mem_iff_lookup c.data.ascending k v).2 hl) (h v)

/-- C7: when the configuration file exists, `load_config` succeeds, its
store is the store of the record after the lines of the file are read, and
it sets `display_name` to the value the store holds under `display_name`, or
to the name of the record when the store has no entry of this key; `lang` to
the value the store holds under `lang`, or to `generic` when the store has no
entry of this key; and `isolated` to true exactly when the store holds the
string `true` under `isolated`. A file with `lang: go` and
`display_name = "Demo"` gives the language `go` and the display name `Demo`,
an empty file the language `generic` and the name of the record; of the
values `true`, `True`, `1` and `yes` of `isolated`, and of no value, only
`true` gives true. -/
theorem load_config_defaults :
    (∀ (w : Workspace) (fs : FileSystem) (content : Str), fs w.cfg_path = some content →
      (w.load_config fs).1 = true ∧
      (w.load_config fs).2.config = w.config.load_lines (getlines content) ∧
      (∀ v, ("display_name".toList, v) ∈ (w.load_config fs).2.config.data.entries →
        (w.load_config fs).2.display_name = v) ∧
      ((∀ v, ("display_name".toList, v) ∉ (w.load_config fs).2.config.data.entries) →
        (w.load_config fs).2.display_name = w.name) ∧
      (∀ v, ("lang".toList, v) ∈ (w.load_config fs).2.config.data.entries →
        (w.load_config fs).2.lang = v) ∧
      ((∀ v, ("lang".toList, v) ∉ (w.load_config fs).2.config.data.entries) →
        (w.load_config fs).2.lang = "generic".toList) ∧
      ((w.load_config fs).2.isolated = true ↔
        ("isolated".toList, "true".toList) ∈ (w.load_config fs).2.config.data.entries)) ∧
    (fun r : Workspace => (r.display_name, r.lang, r.isolated))
        ((named "demo".toList "/p".toList).load_config
          (FileSystem.none.write "/p/.ws/config".toList
            "lang: go\ndisplay_name = \"Demo\"\nisolated: true\n".toList)).2 =
      ("Demo".toList, "go".toList, true) ∧
    (∀ content : Str,
      content ∈ ["".toList, "isolated: True\n".toList, "isolated: 1\n".toList,
        "isolated: yes\n".toList, "isolated:\n".toList, "name: other\n".toList] →
      (fun r : Workspace => (r.display_name, r.lang, r.isolated))
          ((named "demo".toList "/p".toList).load_config
            (FileSystem.none.write "/p/.ws/config".toList content)).2 =
        ("demo".toList, "generic".toList, false)) := by
  refine ⟨?_, by decide, by decide⟩
  intro w fs content h
  have hl : w.load_config fs =
      (true, w.assign_fields (w.config.load_lines (getlines content))) := by
    simp [Workspace.load_config, ConfigParser.load, h]
  rw [hl]
  refine ⟨rfl, rfl, ?_, ?_, ?_, ?_, ?_⟩
  · intro v hv
    exact get_of_mem _ _ _ _ hv
  · intro hv
    exact get_of_not_mem _ _ _ hv
  · intro v hv
    exact get_of_mem _ _ _ _ hv
  · intro hv
    exact get_of_not_mem _ _ _ hv
  · show decide ((w.config.load_lines (getlines content)).get "isolated".toList [] =
      "true".toList) = true ↔ _
    rw [decide_eq_true_eq]
    constructor
    · intro hg
      unfold ConfigParser.get StrMap.find at hg
      cases hf : lookupEntry "isolated".toList
          (w.config.load_lines (getlines content)).data.entries with
      | none =>
        rw [hf] at hg
        exact absurd hg (by show ¬ (([] : Str) = "true".toList); decide)
      | some v =>
        rw [hf] at hg
        simp only at hg
        rw [hg] at hf
        exact (mem_iff_lookup (ConfigParser.data _).ascending _ _).2 hf
    · intro hm
      exact get_of_mem _ _ _ _ hm

theorem load_config_defaults_witness :
    demo_config_fs (named "demo".toList "/p".toList).cfg_path =
      some "isolated: True\nlang = \"rust\"\n".toList ∧
    ((named "demo".toList "/p".toList).load_config demo_config_fs).1 = true ∧
    ((named "demo".toList "/p".toList).load_config demo_config_fs).2.config.data.entries =
      [("isolated".toList, "True".toList), ("lang".toList, "rust".toList)] ∧
    (∀ v, ("lang".toList, v) ∈
        ((named "demo".toList "/p".toList).load_config demo_config_fs).2.config.data.entries →
      ((named "demo".toList "/p".toList).load_config demo_config_fs).2.lang = v) ∧
    ((named "demo".toList "/p".toList).load_config demo_config_fs).2.display_name =
      "demo".toList ∧
    ((named "demo".toList "/p".toList).load_config demo_config_fs).2.lang = "rust".toList ∧
    ((named "demo".toList "/p".toList).load_config demo_config_fs).2.isolated = false :=
  ⟨by decide,
    (load_config_defaults.1 (named "demo".toList "/p".toList) demo_config_fs
      "isolated: True\nlang = \"rust\"\n".toList (by decide)).1,
    by decide,
    (load_config_defaults.1 (named "demo".toList "/p".toList) demo_config_fs
      "isolated: True\nlang = \"rust\"\n".toList (by decide)).2.2.2.2.1,
    by decide, by decide, by decide⟩

/-- C19 (divergence): in `stray_makefile_world` the workspace `b` is
registered with an empty build command and nothing is at its root `/p`, so
the root holds none of the build descriptors; `cmd_build` goes on behind the
failed `chdir`, finds the `Makefile` of the working directory and returns
what `system("make")` returns there: with a `make` that succeeds and writes
`/work/main.o`, the status is 0, one command is run and a file is
created. -/
theorem cmd_build_missing_root :
    find_ws (load_workspaces demo_env.home stray_makefile_world.files) "b".toList = some 0 ∧
    (load_workspaces demo_env.home stray_makefile_world.files).map
        (fun w => (w.name, w.path, w.build_cmd)) = [("b".toList, "/p".toList, [])] ∧
    stray_makefile_world.path_exists "/p".toList = false ∧
    (∀ d ∈ build_descriptors,
      stray_makefile_world.path_exists ("/p/".toList ++ d) = false) ∧
    (∀ sys : System,
      cmd_build demo_env sys ["b".toList] stray_makefile_world =
        run_system sys "make".toList none stray_makefile_world) ∧
    (cmd_build demo_env make_runs ["b".toList] stray_makefile_world).status = 0 ∧
    (cmd_build demo_env make_runs ["b".toList] stray_makefile_world).commands =
      ["make".toList] ∧
    stray_makefile_world.files "/work/main.o".toList = none ∧
    (cmd_build demo_env make_runs ["b".toList] stray_makefile_world).world.files
      "/work/main.o".toList = some [] := by
  refine ⟨by decide, by decide, by decide, by decide, fun sys => rfl, by decide, by decide,
    by decide, by decide⟩

/-- How paths are resolved: a final `/`, a repeated `/` and the name `.`
change nothing, `..` goes up, a relative path starts from the working
directory, every path is in the tree of the root, a path that only starts
with the text of another is not in its tree, and a path that leaves a tree
by `..` goes through it. -/
theorem resolve_examples :
    resolve "/work".toList "/w/b/".toList = ["w".toList, "b".toList] ∧
    resolve "/work".toList "/w//b/./c/..".toList = ["w".toList, "b".toList] ∧
    resolve "/work".toList "b/c".toList = ["work".toList, "b".toList, "c".toList] ∧
    resolve "/work".toList "../x".toList = ["x".toList] ∧
    spell (resolve "/work".toList "b/c/".toList) = "/work/b/c".toList ∧
    spell (resolve "/work".toList "/".toList) = "/".toList ∧
    in_tree "/".toList "/w/b/".toList "/w/b/c/.ws/config".toList = true ∧
    in_tree "/".toList "/".toList "/w/b/c/.ws/config".toList = true ∧
    in_tree "/".toList "/w/b".toList "/w/bc/.ws/config".toList = false ∧
    in_tree "/".toList "/w/b".toList "/w/b/../x".toList = true ∧
    in_tree "/".toList "/w/b".toList "/w/x/../c".toList = false ∧
    in_tree "/w".toList "b".toList "/w/b/c".toList = true ∧
    same_file "/".toList "/p//.ws/config".toList "/p/.ws/config".toList = true ∧
    same_file "/".toList "/p/.ws/config".toList "/q/.ws/config".toList = false := by
  refine ⟨?_, ?_, ?_, ?_, ?_, ?_, ?_, ?_, ?_, ?_, ?_, ?_, ?_, ?_⟩ <;> decide

set_option maxRecDepth 20000 in
/-- When `fs::create_directories` throws: `cmd_create` does not return when
a regular file is at the path of the new workspace or above it, or when the
name has more than 255 bytes. -/
theorem cmd_create_throws :
    (cmd_create demo_env ["demo".toList]
        { empty_world with
          files := FileSystem.none.write "/h/.local/share/dreamland/workspaces/demo".toList
            [] }).isNone = true ∧
    (cmd_create demo_env ["demo".toList]
        { empty_world with
          files := FileSystem.none.write "/h/.local".toList [] }).isNone = true ∧
    (cmd_create demo_env [List.replicate 300 'a'] empty_world).isNone = true ∧
    (cmd_create demo_env ["demo".toList] empty_world).isSome = true := by
  refine ⟨?_, ?_, ?_, ?_⟩ <;> decide

/-- With the workspace `b` registered at `/w/b/`, a path with a final `/`,
the forced deletion of `b` removes the configuration file of `c` at
`/w/b/c`. -/
theorem cmd_delete_trailing_slash :
    (cmd_delete demo_env [] ["b".toList, "--force".toList]
        { nested_world with
          files := nested_world.files.write (ws_config (some "/h".toList))
            "[b]\npath=/w/b/\n\n[c]\npath=/w/b/c\n\n".toList }).2.files
      "/w/b/c/.ws/config".toList = none := by
  decide

end Dreamland
